import Mathlib

/-!
RTIN mesh generation (`pkg/martini/martini.go`)

A shallow embedding of `New`, `NewTile`/`update` and `GetMesh`, at two levels.

The first level computes with mathematical numbers.

* Go `int` values are mathematical integers (`Int`), and `make` allocates without limit.
* Go `float64` heights and errors are rationals (`ℚ`): exact arithmetic, no NaN, no
  rounding, no overflow to infinity.

The second level (`New64`, `NewTile64`, `GetMesh64` and the definitions they use) computes
as the machine does.

* `New64` uses 64-bit two's-complement arithmetic (`wrap64`) and a `make` that refuses
  lengths above the limit the machine grants.  On every grid whose arrays are granted it
  is `New` (`New64_eq_New`); every Martini a machine can hold is therefore one of the
  first level, and on such a grid no index computation of `update` or `GetMesh` wraps.
* `NewTile64` and `GetMesh64` use IEEE 754 binary64 values (`F64`) with rounding,
  infinities and NaN.  `GetMesh64` is `GetMesh` on the tile of its split decisions
  (`GetMesh64_eq`), so all statements about the shape of the output carry over.

At both levels:

* Slices are lists.  A slice access outside `[0, len)` and a `make` with a refused
  length are run-time panics in Go; here they are `Except.error` values, as are the
  two explicit `panic` calls of the source.
* The recursive closures of `GetMesh` take a recursion budget (`fuel`); running out
  of budget is reported as `Fault.outOfFuel`, never as a result.
-/

namespace Gomartini

/-- Ways in which a call can stop without returning a value. -/
inductive Fault where
  | invalidGridSize
  | invalidTerrainLength
  | negativeLength
  | indexOutOfRange
  | outOfFuel
  | lengthOutOfRange
  deriving DecidableEq, Repr

/-- Result of a Go call that may panic. -/
abbrev Go (α : Type) := Except Fault α

/-- Go `make([]int, n)`: panics when `n` is negative. -/
def make (n : Int) : Go (List Int) :=
  if n < 0 then .error .negativeLength else .ok (List.replicate n.toNat 0)

/-- Go `make([]float64, n)`. -/
def makeFloats (n : Int) : Go (List ℚ) :=
  if n < 0 then .error .negativeLength else .ok (List.replicate n.toNat 0)

/-- Slice read `xs[i]`: panics outside `[0, len xs)`. -/
def rd {α : Type} (xs : List α) (i : Int) : Go α :=
  if i < 0 then .error .indexOutOfRange
  else match xs[i.toNat]? with
    | some v => .ok v
    | none => .error .indexOutOfRange

/-- Slice write `xs[i] = v`: panics outside `[0, len xs)`. -/
def wr {α : Type} (xs : List α) (i : Int) (v : α) : Go (List α) :=
  if i < 0 then .error .indexOutOfRange
  else if i.toNat < xs.length then .ok (xs.set i.toNat v)
  else .error .indexOutOfRange

/-- Go `x >> 1` on `int` (arithmetic shift). -/
def half (x : Int) : Int := x >>> (1 : Nat)

/-- The six integers `ax, ay, bx, by, cx, cy` that the source passes around. -/
structure Tri where
  ax : Int
  ay : Int
  bx : Int
  by_ : Int
  cx : Int
  cy : Int
  deriving DecidableEq, Repr

/-- The x coordinate `(ax + bx) >> 1` of the hypotenuse midpoint. -/
def Tri.mx (t : Tri) : Int := half (t.ax + t.bx)

/-- The y coordinate `(ay + by) >> 1` of the hypotenuse midpoint. -/
def Tri.my (t : Tri) : Int := half (t.ay + t.by_)

/-- The call `f(cx, cy, ax, ay, mx, my)` of the source: first child. -/
def Tri.left (t : Tri) : Tri := ⟨t.cx, t.cy, t.ax, t.ay, t.mx, t.my⟩

/-- The call `f(bx, by, cx, cy, mx, my)` of the source: second child. -/
def Tri.right (t : Tri) : Tri := ⟨t.bx, t.by_, t.cx, t.cy, t.mx, t.my⟩

/-- The struct `Martini`. -/
structure Martini where
  gridSize : Int
  numTriangles : Int
  numParentTriangles : Int
  indices : List Int
  coords : List Int
  deriving DecidableEq, Repr

/-- Initial corners chosen in `New` from the lowest bit of `id`. -/
def rootOf (tileSize : Int) (id : Nat) : Tri :=
  if id &&& 1 ≠ 0 then ⟨0, 0, tileSize, tileSize, tileSize, 0⟩
  else ⟨tileSize, tileSize, 0, 0, 0, tileSize⟩

/-- One iteration of the inner loop of `New` (without the final `id >>= 1`). -/
def bisect (id : Nat) (t : Tri) : Tri :=
  if id &&& 1 ≠ 0 then ⟨t.cx, t.cy, t.ax, t.ay, t.mx, t.my⟩
  else ⟨t.bx, t.by_, t.cx, t.cy, t.mx, t.my⟩

/-- The inner loop `for id > 1 { ... id >>= 1 }` of `New`.  The first argument bounds
the number of iterations; `descend_fuel` shows that `id` iterations always suffice. -/
def descend : Nat → Nat → Tri → Tri
  | 0, _, t => t
  | fuel + 1, id, t => if id > 1 then descend fuel (id >>> 1) (bisect id t) else t

/-- The values of `ax, ay, bx, by, cx, cy` in `New` when the record of triangle `i`
is stored. -/
def triangleOf (tileSize : Int) (i : Nat) : Tri :=
  let id := i + 2
  descend id (id >>> 1) (rootOf tileSize id)

/-- The four stores `coords[k+0..k+3]` of one iteration of the outer loop of `New`. -/
def storeTriangle (tileSize : Int) (i : Nat) (coords : List Int) : Go (List Int) := do
  let t := triangleOf tileSize i
  let k : Int := (i : Int) * 4
  let coords ← wr coords (k + 0) t.ax
  let coords ← wr coords (k + 1) t.ay
  let coords ← wr coords (k + 2) t.bx
  wr coords (k + 3) t.by_

/-- The outer loop of `New`: `n` further iterations starting at index `i`. -/
def fillCoords (tileSize : Int) : Nat → Nat → List Int → Go (List Int)
  | 0, _, coords => .ok coords
  | n + 1, i, coords => do
    let coords ← storeTriangle tileSize i coords
    fillCoords tileSize n (i + 1) coords

/-- The function `New`. -/
def New (gridSize : Int) : Go Martini := do
  let tileSize := gridSize - 1
  if Int.land tileSize (tileSize - 1) ≠ 0 then
    .error .invalidGridSize
  else
    let numTriangles := tileSize * tileSize * 2 - 2
    let numParentTriangles := numTriangles - tileSize * tileSize
    let indices ← make (gridSize * gridSize)
    let coords ← make (numTriangles * 4)
    let coords ← fillCoords tileSize numTriangles.toNat 0 coords
    pure
      { gridSize := gridSize
        numTriangles := numTriangles
        numParentTriangles := numParentTriangles
        indices := indices
        coords := coords }

/-- The struct `Tile`; the pointer field `martini` is held by value. -/
structure Tile where
  terrain : List ℚ
  martini : Martini
  errors : List ℚ
  deriving DecidableEq

/-- One iteration of the loop of `Tile.update`, for triangle index `i`. -/
def updateStep (m : Martini) (terrain : List ℚ) (i : Int) (errors : List ℚ) :
    Go (List ℚ) := do
  let k := i * 4
  let ax ← rd m.coords (k + 0)
  let ay ← rd m.coords (k + 1)
  let bx ← rd m.coords (k + 2)
  let by_ ← rd m.coords (k + 3)
  let mx := half (ax + bx)
  let my := half (ay + by_)
  let cx := mx + my - ay
  let cy := my + ax - mx
  let ta ← rd terrain (ay * m.gridSize + ax)
  let tb ← rd terrain (by_ * m.gridSize + bx)
  let interpolatedHeight := (ta + tb) / 2
  let middleIndex := my * m.gridSize + mx
  let tm ← rd terrain middleIndex
  let middleError := |interpolatedHeight - tm|
  let em ← rd errors middleIndex
  let errors ← wr errors middleIndex (max em middleError)
  if i < m.numParentTriangles then
    let leftChildIndex := half (ay + cy) * m.gridSize + half (ax + cx)
    let rightChildIndex := half (by_ + cy) * m.gridSize + half (bx + cx)
    let em ← rd errors middleIndex
    let el ← rd errors leftChildIndex
    let er ← rd errors rightChildIndex
    wr errors middleIndex (max (max em el) er)
  else
    pure errors

/-- The loop of `Tile.update` for `i = n-1, n-2, ..., 0`. -/
def updateLoop (m : Martini) (terrain : List ℚ) : Nat → List ℚ → Go (List ℚ)
  | 0, errors => .ok errors
  | n + 1, errors => do
    let errors ← updateStep m terrain (n : Int) errors
    updateLoop m terrain n errors

/-- The method `Tile.update`. -/
def update (t : Tile) : Go Tile := do
  let errors ← updateLoop t.martini t.terrain t.martini.numTriangles.toNat t.errors
  pure { t with errors := errors }

/-- The function `NewTile`. -/
def NewTile (terrain : List ℚ) (martini : Martini) : Go Tile :=
  let size := martini.gridSize
  if (terrain.length : Int) ≠ size * size then
    .error .invalidTerrainLength
  else do
    let errors ← makeFloats terrain.length
    update { terrain := terrain, martini := martini, errors := errors }

/-- The method `Martini.CreateTile`. -/
def Martini.CreateTile (m : Martini) (terrain : List ℚ) : Go Tile :=
  NewTile terrain m

/-- The variables `indices`, `numVertices`, `numTriangles` mutated by the closure
`countElements`. -/
structure CountState where
  indices : List Int
  numVertices : Int
  numTriangles : Int
  deriving DecidableEq, Repr

/-- The variables `vertices`, `triangles`, `triIndex` mutated by the closure
`processTriangle`. -/
structure FillState where
  vertices : List Int
  triangles : List Int
  triIndex : Int
  deriving DecidableEq, Repr

/-- The condition `abs(ax-cx) + abs(ay-cy) > 1 && errors[my*gridSize+mx] > maxError`;
the read happens only when the first conjunct holds. -/
def splits (t : Tile) (maxError : ℚ) (tri : Tri) : Go Bool :=
  if |tri.ax - tri.cx| + |tri.ay - tri.cy| > 1 then do
    let e ← rd t.errors (tri.my * t.martini.gridSize + tri.mx)
    pure (decide (e > maxError))
  else
    pure false

/-- The statement `if indices[y*gridSize+x] == 0 { numVertices++; indices[..] = numVertices }`. -/
def markVertex (gridSize : Int) (x y : Int) (s : CountState) : Go CountState := do
  let v ← rd s.indices (y * gridSize + x)
  if v = 0 then
    let numVertices := s.numVertices + 1
    let indices ← wr s.indices (y * gridSize + x) numVertices
    pure { s with indices := indices, numVertices := numVertices }
  else
    pure s

/-- The else branch of `countElements`. -/
def countLeaf (gridSize : Int) (tri : Tri) (s : CountState) : Go CountState := do
  let s ← markVertex gridSize tri.ax tri.ay s
  let s ← markVertex gridSize tri.bx tri.by_ s
  let s ← markVertex gridSize tri.cx tri.cy s
  pure { s with numTriangles := s.numTriangles + 1 }

/-- The closure `countElements` of `GetMesh`. -/
def countElements (t : Tile) (maxError : ℚ) : Nat → Tri → CountState → Go CountState
  | 0, _, _ => .error .outOfFuel
  | fuel + 1, tri, s => do
    if (← splits t maxError tri) then
      let s ← countElements t maxError fuel tri.left s
      countElements t maxError fuel tri.right s
    else
      countLeaf t.martini.gridSize tri s

/-- The else branch of `processTriangle`. -/
def fillLeaf (gridSize : Int) (indices : List Int) (tri : Tri) (s : FillState) :
    Go FillState := do
  let a := (← rd indices (tri.ay * gridSize + tri.ax)) - 1
  let b := (← rd indices (tri.by_ * gridSize + tri.bx)) - 1
  let c := (← rd indices (tri.cy * gridSize + tri.cx)) - 1
  let vertices ← wr s.vertices (2 * a) tri.ax
  let vertices ← wr vertices (2 * a + 1) tri.ay
  let vertices ← wr vertices (2 * b) tri.bx
  let vertices ← wr vertices (2 * b + 1) tri.by_
  let vertices ← wr vertices (2 * c) tri.cx
  let vertices ← wr vertices (2 * c + 1) tri.cy
  let triangles ← wr s.triangles s.triIndex a
  let triIndex := s.triIndex + 1
  let triangles ← wr triangles triIndex b
  let triIndex := triIndex + 1
  let triangles ← wr triangles triIndex c
  let triIndex := triIndex + 1
  pure { vertices := vertices, triangles := triangles, triIndex := triIndex }

/-- The closure `processTriangle` of `GetMesh`. -/
def processTriangle (t : Tile) (maxError : ℚ) (indices : List Int) :
    Nat → Tri → FillState → Go FillState
  | 0, _, _ => .error .outOfFuel
  | fuel + 1, tri, s => do
    if (← splits t maxError tri) then
      let s ← processTriangle t maxError indices fuel tri.left s
      processTriangle t maxError indices fuel tri.right s
    else
      fillLeaf t.martini.gridSize indices tri s

/-- What `GetMesh` returns, together with the scratch buffer `martini.indices` it
leaves behind. -/
structure Mesh where
  vertices : List Int
  triangles : List Int
  indices : List Int
  deriving DecidableEq, Repr

/-- The method `Tile.GetMesh`; `fuel` bounds the recursion depth of both closures. -/
def GetMesh (fuel : Nat) (t : Tile) (maxError : ℚ) : Go Mesh := do
  let max := t.martini.gridSize - 1
  let indices := t.martini.indices.map (fun _ => (0 : Int))
  let s : CountState := { indices := indices, numVertices := 0, numTriangles := 0 }
  let s ← countElements t maxError fuel ⟨0, 0, max, max, max, 0⟩ s
  let s ← countElements t maxError fuel ⟨max, max, 0, 0, 0, max⟩ s
  let vertices ← make (s.numVertices * 2)
  let triangles ← make (s.numTriangles * 3)
  let f : FillState := { vertices := vertices, triangles := triangles, triIndex := 0 }
  let f ← processTriangle t maxError s.indices fuel ⟨0, 0, max, max, max, 0⟩ f
  let f ← processTriangle t maxError s.indices fuel ⟨max, max, 0, 0, 0, max⟩ f
  pure { vertices := f.vertices, triangles := f.triangles, indices := s.indices }

/-- The whole pipeline `New`, `NewTile`, `GetMesh` on one terrain. -/
def meshOf (fuel : Nat) (gridSize : Int) (terrain : List ℚ) (maxError : ℚ) : Go Mesh := do
  let m ← New gridSize
  let t ← NewTile terrain m
  GetMesh fuel t maxError

end Gomartini

namespace Gomartini

/-! ## Vocabulary for the triangle hierarchy -/

/-- The integer `x` is an odd multiple of `h`. -/
def OddMul (h x : Int) : Prop := ∃ p : Int, x = h * (2 * p + 1)

/-- The integer `x` is an even multiple of `h`. -/
def EvenMul (h x : Int) : Prop := ∃ p : Int, x = h * (2 * p)

/-- Leg scale of a triangle that can still be bisected `r` times: `2 ^ (r / 2)`. -/
def side (r : Nat) : Int := 2 ^ (r / 2)

/-- Position of the right-angle corner of a triangle that can be bisected `r` more
times.  The same predicate, one level up, describes hypotenuse midpoints. -/
def CPos (r : Nat) (x y : Int) : Prop :=
  if r % 2 = 0 then
    (OddMul (side r) x ∧ EvenMul (side r) y) ∨ (EvenMul (side r) x ∧ OddMul (side r) y)
  else OddMul (side r) x ∧ OddMul (side r) y

/-- The leg vector `a - c` of a triangle that can be bisected `r` more times:
axis-parallel of length `side r` for even `r`, diagonal for odd `r`. -/
def ULeg (r : Nat) (ux uy : Int) : Prop :=
  if r % 2 = 0 then
    ((ux = side r ∨ ux = -side r) ∧ uy = 0) ∨ (ux = 0 ∧ (uy = side r ∨ uy = -side r))
  else (ux = side r ∨ ux = -side r) ∧ (uy = side r ∨ uy = -side r)

/-- A triangle of the hierarchy over the square `[0, T]²` that lies `r` bisections
above the unit triangles: right angle at `c`, `b - c` the quarter turn of `a - c`. -/
structure Shaped (T : Int) (r : Nat) (t : Tri) : Prop where
  rotx : t.bx - t.cx = t.ay - t.cy
  roty : t.by_ - t.cy = t.cx - t.ax
  leg : ULeg r (t.ax - t.cx) (t.ay - t.cy)
  apex : CPos r t.cx t.cy
  ax0 : 0 ≤ t.ax
  ax1 : t.ax ≤ T
  ay0 : 0 ≤ t.ay
  ay1 : t.ay ≤ T
  bx0 : 0 ≤ t.bx
  bx1 : t.bx ≤ T
  by0 : 0 ≤ t.by_
  by1 : t.by_ ≤ T
  cx0 : 0 ≤ t.cx
  cx1 : t.cx ≤ T
  cy0 : 0 ≤ t.cy
  cy1 : t.cy ≤ T

/-- The table holds the records of the triangles below index `n`. -/
def TableUpTo (tileSize : Int) (n : Nat) (coords : List Int) : Prop :=
  ∀ j, j < n →
    coords[4 * j]? = some (triangleOf tileSize j).ax ∧
    coords[4 * j + 1]? = some (triangleOf tileSize j).ay ∧
    coords[4 * j + 2]? = some (triangleOf tileSize j).bx ∧
    coords[4 * j + 3]? = some (triangleOf tileSize j).by_

/-- Number of bisections that lead from a root to table triangle `i`. -/
def depthOf (i : Nat) : Nat := Nat.log 2 ((i + 2) / 2)

/-- Number of records in the corner table for `tileSize = 2 ^ k`. -/
def tableLen (k : Nat) : Nat := 2 * (2 ^ k) ^ 2 - 2

/-- Flat position of the grid cell `(x, y)`: the index `y*gridSize + x` as a natural
number. -/
def cellIx (gridSize x y : Int) : Nat := (y * gridSize + x).toNat

/-- The entry of a height or error array at the grid cell `(x, y)`. -/
def valAt (xs : List ℚ) (gridSize x y : Int) : ℚ := xs.getD (cellIx gridSize x y) 0

/-- What `New (2 ^ k + 1)` returns, up to the contents of the scratch buffer. -/
structure ValidMartini (k : Nat) (m : Martini) : Prop where
  gridSize_eq : m.gridSize = 2 ^ k + 1
  numTriangles_eq : m.numTriangles = (tableLen k : Int)
  numParent_eq : m.numParentTriangles = (2 ^ k) ^ 2 - 2
  indices_len : m.indices.length = ((2 ^ k + 1) ^ 2 : Nat)
  coords_len : m.coords.length = 4 * tableLen k
  table : TableUpTo (2 ^ k) (tableLen k) m.coords

/-- Effect of one iteration of `update` on the error array, for a table triangle `t`;
`parent` says whether its index is below `numParentTriangles`. -/
def relax (gridSize : Int) (terrain : List ℚ) (parent : Bool) (t : Tri)
    (errors : List ℚ) : List ℚ :=
  let m := cellIx gridSize t.mx t.my
  let middleError :=
    |(valAt terrain gridSize t.ax t.ay + valAt terrain gridSize t.bx t.by_) / 2 -
      valAt terrain gridSize t.mx t.my|
  let errors1 := errors.set m (max (errors.getD m 0) middleError)
  if parent then
    errors1.set m
      (max (max (errors1.getD m 0) (valAt errors1 gridSize t.left.mx t.left.my))
        (valAt errors1 gridSize t.right.mx t.right.my))
  else errors1

/-- Effect of the loop of `update` for the indices `n-1, ..., 0` of the table built for
`tileSize = 2 ^ k`. -/
def relaxAll (k : Nat) (terrain : List ℚ) : Nat → List ℚ → List ℚ
  | 0, errors => errors
  | n + 1, errors =>
    relaxAll k terrain n
      (relax (2 ^ k + 1) terrain (decide ((n : Int) < (2 ^ k) ^ 2 - 2)) (triangleOf (2 ^ k) n)
        errors)

/-- A tile made by `NewTile` from a Martini made by `New (2 ^ k + 1)`, as far as the
array sizes are concerned. -/
structure ValidTile (k : Nat) (t : Tile) : Prop where
  martini : ValidMartini k t.martini
  terrain_len : t.terrain.length = (2 ^ k + 1) ^ 2
  errors_len : t.errors.length = (2 ^ k + 1) ^ 2

/-- The condition tested by `countElements` and `processTriangle`, as a total
function on an error array. -/
def splitsP (errors : List ℚ) (gridSize : Int) (maxError : ℚ) (tri : Tri) : Bool :=
  decide (|tri.ax - tri.cx| + |tri.ay - tri.cy| > 1) &&
    decide (valAt errors gridSize tri.mx tri.my > maxError)

/-- The triangles at which the traversal of `GetMesh` takes its else branch, in the
order of the traversal, when started at a triangle `r` levels above the unit
triangles. -/
def leaves (errors : List ℚ) (gridSize : Int) (maxError : ℚ) : Nat → Tri → List Tri
  | 0, tri => [tri]
  | r + 1, tri =>
    if splitsP errors gridSize maxError tri then
      leaves errors gridSize maxError r tri.left ++ leaves errors gridSize maxError r tri.right
    else [tri]

/-- The triangles emitted by `GetMesh` on a grid of side `2 ^ k + 1`, in output order:
the leaves below the first root, then the leaves below the second root. -/
def emitted (k : Nat) (errors : List ℚ) (maxError : ℚ) : List Tri :=
  leaves errors (2 ^ k + 1) maxError (2 * k) ⟨0, 0, 2 ^ k, 2 ^ k, 2 ^ k, 0⟩ ++
    leaves errors (2 ^ k + 1) maxError (2 * k) ⟨2 ^ k, 2 ^ k, 0, 0, 0, 2 ^ k⟩

/-- The three corners of a triangle, in the order `a`, `b`, `c`. -/
def Tri.corners (t : Tri) : List (Int × Int) := [(t.ax, t.ay), (t.bx, t.by_), (t.cx, t.cy)]

/-- Effect of `markVertex` when the cell lies in the grid. -/
def markP (gridSize : Int) (s : CountState) (p : Int × Int) : CountState :=
  if s.indices.getD (cellIx gridSize p.1 p.2) 0 = 0 then
    { s with
      indices := s.indices.set (cellIx gridSize p.1 p.2) (s.numVertices + 1)
      numVertices := s.numVertices + 1 }
  else s

/-- Effect of `countLeaf` when the corners lie in the grid. -/
def countLeafP (gridSize : Int) (s : CountState) (tri : Tri) : CountState :=
  let s := markP gridSize s (tri.ax, tri.ay)
  let s := markP gridSize s (tri.bx, tri.by_)
  let s := markP gridSize s (tri.cx, tri.cy)
  { s with numTriangles := s.numTriangles + 1 }

/-- The 0-based output ordinal that the scratch buffer assigns to the cell `(x, y)`. -/
def ordAt (indices : List Int) (gridSize x y : Int) : Int :=
  indices.getD (cellIx gridSize x y) 0 - 1

/-- Effect of `fillLeaf` when all its slice accesses are in range. -/
def fillLeafP (gridSize : Int) (indices : List Int) (f : FillState) (tri : Tri) : FillState :=
  let a := ordAt indices gridSize tri.ax tri.ay
  let b := ordAt indices gridSize tri.bx tri.by_
  let c := ordAt indices gridSize tri.cx tri.cy
  { vertices :=
      (((((f.vertices.set (2 * a).toNat tri.ax).set (2 * a + 1).toNat tri.ay).set
        (2 * b).toNat tri.bx).set (2 * b + 1).toNat tri.by_).set
          (2 * c).toNat tri.cx).set (2 * c + 1).toNat tri.cy
    triangles :=
      ((f.triangles.set f.triIndex.toNat a).set (f.triIndex + 1).toNat b).set
        (f.triIndex + 1 + 1).toNat c
    triIndex := f.triIndex + 1 + 1 + 1 }

/-- State of the scratch buffer and of `numVertices` after the cells `cells` have been
passed to `markVertex`: the non-zero entries are exactly the ordinals `1..numVertices`,
each used once, and they sit at the cells in `cells`. -/
structure MarkInv (k : Nat) (s : CountState) (cells : List (Int × Int)) : Prop where
  len : s.indices.length = (2 ^ k + 1) ^ 2
  range : ∀ j, s.indices.getD j 0 = 0 ∨ (1 ≤ s.indices.getD j 0 ∧ s.indices.getD j 0 ≤ s.numVertices)
  inj : ∀ j j', s.indices.getD j 0 ≠ 0 → s.indices.getD j 0 = s.indices.getD j' 0 → j = j'
  surj : ∀ o, 1 ≤ o → o ≤ s.numVertices →
    ∃ p ∈ cells, s.indices.getD (cellIx (2 ^ k + 1) p.1 p.2) 0 = o
  marked : ∀ p ∈ cells, s.indices.getD (cellIx (2 ^ k + 1) p.1 p.2) 0 ≠ 0
  count : ((s.indices.countP (fun v => decide (v ≠ 0)) : Nat) : Int) = s.numVertices

/-- The cell `p` lies in the grid of side `2 ^ k + 1`. -/
def InGrid (k : Nat) (p : Int × Int) : Prop :=
  0 ≤ p.1 ∧ p.1 ≤ 2 ^ k ∧ 0 ≤ p.2 ∧ p.2 ≤ 2 ^ k

/-- The scratch buffer numbers the cells in `cells` with the ordinals `0..nV-1`, one
ordinal per cell and every ordinal used. -/
structure Numbered (k : Nat) (idx : List Int) (nV : Nat) (cells : List (Int × Int)) :
    Prop where
  len : idx.length = (2 ^ k + 1) ^ 2
  inGrid : ∀ p ∈ cells, InGrid k p
  ord_range : ∀ p ∈ cells, 0 ≤ ordAt idx (2 ^ k + 1) p.1 p.2 ∧
    ordAt idx (2 ^ k + 1) p.1 p.2 < nV
  ord_inj : ∀ p ∈ cells, ∀ q ∈ cells,
    ordAt idx (2 ^ k + 1) p.1 p.2 = ordAt idx (2 ^ k + 1) q.1 q.2 → p = q
  ord_surj : ∀ o : Int, 0 ≤ o → o < nV → ∃ p ∈ cells, ordAt idx (2 ^ k + 1) p.1 p.2 = o
  count : idx.countP (fun v => decide (v ≠ 0)) = nV

/-- The two stores `vertices[2*o] = x; vertices[2*o+1] = y` for the cell `q`. -/
def setVertex (gridSize : Int) (idx : List Int) (vs : List Int) (q : Int × Int) : List Int :=
  (vs.set (2 * ordAt idx gridSize q.1 q.2).toNat q.1).set
    (2 * ordAt idx gridSize q.1 q.2 + 1).toNat q.2

/-- The slots of `vertices` that belong to the cell `p` hold its coordinates. -/
def VertexAt (gridSize : Int) (idx : List Int) (vs : List Int) (p : Int × Int) : Prop :=
  vs.getD (2 * ordAt idx gridSize p.1 p.2).toNat 0 = p.1 ∧
    vs.getD (2 * ordAt idx gridSize p.1 p.2 + 1).toNat 0 = p.2

/-- The slots of `triangles` that belong to output triangle number `j` hold the
ordinals of the corners of `t`. -/
def TriangleAt (gridSize : Int) (idx : List Int) (ts : List Int) (j : Nat) (t : Tri) : Prop :=
  ts.getD (3 * j) 0 = ordAt idx gridSize t.ax t.ay ∧
    ts.getD (3 * j + 1) 0 = ordAt idx gridSize t.bx t.by_ ∧
    ts.getD (3 * j + 2) 0 = ordAt idx gridSize t.cx t.cy

/-- State of the second pass after the triangles `done` have been written. -/
structure FillInv (k : Nat) (idx : List Int) (nV nT : Nat) (f : FillState) (done : List Tri) :
    Prop where
  vlen : f.vertices.length = 2 * nV
  tlen : f.triangles.length = 3 * nT
  tri_ix : f.triIndex = 3 * (done.length : Int)
  tris : ∀ j t, done[j]? = some t → TriangleAt (2 ^ k + 1) idx f.triangles j t
  verts : ∀ p ∈ done.flatMap Tri.corners, VertexAt (2 ^ k + 1) idx f.vertices p

/-- The output of `GetMesh` as a description of the emitted triangles `E`: `nV` vertices,
one per distinct corner, and one index triple per emitted triangle, in order. -/
structure MeshRep (k : Nat) (E : List Tri) (mesh : Mesh) (nV : Nat) : Prop where
  numbered : Numbered k mesh.indices nV (E.flatMap Tri.corners)
  vlen : mesh.vertices.length = 2 * nV
  tlen : mesh.triangles.length = 3 * E.length
  tris : ∀ j t, E[j]? = some t → TriangleAt (2 ^ k + 1) mesh.indices mesh.triangles j t
  verts : ∀ p ∈ E.flatMap Tri.corners, VertexAt (2 ^ k + 1) mesh.indices mesh.vertices p

/-- The triangle `t` is reached from a root by the bisections that the inner loop of `New`
performs for some `id = 2 * q + b`, and it lies `r` levels above the unit triangles. -/
def Tabled (k r : Nat) (t : Tri) : Prop :=
  ∃ q b : Nat, b < 2 ∧ 1 ≤ q ∧ Nat.log 2 q + r = 2 * k ∧
    t = descend (Nat.log 2 q) q (rootOf (2 ^ k) b)

/-- Record `i` of the corner table together with the apex that `update` derives from it. -/
def Martini.record (m : Martini) (i : Nat) : Tri :=
  let ax := m.coords.getD (4 * i) 0
  let ay := m.coords.getD (4 * i + 1) 0
  let bx := m.coords.getD (4 * i + 2) 0
  let by_ := m.coords.getD (4 * i + 3) 0
  let mx := half (ax + bx)
  let my := half (ay + by_)
  ⟨ax, ay, bx, by_, mx + my - ay, my + ax - mx⟩

/-- The grid coordinates stored in `vertices` for the output ordinal `o`. -/
def Mesh.vertex (mesh : Mesh) (o : Int) : Int × Int :=
  (mesh.vertices.getD (2 * o).toNat 0, mesh.vertices.getD (2 * o + 1).toNat 0)

/-- Output triangle number `j`, decoded from `triangles` and `vertices`. -/
def Mesh.triangle (mesh : Mesh) (j : Nat) : Tri :=
  let a := mesh.vertex (mesh.triangles.getD (3 * j) 0)
  let b := mesh.vertex (mesh.triangles.getD (3 * j + 1) 0)
  let c := mesh.vertex (mesh.triangles.getD (3 * j + 2) 0)
  ⟨a.1, a.2, b.1, b.2, c.1, c.2⟩

/-- The lattice point `(px, py)` lies in the closed triangle `t` (right angle at `c`). -/
def InTri (t : Tri) (px py : Int) : Prop :=
  0 ≤ (px - t.cx) * (t.ax - t.cx) + (py - t.cy) * (t.ay - t.cy) ∧
  0 ≤ (px - t.cx) * (t.ay - t.cy) - (py - t.cy) * (t.ax - t.cx) ∧
  (px - t.cx) * (t.ax - t.cx) + (py - t.cy) * (t.ay - t.cy) +
      ((px - t.cx) * (t.ay - t.cy) - (py - t.cy) * (t.ax - t.cx)) ≤
    (t.ax - t.cx) * (t.ax - t.cx) + (t.ay - t.cy) * (t.ay - t.cy)

/-- Every triangle of the hierarchy above the unit level passes the split test. -/
def AllSplit (k : Nat) (errors : List ℚ) (maxError : ℚ) : Prop :=
  ∀ r t, Shaped (2 ^ k) (r + 1) t → Tabled k (r + 1) t →
    splitsP errors (2 ^ k + 1) maxError t = true

/-- The `5 × 5` heightmap whose only non-zero height is the centre cell. -/
def centreBump : List ℚ :=
  [0, 0, 0, 0, 0,
   0, 0, 0, 0, 0,
   0, 0, 1, 0, 0,
   0, 0, 0, 0, 0,
   0, 0, 0, 0, 0]

/-- The `3 × 3` heightmap that alternates between 0 and 1 along every row and column. -/
def checkerboard : List ℚ :=
  [0, 1, 0,
   1, 0, 1,
   0, 1, 0]

/-- A call returned a value that passes the test `p`. -/
def returns {α : Type} (r : Go α) (p : α → Bool) : Bool :=
  match r with
  | .ok a => p a
  | .error _ => false

/-- All triangles obtained from `t` by exactly `r` successive bisections, first child
first. -/
def descendants : Nat → Tri → List Tri
  | 0, t => [t]
  | r + 1, t => descendants r t.left ++ descendants r t.right

/-- The unit half-cell triangles of the hierarchy over the grid of side `2 ^ k + 1`: the
triangles `2 * k` bisections below the two roots, in traversal order. -/
def unitTriangles (k : Nat) : List Tri :=
  descendants (2 * k) ⟨0, 0, 2 ^ k, 2 ^ k, 2 ^ k, 0⟩ ++
    descendants (2 * k) ⟨2 ^ k, 2 ^ k, 0, 0, 0, 2 ^ k⟩

/-- The tile `t` after the shared scratch buffer `martini.indices` has been given the
contents `indices` (by an earlier call of `GetMesh`, or by anything else). -/
def Tile.withScratch (t : Tile) (indices : List Int) : Tile :=
  { t with martini := { t.martini with indices := indices } }

/-- The cross product `(bx-ax)*(cy-ay) - (by-ay)*(cx-ax)` of a triangle. -/
def Tri.cross (t : Tri) : Int :=
  (t.bx - t.ax) * (t.cy - t.ay) - (t.by_ - t.ay) * (t.cx - t.ax)

/-- The squared length `|a - c|²` of the leg `a - c`. -/
def Tri.legSq (t : Tri) : Int :=
  (t.ax - t.cx) * (t.ax - t.cx) + (t.ay - t.cy) * (t.ay - t.cy)

/-- The output triangles of a mesh, decoded, in output order. -/
def Mesh.triangleList (mesh : Mesh) : List Tri :=
  (List.range (mesh.triangles.length / 3)).map mesh.triangle

/-- The area `|cross product| / 2` of a triangle. -/
def Tri.area (t : Tri) : ℚ := |(t.cross : ℚ)| / 2

/-- A call stopped with the fault `f`. -/
def failsWith {α : Type} (r : Go α) (f : Fault) : Bool :=
  match r with
  | .ok _ => false
  | .error e => decide (e = f)

/-- The cell `p` is one of the four corners of the grid of side `2 ^ k + 1`. -/
def GridCorner (k : Nat) (p : Int × Int) : Prop :=
  (p.1 = 0 ∨ p.1 = 2 ^ k) ∧ (p.2 = 0 ∨ p.2 = 2 ^ k)

/-! ## `New` with 64-bit integers and an allocation limit

The definitions above compute with mathematical integers and allocate without limit.
The definitions of this section embed `New` once more, with the arithmetic of Go `int`
on a 64-bit target (every `+`, `-`, `*` reduced into `[-2^63, 2^63)`) and with a `make`
that refuses lengths above a limit `lim`, the largest slice length the machine grants
(Go itself refuses more than `2^45` eight-byte elements on 64-bit targets). -/

/-- Two's-complement reduction of an exact result into the range of a 64-bit `int`. -/
def wrap64 (x : Int) : Int := (x + 2 ^ 63) % 2 ^ 64 - 2 ^ 63

/-- Go `make([]int, n)` on a machine that grants at most `lim` elements: panics
(`makeslice: len out of range`) when `n` is negative or larger than `lim`. -/
def make64 (lim n : Int) : Go (List Int) :=
  if n < 0 ∨ lim < n then .error .lengthOutOfRange else .ok (List.replicate n.toNat 0)

/-- Initial corners chosen in `New` from the lowest bit of the `int` value `id`. -/
def rootOf64 (tileSize id : Int) : Tri :=
  if Int.land id 1 ≠ 0 then ⟨0, 0, tileSize, tileSize, tileSize, 0⟩
  else ⟨tileSize, tileSize, 0, 0, 0, tileSize⟩

/-- One iteration of the inner loop of `New` in 64-bit arithmetic (without the final
`id >>= 1`). -/
def bisect64 (id : Int) (t : Tri) : Tri :=
  let mx := half (wrap64 (t.ax + t.bx))
  let my := half (wrap64 (t.ay + t.by_))
  if Int.land id 1 ≠ 0 then ⟨t.cx, t.cy, t.ax, t.ay, mx, my⟩
  else ⟨t.bx, t.by_, t.cx, t.cy, mx, my⟩

/-- The inner loop `for id > 1 { ... id >>= 1 }` of `New` on the `int` value `id`; the
first argument bounds the number of iterations. -/
def descend64 : Nat → Int → Tri → Tri
  | 0, _, t => t
  | fuel + 1, id, t => if id > 1 then descend64 fuel (half id) (bisect64 id t) else t

/-- The values of `ax, ay, bx, by, cx, cy` in `New` when the record of triangle `i` is
stored, in 64-bit arithmetic. -/
def triangleOf64 (tileSize i : Int) : Tri :=
  let id := wrap64 (i + 2)
  descend64 id.toNat (half id) (rootOf64 tileSize id)

/-- The four stores `coords[k+0..k+3]` of one iteration of the outer loop of `New`, in
64-bit arithmetic. -/
def storeTriangle64 (tileSize : Int) (i : Nat) (coords : List Int) : Go (List Int) := do
  let t := triangleOf64 tileSize i
  let k : Int := wrap64 ((i : Int) * 4)
  let coords ← wr coords (wrap64 (k + 0)) t.ax
  let coords ← wr coords (wrap64 (k + 1)) t.ay
  let coords ← wr coords (wrap64 (k + 2)) t.bx
  wr coords (wrap64 (k + 3)) t.by_

/-- The outer loop of `New` in 64-bit arithmetic: `n` further iterations starting at
index `i`.  The counter is below `numTriangles`, so `i++` never wraps. -/
def fillCoords64 (tileSize : Int) : Nat → Nat → List Int → Go (List Int)
  | 0, _, coords => .ok coords
  | n + 1, i, coords => do
    let coords ← storeTriangle64 tileSize i coords
    fillCoords64 tileSize n (i + 1) coords

/-- The function `New` in 64-bit arithmetic, on a machine whose `make` grants at most
`lim` elements. -/
def New64 (lim gridSize : Int) : Go Martini := do
  let tileSize := wrap64 (gridSize - 1)
  if Int.land tileSize (wrap64 (tileSize - 1)) ≠ 0 then
    .error .invalidGridSize
  else
    let numTriangles := wrap64 (wrap64 (wrap64 (tileSize * tileSize) * 2) - 2)
    let numParentTriangles := wrap64 (numTriangles - wrap64 (tileSize * tileSize))
    let indices ← make64 lim (wrap64 (gridSize * gridSize))
    let coords ← make64 lim (wrap64 (numTriangles * 4))
    let coords ← fillCoords64 tileSize numTriangles.toNat 0 coords
    pure
      { gridSize := gridSize
        numTriangles := numTriangles
        numParentTriangles := numParentTriangles
        indices := indices
        coords := coords }

/-! ## `NewTile` and `GetMesh` in `float64` arithmetic

The definitions `updateStep`, `NewTile`, `splits`, `GetMesh` above compute heights and
errors exactly, in `ℚ`.  The definitions of this section embed the same functions once
more with IEEE 754 binary64 values: every `+`, `-`, `/` is rounded to nearest, ties to
even, overflows to an infinity, and NaN and the infinities follow the rules of Go
(`math.Abs`, `math.Max`, `>`).  The two zeros are not distinguished: the program never
divides by a height and never inspects a sign bit. -/

/-- A `float64` value: a finite number, `+Inf`, `-Inf` or NaN. -/
inductive F64 where
  | fin (q : ℚ)
  | pinf
  | ninf
  | nan
  deriving DecidableEq

/-- The rational `q` is a finite `float64` number: `m * 2 ^ e` with `|m| < 2 ^ 53` and
`-1074 ≤ e ≤ 971`. -/
def F64.Rep (q : ℚ) : Prop :=
  ∃ m e : Int, |m| < 2 ^ 53 ∧ -1074 ≤ e ∧ e ≤ 971 ∧ q = m * 2 ^ e

/-- The nearest integer, the even one in case of a tie. -/
def roundEven (x : ℚ) : Int :=
  if x - ⌊x⌋ < 1 / 2 then ⌊x⌋
  else if 1 / 2 < x - ⌊x⌋ then ⌊x⌋ + 1
  else if ⌊x⌋ % 2 = 0 then ⌊x⌋ else ⌊x⌋ + 1

/-- Number of binary digits of `n`, counted in at most `fuel` halvings. -/
def bitLen : Nat → Nat → Nat
  | 0, _ => 0
  | fuel + 1, n => if n = 0 then 0 else bitLen fuel (n / 2) + 1

/-- The power `2 ^ e` for an integer exponent. -/
def pow2 (e : Int) : ℚ :=
  if 0 ≤ e then ((2 ^ e.toNat : Nat) : ℚ) else 1 / ((2 ^ (-e).toNat : Nat) : ℚ)

/-- Exponent of the unit in the last place at magnitude `a ≥ 0`: `a` counts
`⌊a * 2 ^ 1074⌋` units of the smallest subnormal, and a `float64` keeps the 53 leading
binary digits of that count.  (Counts of more than 2200 digits overflow in any case.) -/
def ulpExp (a : ℚ) : Int :=
  max ((bitLen 2200 ⌊a * 2 ^ 1074⌋.toNat : Int) - 53) 0 - 1074

/-- IEEE 754 rounding of an exact result to `float64`: to the nearest multiple of the
unit in the last place, ties to even; results of magnitude `2 ^ 1024` or more become
infinities. -/
def F64.round (q : ℚ) : F64 :=
  let e := ulpExp |q|
  let r := (roundEven (q / pow2 e) : ℚ) * pow2 e
  if 2 ^ 1024 ≤ r then .pinf else if r ≤ -2 ^ 1024 then .ninf else .fin r

/-- Go `x + y` on `float64`. -/
def F64.add : F64 → F64 → F64
  | .fin a, .fin b => F64.round (a + b)
  | .nan, _ => .nan
  | _, .nan => .nan
  | .pinf, .ninf => .nan
  | .ninf, .pinf => .nan
  | .pinf, _ => .pinf
  | _, .pinf => .pinf
  | .ninf, _ => .ninf
  | _, .ninf => .ninf

/-- Go `x - y` on `float64`. -/
def F64.sub : F64 → F64 → F64
  | .fin a, .fin b => F64.round (a - b)
  | .nan, _ => .nan
  | _, .nan => .nan
  | .pinf, .pinf => .nan
  | .ninf, .ninf => .nan
  | .pinf, _ => .pinf
  | _, .ninf => .pinf
  | .ninf, _ => .ninf
  | _, .pinf => .ninf

/-- Go `x / 2` on `float64`. -/
def F64.divTwo : F64 → F64
  | .fin a => F64.round (a / 2)
  | .pinf => .pinf
  | .ninf => .ninf
  | .nan => .nan

/-- Go `math.Abs`. -/
def F64.abs : F64 → F64
  | .fin a => .fin |a|
  | .pinf => .pinf
  | .ninf => .pinf
  | .nan => .nan

/-- Go `x > y` on `float64`: false when an operand is NaN. -/
def F64.gt : F64 → F64 → Bool
  | .fin a, .fin b => decide (b < a)
  | .nan, _ => false
  | _, .nan => false
  | .pinf, .pinf => false
  | .pinf, _ => true
  | .ninf, _ => false
  | _, .ninf => true
  | _, .pinf => false

/-- Go `x <= y` on `float64`: false when an operand is NaN. -/
def F64.le : F64 → F64 → Bool
  | .fin a, .fin b => decide (a ≤ b)
  | .nan, _ => false
  | _, .nan => false
  | .ninf, _ => true
  | _, .pinf => true
  | .pinf, _ => false
  | _, .ninf => false

/-- Go `math.Max`: `+Inf` if an argument is `+Inf`, else NaN if an argument is NaN, else
the larger argument. -/
def F64.max (x y : F64) : F64 :=
  if x = .pinf ∨ y = .pinf then .pinf
  else if x = .nan ∨ y = .nan then .nan
  else if F64.gt x y then x else y

/-- The struct `Tile` with `float64` heights and errors. -/
structure Tile64 where
  terrain : List F64
  martini : Martini
  errors : List F64
  deriving DecidableEq

/-- Go `make([]float64, n)` with `float64` zeros. -/
def makeFloats64 (n : Int) : Go (List F64) :=
  if n < 0 then .error .negativeLength else .ok (List.replicate n.toNat (.fin 0))

/-- One iteration of the loop of `Tile.update` in `float64` arithmetic. -/
def updateStep64 (m : Martini) (terrain : List F64) (i : Int) (errors : List F64) :
    Go (List F64) := do
  let k := i * 4
  let ax ← rd m.coords (k + 0)
  let ay ← rd m.coords (k + 1)
  let bx ← rd m.coords (k + 2)
  let by_ ← rd m.coords (k + 3)
  let mx := half (ax + bx)
  let my := half (ay + by_)
  let cx := mx + my - ay
  let cy := my + ax - mx
  let ta ← rd terrain (ay * m.gridSize + ax)
  let tb ← rd terrain (by_ * m.gridSize + bx)
  let interpolatedHeight := F64.divTwo (F64.add ta tb)
  let middleIndex := my * m.gridSize + mx
  let tm ← rd terrain middleIndex
  let middleError := F64.abs (F64.sub interpolatedHeight tm)
  let em ← rd errors middleIndex
  let errors ← wr errors middleIndex (F64.max em middleError)
  if i < m.numParentTriangles then
    let leftChildIndex := half (ay + cy) * m.gridSize + half (ax + cx)
    let rightChildIndex := half (by_ + cy) * m.gridSize + half (bx + cx)
    let em ← rd errors middleIndex
    let el ← rd errors leftChildIndex
    let er ← rd errors rightChildIndex
    wr errors middleIndex (F64.max (F64.max em el) er)
  else
    pure errors

/-- The loop of `Tile.update` for `i = n-1, n-2, ..., 0`, in `float64` arithmetic. -/
def updateLoop64 (m : Martini) (terrain : List F64) : Nat → List F64 → Go (List F64)
  | 0, errors => .ok errors
  | n + 1, errors => do
    let errors ← updateStep64 m terrain (n : Int) errors
    updateLoop64 m terrain n errors

/-- The method `Tile.update` in `float64` arithmetic. -/
def update64 (t : Tile64) : Go Tile64 := do
  let errors ← updateLoop64 t.martini t.terrain t.martini.numTriangles.toNat t.errors
  pure { t with errors := errors }

/-- The function `NewTile` in `float64` arithmetic. -/
def NewTile64 (terrain : List F64) (martini : Martini) : Go Tile64 :=
  let size := martini.gridSize
  if (terrain.length : Int) ≠ size * size then
    .error .invalidTerrainLength
  else do
    let errors ← makeFloats64 terrain.length
    update64 { terrain := terrain, martini := martini, errors := errors }

/-- The split condition of `GetMesh` with `float64` errors and `maxError`. -/
def splits64 (t : Tile64) (maxError : F64) (tri : Tri) : Go Bool :=
  if |tri.ax - tri.cx| + |tri.ay - tri.cy| > 1 then do
    let e ← rd t.errors (tri.my * t.martini.gridSize + tri.mx)
    pure (F64.gt e maxError)
  else
    pure false

/-- The closure `countElements` of `GetMesh`, with `float64` errors. -/
def countElements64 (t : Tile64) (maxError : F64) : Nat → Tri → CountState → Go CountState
  | 0, _, _ => .error .outOfFuel
  | fuel + 1, tri, s => do
    if (← splits64 t maxError tri) then
      let s ← countElements64 t maxError fuel tri.left s
      countElements64 t maxError fuel tri.right s
    else
      countLeaf t.martini.gridSize tri s

/-- The closure `processTriangle` of `GetMesh`, with `float64` errors. -/
def processTriangle64 (t : Tile64) (maxError : F64) (indices : List Int) :
    Nat → Tri → FillState → Go FillState
  | 0, _, _ => .error .outOfFuel
  | fuel + 1, tri, s => do
    if (← splits64 t maxError tri) then
      let s ← processTriangle64 t maxError indices fuel tri.left s
      processTriangle64 t maxError indices fuel tri.right s
    else
      fillLeaf t.martini.gridSize indices tri s

/-- The method `Tile.GetMesh` with `float64` errors and `maxError`; `fuel` bounds the
recursion depth of both closures. -/
def GetMesh64 (fuel : Nat) (t : Tile64) (maxError : F64) : Go Mesh := do
  let max := t.martini.gridSize - 1
  let indices := t.martini.indices.map (fun _ => (0 : Int))
  let s : CountState := { indices := indices, numVertices := 0, numTriangles := 0 }
  let s ← countElements64 t maxError fuel ⟨0, 0, max, max, max, 0⟩ s
  let s ← countElements64 t maxError fuel ⟨max, max, 0, 0, 0, max⟩ s
  let vertices ← make (s.numVertices * 2)
  let triangles ← make (s.numTriangles * 3)
  let f : FillState := { vertices := vertices, triangles := triangles, triIndex := 0 }
  let f ← processTriangle64 t maxError s.indices fuel ⟨0, 0, max, max, max, 0⟩ f
  let f ← processTriangle64 t maxError s.indices fuel ⟨max, max, 0, 0, 0, max⟩ f
  pure { vertices := f.vertices, triangles := f.triangles, indices := s.indices }

/-- The whole pipeline `New`, `NewTile`, `GetMesh` on one `float64` terrain. -/
def meshOf64 (fuel : Nat) (gridSize : Int) (terrain : List F64) (maxError : F64) :
    Go Mesh := do
  let m ← New gridSize
  let t ← NewTile64 terrain m
  GetMesh64 fuel t maxError

/-- The entry of a `float64` array at the grid cell `(x, y)`. -/
def valAt64 (xs : List F64) (gridSize x y : Int) : F64 :=
  xs.getD (cellIx gridSize x y) (.fin 0)

/-- The interpolation error `math.Abs((terrain[a] + terrain[b]) / 2 - terrain[m])` that
`update` computes for a triangle, in `float64` arithmetic. -/
def midError64 (terrain : List F64) (gridSize : Int) (t : Tri) : F64 :=
  F64.abs (F64.sub
    (F64.divTwo (F64.add (valAt64 terrain gridSize t.ax t.ay)
      (valAt64 terrain gridSize t.bx t.by_)))
    (valAt64 terrain gridSize t.mx t.my))

/-- Effect of one iteration of `update` on the `float64` error array, for a table
triangle `t`; `parent` says whether its index is below `numParentTriangles`. -/
def relax64 (gridSize : Int) (terrain : List F64) (parent : Bool) (t : Tri)
    (errors : List F64) : List F64 :=
  let m := cellIx gridSize t.mx t.my
  let errors1 := errors.set m (F64.max (errors.getD m (.fin 0)) (midError64 terrain gridSize t))
  if parent then
    errors1.set m
      (F64.max (F64.max (errors1.getD m (.fin 0)) (valAt64 errors1 gridSize t.left.mx t.left.my))
        (valAt64 errors1 gridSize t.right.mx t.right.my))
  else errors1

/-- Effect of the loop of `update` for the indices `n-1, ..., 0`, in `float64`
arithmetic. -/
def relaxAll64 (k : Nat) (terrain : List F64) : Nat → List F64 → List F64
  | 0, errors => errors
  | n + 1, errors =>
    relaxAll64 k terrain n
      (relax64 (2 ^ k + 1) terrain (decide ((n : Int) < (2 ^ k) ^ 2 - 2)) (triangleOf (2 ^ k) n)
        errors)

/-- The split decision `e > maxError` as a number: 1 when it holds, 0 when not. -/
def F64.exceeds (maxError e : F64) : ℚ := if F64.gt e maxError then 1 else 0

/-- The exact-arithmetic tile that takes the same split decisions at threshold 0 as the
`float64` tile `t` takes at `maxError`. -/
def Tile64.decisions (t : Tile64) (maxError : F64) : Tile :=
  { terrain := t.terrain.map (fun _ => 0)
    martini := t.martini
    errors := t.errors.map (F64.exceeds maxError) }

/-- The exact value of a finite `float64`; 0 for the infinities and NaN. -/
def F64.toRat : F64 → ℚ
  | .fin q => q
  | _ => 0

/-- The largest finite `float64`, `math.MaxFloat64`. -/
def maxFloat64 : ℚ := 2 ^ 1024 - 2 ^ 971

/-- The `3 × 3` heightmap all of whose heights are `math.MaxFloat64`. -/
def hugeFlat : List F64 := List.replicate 9 (.fin maxFloat64)

/-- A `3 × 3` heightmap of `float64` numbers on which every interpolation error that
`update` computes rounds to 0, while the exact error at the centre is `2 ^ -61`. -/
def roundedBump : List F64 :=
  [.fin 1, .fin (1 / 2), .fin 0,
   .fin (1 / 2), .fin (1 / 2), .fin (1 / 2 ^ 61),
   .fin 0, .fin (1 / 2 ^ 61), .fin (1 / 2 ^ 60)]

/-- The `3 × 3` checkerboard as `float64` heights. -/
def checkerboard64 : List F64 := checkerboard.map F64.fin

/-! ## Panicking computations and slices -/

@[simp] theorem ok_bind {α β : Type} (a : α) (f : α → Go β) :
    ((Except.ok a : Go α) >>= f) = f a := rfl

@[simp] theorem error_bind {α β : Type} (e : Fault) (f : α → Go β) :
    ((Except.error e : Go α) >>= f) = Except.error e := rfl

@[simp] theorem pure_eq_ok {α : Type} (a : α) : (pure a : Go α) = Except.ok a := rfl

theorem bind_eq_ok {α β : Type} {x : Go α} {f : α → Go β} {b : β} :
    (x >>= f) = Except.ok b ↔ ∃ a, x = Except.ok a ∧ f a = Except.ok b := by
  cases x <;> simp

theorem half_eq (x : Int) : half x = x / 2 := by
  unfold half
  rw [Int.shiftRight_eq_div_pow]
  norm_num

theorem rd_ok {α : Type} {xs : List α} {n : Nat} {v : α} (h : xs[n]? = some v) :
    rd xs (n : Int) = .ok v := by
  simp [rd, h]

theorem rd_ok_int {α : Type} {xs : List α} {i : Int} {v : α} (h0 : 0 ≤ i)
    (h : xs[i.toNat]? = some v) : rd xs i = .ok v := by
  have : ¬ i < 0 := by omega
  simp [rd, this, h]

theorem rd_eq_ok {α : Type} {xs : List α} {i : Int} {v : α} (h : rd xs i = .ok v) :
    0 ≤ i ∧ xs[i.toNat]? = some v := by
  unfold rd at h
  split at h
  · cases h
  · split at h
    · rename_i w hw
      cases h
      exact ⟨by omega, hw⟩
    · cases h

theorem wr_ok {α : Type} {xs : List α} {i : Int} (v : α) (h0 : 0 ≤ i)
    (h : i.toNat < xs.length) : wr xs i v = .ok (xs.set i.toNat v) := by
  have : ¬ i < 0 := by omega
  simp [wr, this, h]

theorem wr_ok_nat {α : Type} {xs : List α} {n : Nat} (v : α)
    (h : n < xs.length) : wr xs (n : Int) v = .ok (xs.set n v) := by
  simp [wr, h]

theorem make_ok {n : Int} (h : 0 ≤ n) : make n = .ok (List.replicate n.toNat 0) := by
  have : ¬ n < 0 := by omega
  simp [make, this]

/-! ## The bit test of `New` -/

theorem nat_land_pred_eq_zero (n : Nat) (h : n &&& (n - 1) = 0) : n = 0 ∨ ∃ k, n = 2 ^ k := by
  induction n using Nat.strong_induction_on with
  | _ n ih =>
    rcases Nat.eq_zero_or_pos n with h0 | hpos
    · exact Or.inl h0
    · right
      rcases Nat.even_or_odd' n with ⟨m, hm | hm⟩
      · have hm1 : 1 ≤ m := by omega
        have e1 : n = Nat.bit false m := by simp [Nat.bit_val, hm]
        have e2 : n - 1 = Nat.bit true (m - 1) := by simp [Nat.bit_val]; omega
        rw [e2] at h; nth_rewrite 1 [e1] at h
        rw [Nat.land_bit] at h
        simp [Nat.bit_val] at h
        rcases ih m (by omega) h with h0 | ⟨k, hk⟩
        · omega
        · exact ⟨k + 1, by rw [hm, hk, pow_succ]; ring⟩
      · have e1 : n = Nat.bit true m := by simp [Nat.bit_val, hm]
        have e2 : n - 1 = Nat.bit false m := by simp [Nat.bit_val]; omega
        rw [e2] at h; nth_rewrite 1 [e1] at h
        rw [Nat.land_bit] at h
        simp [Nat.bit_val] at h
        exact ⟨0, by simp [hm, h]⟩

theorem nat_land_pred_pow (k : Nat) : 2 ^ k &&& (2 ^ k - 1) = 0 := by
  rw [Nat.and_pow_two_sub_one_eq_mod]; simp

theorem int_land_pred (t : Int) :
    Int.land t (t - 1) = 0 ↔ t = 0 ∨ ∃ k : Nat, t = 2 ^ k := by
  cases t with
  | ofNat n =>
    rcases Nat.eq_zero_or_pos n with h0 | hpos
    · subst h0; simp; decide!
    · have e : (Int.ofNat n - 1) = Int.ofNat (n - 1) := by
        simp; omega
      rw [e]
      show ((n &&& (n - 1) : Nat) : Int) = 0 ↔ _
      constructor
      · intro h
        have h' : n &&& (n - 1) = 0 := by exact_mod_cast h
        rcases nat_land_pred_eq_zero n h' with h0 | ⟨k, hk⟩
        · omega
        · right; exact ⟨k, by simp [hk]⟩
      · rintro (h | ⟨k, hk⟩)
        · simp at h; omega
        · have : n = 2 ^ k := by
            have : (n : Int) = 2 ^ k := hk
            exact_mod_cast this
          subst this
          rw [nat_land_pred_pow]; rfl
  | negSucc m =>
    have e : (Int.negSucc m - 1) = Int.negSucc (m + 1) := by
      simp [Int.negSucc_eq]; ring
    rw [e]
    constructor
    · intro h
      have : Int.land (Int.negSucc m) (Int.negSucc (m+1)) = Int.negSucc (m ||| (m+1)) := rfl
      rw [this] at h
      exact absurd h (by simp)
    · rintro (h | ⟨k, hk⟩)
      · simp at h
      · have : (0:Int) < 2 ^ k := by positivity
        rw [← hk] at this
        simp [Int.negSucc_eq] at this
        omega

/-! ## The corner table built by `New` -/

theorem storeTriangle_ok (tileSize : Int) (i : Nat) (coords : List Int)
    (h : 4 * i + 3 < coords.length) :
    ∃ coords', storeTriangle tileSize i coords = .ok coords' ∧
      coords'.length = coords.length ∧
      (∀ n, (n < 4 * i ∨ 4 * i + 3 < n) → coords'[n]? = coords[n]?) ∧
      coords'[4 * i]? = some (triangleOf tileSize i).ax ∧
      coords'[4 * i + 1]? = some (triangleOf tileSize i).ay ∧
      coords'[4 * i + 2]? = some (triangleOf tileSize i).bx ∧
      coords'[4 * i + 3]? = some (triangleOf tileSize i).by_ := by
  have e0 : ((i : Int) * 4 + 0) = ((4 * i + 0 : Nat) : Int) := by push_cast; ring
  have e1 : ((i : Int) * 4 + 1) = ((4 * i + 1 : Nat) : Int) := by push_cast; ring
  have e2 : ((i : Int) * 4 + 2) = ((4 * i + 2 : Nat) : Int) := by push_cast; ring
  have e3 : ((i : Int) * 4 + 3) = ((4 * i + 3 : Nat) : Int) := by push_cast; ring
  unfold storeTriangle
  simp only [e0, e1, e2, e3]
  rw [wr_ok_nat _ (by omega)]
  simp only [ok_bind]
  rw [wr_ok_nat _ (by simp; omega)]
  simp only [ok_bind]
  rw [wr_ok_nat _ (by simp; omega)]
  simp only [ok_bind]
  rw [wr_ok_nat _ (by simp; omega)]
  refine ⟨_, rfl, by simp, ?_, ?_, ?_, ?_, ?_⟩
  · intro n hn
    rw [List.getElem?_set_ne (by omega), List.getElem?_set_ne (by omega),
      List.getElem?_set_ne (by omega), List.getElem?_set_ne (by omega)]
  · rw [List.getElem?_set_ne (by omega), List.getElem?_set_ne (by omega),
      List.getElem?_set_ne (by omega)]
    simp [List.getElem?_set]; omega
  · rw [List.getElem?_set_ne (by omega), List.getElem?_set_ne (by omega)]
    simp [List.getElem?_set]; omega
  · rw [List.getElem?_set_ne (by omega)]
    simp [List.getElem?_set]; omega
  · simp [List.getElem?_set]; omega

theorem fillCoords_ok (tileSize : Int) (n i : Nat) (coords : List Int)
    (hlen : coords.length = 4 * (i + n)) (htab : TableUpTo tileSize i coords) :
    ∃ coords', fillCoords tileSize n i coords = .ok coords' ∧
      coords'.length = coords.length ∧ TableUpTo tileSize (i + n) coords' := by
  induction n generalizing i coords with
  | zero => exact ⟨coords, rfl, rfl, htab⟩
  | succ n ih =>
    obtain ⟨c1, h1, hl1, hkeep, ha, hb, hc, hd⟩ :=
      storeTriangle_ok tileSize i coords (by omega)
    have htab1 : TableUpTo tileSize (i + 1) c1 := by
      intro j hj
      rcases Nat.lt_succ_iff_lt_or_eq.mp hj with hlt | heq
      · obtain ⟨p, q, r, s⟩ := htab j hlt
        refine ⟨?_, ?_, ?_, ?_⟩
        · rw [hkeep _ (by omega)]; exact p
        · rw [hkeep _ (by omega)]; exact q
        · rw [hkeep _ (by omega)]; exact r
        · rw [hkeep _ (by omega)]; exact s
      · subst heq; exact ⟨ha, hb, hc, hd⟩
    obtain ⟨c2, h2, hl2, htab2⟩ := ih (i + 1) c1 (by omega) htab1
    refine ⟨c2, ?_, by omega, ?_⟩
    · simp [fillCoords, h1, h2]
    · have : i + (n + 1) = i + 1 + n := by omega
      rw [this]; exact htab2

/-! ## Shape of the triangles of the hierarchy -/

theorem side_pos (r : Nat) : 0 < side r := by
  unfold side; positivity

theorem side_succ_of_even (r : Nat) (h : (r + 1) % 2 = 0) : side (r + 1) = 2 * side r := by
  unfold side
  have : (r + 1) / 2 = r / 2 + 1 := by omega
  rw [this, pow_succ]; ring

theorem side_succ_of_odd (r : Nat) (h : ¬ (r + 1) % 2 = 0) : side (r + 1) = side r := by
  unfold side
  have : (r + 1) / 2 = r / 2 := by omega
  rw [this]

theorem oddMul_add_of_double {h x : Int} (hx : ∃ q : Int, x = 2 * h * q) :
    OddMul h (x + h) ∧ OddMul h (x - h) := by
  obtain ⟨q, rfl⟩ := hx
  exact ⟨⟨q, by ring⟩, ⟨q - 1, by ring⟩⟩

theorem evenMul_add_of_odd {h x : Int} (hx : OddMul h x) :
    EvenMul h (x + h) ∧ EvenMul h (x - h) := by
  obtain ⟨q, rfl⟩ := hx
  exact ⟨⟨q + 1, by ring⟩, ⟨q, by ring⟩⟩

theorem double_of_cpos_even {h x y : Int}
    (hc : (OddMul (2 * h) x ∧ EvenMul (2 * h) y) ∨ (EvenMul (2 * h) x ∧ OddMul (2 * h) y)) :
    (∃ q : Int, x = 2 * h * q) ∧ (∃ q : Int, y = 2 * h * q) := by
  rcases hc with ⟨⟨p, hp⟩, ⟨q, hq⟩⟩ | ⟨⟨p, hp⟩, ⟨q, hq⟩⟩
  · exact ⟨⟨2 * p + 1, hp⟩, ⟨2 * q, hq⟩⟩
  · exact ⟨⟨2 * p, hp⟩, ⟨2 * q + 1, hq⟩⟩

theorem shaped_intro {T : Int} {r : Nat} {t : Tri}
    (rot : t.bx - t.cx = t.ay - t.cy ∧ t.by_ - t.cy = t.cx - t.ax)
    (leg : ULeg r (t.ax - t.cx) (t.ay - t.cy)) (apex : CPos r t.cx t.cy)
    (bnd : (0 ≤ t.ax ∧ t.ax ≤ T ∧ 0 ≤ t.ay ∧ t.ay ≤ T) ∧ (0 ≤ t.bx ∧ t.bx ≤ T ∧ 0 ≤ t.by_ ∧
      t.by_ ≤ T) ∧ (0 ≤ t.cx ∧ t.cx ≤ T ∧ 0 ≤ t.cy ∧ t.cy ≤ T)) : Shaped T r t :=
  ⟨rot.1, rot.2, leg, apex, bnd.1.1, bnd.1.2.1, bnd.1.2.2.1, bnd.1.2.2.2,
    bnd.2.1.1, bnd.2.1.2.1, bnd.2.1.2.2.1, bnd.2.1.2.2.2,
    bnd.2.2.1, bnd.2.2.2.1, bnd.2.2.2.2.1, bnd.2.2.2.2.2⟩

theorem Shaped.children_of_even {T : Int} {r : Nat} {t : Tri} (h : Shaped T (r + 1) t)
    (hpar : (r + 1) % 2 = 0) : Shaped T r t.left ∧ Shaped T r t.right := by
  obtain ⟨rotx, roty, leg, apex, ax0, ax1, ay0, ay1, bx0, bx1, by0, by1, cx0, cx1, cy0, cy1⟩ := h
  have hs := side_pos r
  have hr : ¬ r % 2 = 0 := by omega
  have hside := side_succ_of_even r hpar
  obtain ⟨s, hse⟩ : ∃ s, side r = s := ⟨_, rfl⟩
  simp only [ULeg, CPos, hpar, if_true, hside, hse] at leg apex hs
  clear hside
  obtain ⟨hx, hy⟩ := double_of_cpos_even apex
  have hxp := oddMul_add_of_double hx
  have hyp := oddMul_add_of_double hy
  have hmx' : t.mx = (t.ax + t.bx) / 2 := by simp only [Tri.mx, half_eq]
  have hmy' : t.my = (t.ay + t.by_) / 2 := by simp only [Tri.my, half_eq]
  have hmx : t.mx = t.cx + s ∨ t.mx = t.cx - s := by omega
  have hmy : t.my = t.cy + s ∨ t.my = t.cy - s := by omega
  have hap : OddMul s t.mx ∧ OddMul s t.my := by
    rcases hmx with e | e <;> rcases hmy with e' | e' <;> rw [e, e']
    · exact ⟨hxp.1, hyp.1⟩
    · exact ⟨hxp.1, hyp.2⟩
    · exact ⟨hxp.2, hyp.1⟩
    · exact ⟨hxp.2, hyp.2⟩
  constructor
  · apply shaped_intro
    · simp only [Tri.left]; omega
    · simp only [Tri.left, ULeg, hr, if_false, hse]; omega
    · simp only [Tri.left, CPos, hr, if_false, hse]; exact hap
    · simp only [Tri.left]; omega
  · apply shaped_intro
    · simp only [Tri.right]; omega
    · simp only [Tri.right, ULeg, hr, if_false, hse]; omega
    · simp only [Tri.right, CPos, hr, if_false, hse]; exact hap
    · simp only [Tri.right]; omega

theorem Shaped.children_of_odd {T : Int} {r : Nat} {t : Tri} (h : Shaped T (r + 1) t)
    (hpar : ¬ (r + 1) % 2 = 0) : Shaped T r t.left ∧ Shaped T r t.right := by
  obtain ⟨rotx, roty, leg, apex, ax0, ax1, ay0, ay1, bx0, bx1, by0, by1, cx0, cx1, cy0, cy1⟩ := h
  have hs := side_pos r
  have hr : r % 2 = 0 := by omega
  have hside := side_succ_of_odd r hpar
  obtain ⟨s, hse⟩ : ∃ s, side r = s := ⟨_, rfl⟩
  simp only [ULeg, CPos, hpar, if_false, hside, hse] at leg apex hs
  clear hside
  obtain ⟨ox, oy⟩ := apex
  have hxp := evenMul_add_of_odd ox
  have hyp := evenMul_add_of_odd oy
  have hmx' : t.mx = (t.ax + t.bx) / 2 := by simp only [Tri.mx, half_eq]
  have hmy' : t.my = (t.ay + t.by_) / 2 := by simp only [Tri.my, half_eq]
  have hm : (t.mx = t.cx + s ∧ t.my = t.cy) ∨ (t.mx = t.cx - s ∧ t.my = t.cy) ∨
      (t.mx = t.cx ∧ t.my = t.cy + s) ∨ (t.mx = t.cx ∧ t.my = t.cy - s) := by
    omega
  have hap : (OddMul s t.mx ∧ EvenMul s t.my) ∨ (EvenMul s t.mx ∧ OddMul s t.my) := by
    rcases hm with ⟨e, e'⟩ | ⟨e, e'⟩ | ⟨e, e'⟩ | ⟨e, e'⟩ <;> rw [e, e']
    · exact Or.inr ⟨hxp.1, oy⟩
    · exact Or.inr ⟨hxp.2, oy⟩
    · exact Or.inl ⟨ox, hyp.1⟩
    · exact Or.inl ⟨ox, hyp.2⟩
  constructor
  · apply shaped_intro
    · simp only [Tri.left]; omega
    · simp only [Tri.left, ULeg, hr, if_true, hse]; omega
    · simp only [Tri.left, CPos, hr, if_true, hse]; exact hap
    · simp only [Tri.left]; omega
  · apply shaped_intro
    · simp only [Tri.right]; omega
    · simp only [Tri.right, ULeg, hr, if_true, hse]; omega
    · simp only [Tri.right, CPos, hr, if_true, hse]; exact hap
    · simp only [Tri.right]; omega

theorem Shaped.children {T : Int} {r : Nat} {t : Tri} (h : Shaped T (r + 1) t) :
    Shaped T r t.left ∧ Shaped T r t.right := by
  by_cases hpar : (r + 1) % 2 = 0
  · exact h.children_of_even hpar
  · exact h.children_of_odd hpar

/-! ## Roots, sizes and levels -/

theorem side_two_mul (k : Nat) : side (2 * k) = 2 ^ k := by
  unfold side
  have : 2 * k / 2 = k := by omega
  rw [this]

theorem shaped_root_first (k : Nat) :
    Shaped (2 ^ k) (2 * k) ⟨0, 0, 2 ^ k, 2 ^ k, 2 ^ k, 0⟩ := by
  have hp : (0 : Int) < 2 ^ k := by positivity
  have hpar : (2 * k) % 2 = 0 := by omega
  apply shaped_intro
  · simp
  · simp only [ULeg, hpar, if_true, side_two_mul]; left; simp
  · simp only [CPos, hpar, if_true, side_two_mul]
    exact Or.inl ⟨⟨0, by ring⟩, ⟨0, by ring⟩⟩
  · simp only; omega

theorem shaped_root_second (k : Nat) :
    Shaped (2 ^ k) (2 * k) ⟨2 ^ k, 2 ^ k, 0, 0, 0, 2 ^ k⟩ := by
  have hp : (0 : Int) < 2 ^ k := by positivity
  have hpar : (2 * k) % 2 = 0 := by omega
  apply shaped_intro
  · simp
  · simp only [ULeg, hpar, if_true, side_two_mul]; left; simp
  · simp only [CPos, hpar, if_true, side_two_mul]
    exact Or.inr ⟨⟨0, by ring⟩, ⟨0, by ring⟩⟩
  · simp only; omega

theorem shaped_rootOf (k id : Nat) : Shaped (2 ^ k) (2 * k) (rootOf (2 ^ k) id) := by
  unfold rootOf
  split
  · exact shaped_root_first k
  · exact shaped_root_second k

/-- The leaf test of `GetMesh` in terms of the remaining depth. -/
theorem Shaped.size_gt_one_iff {T : Int} {r : Nat} {t : Tri} (h : Shaped T r t) :
    |t.ax - t.cx| + |t.ay - t.cy| > 1 ↔ 1 ≤ r := by
  have hs := side_pos r
  have leg := h.leg
  by_cases hpar : r % 2 = 0
  · simp only [ULeg, hpar, if_true] at leg
    rcases Nat.eq_zero_or_pos r with h0 | hpos
    · subst h0
      have : side 0 = 1 := by simp [side]
      rw [this] at leg
      rcases leg with ⟨h1 | h1, h2⟩ | ⟨h1, h2 | h2⟩ <;> rw [h1, h2] <;> simp
    · have h2 : 2 ≤ side r := by
        unfold side
        have : 1 ≤ r / 2 := by omega
        calc (2 : Int) = 2 ^ 1 := by norm_num
          _ ≤ 2 ^ (r / 2) := pow_le_pow_right₀ (by norm_num) this
      have : 1 ≤ r := hpos
      simp only [this, iff_true]
      rcases leg with ⟨h1 | h1, h2⟩ | ⟨h1, h2 | h2⟩ <;> rw [h1, h2] <;>
        simp [abs_of_pos hs] <;> omega
  · simp only [ULeg, hpar, if_false] at leg
    have : 1 ≤ r := by omega
    simp only [this, iff_true]
    rcases leg with ⟨h1 | h1, h2 | h2⟩ <;> rw [h1, h2] <;>
      simp [abs_of_pos hs] <;> omega

/-- For every triangle above the unit level the halvings are exact and the apex is
recovered from `a`, `b` by the formula used in `update`. -/
theorem Shaped.apex_formula {T : Int} {r : Nat} {t : Tri} (h : Shaped T (r + 1) t) :
    2 * t.mx = t.ax + t.bx ∧ 2 * t.my = t.ay + t.by_ ∧
      t.mx + t.my - t.ay = t.cx ∧ t.my + t.ax - t.mx = t.cy := by
  have hs := side_pos r
  have leg := h.leg
  have rotx := h.rotx
  have roty := h.roty
  have hmx' : t.mx = (t.ax + t.bx) / 2 := by simp only [Tri.mx, half_eq]
  have hmy' : t.my = (t.ay + t.by_) / 2 := by simp only [Tri.my, half_eq]
  by_cases hpar : (r + 1) % 2 = 0
  · simp only [ULeg, hpar, if_true, side_succ_of_even r hpar] at leg
    generalize side r = s at *
    omega
  · simp only [ULeg, hpar, if_false, side_succ_of_odd r hpar] at leg
    generalize side r = s at *
    omega

/-- The hypotenuse midpoint of a triangle `r + 1` levels above the unit triangles sits
at a position of level `r`. -/
theorem Shaped.mid_level {T : Int} {r : Nat} {t : Tri} (h : Shaped T (r + 1) t) :
    CPos r t.mx t.my := h.children.1.apex

theorem Shaped.mid_bounds {T : Int} {r : Nat} {t : Tri} (h : Shaped T (r + 1) t) :
    0 ≤ t.mx ∧ t.mx ≤ T ∧ 0 ≤ t.my ∧ t.my ≤ T :=
  ⟨h.children.1.cx0, h.children.1.cx1, h.children.1.cy0, h.children.1.cy1⟩

theorem pow_two_mul_odd_ne {e e' : Nat} (h : e < e') (p z : Int) :
    (2 : Int) ^ e * (2 * p + 1) ≠ 2 ^ e' * z := by
  intro heq
  obtain ⟨d, rfl⟩ : ∃ d, e' = e + (d + 1) := ⟨e' - e - 1, by omega⟩
  have hne : (2 : Int) ^ e ≠ 0 := by positivity
  have : (2 : Int) ^ (e + (d + 1)) * z = 2 ^ e * (2 * (2 ^ d * z)) := by
    rw [pow_add, pow_succ]; ring
  rw [this] at heq
  have := mul_left_cancel₀ hne heq
  omega

theorem CPos.mult {r : Nat} {x y : Int} (h : CPos r x y) :
    (∃ z, x = side r * z) ∧ (∃ z, y = side r * z) ∧
      ((∃ p : Int, x = side r * (2 * p + 1)) ∨ (∃ p : Int, y = side r * (2 * p + 1))) := by
  unfold CPos at h
  split at h
  · rcases h with ⟨⟨p, hp⟩, ⟨q, hq⟩⟩ | ⟨⟨p, hp⟩, ⟨q, hq⟩⟩
    · exact ⟨⟨_, hp⟩, ⟨_, hq⟩, Or.inl ⟨p, hp⟩⟩
    · exact ⟨⟨_, hp⟩, ⟨_, hq⟩, Or.inr ⟨q, hq⟩⟩
  · obtain ⟨⟨p, hp⟩, ⟨q, hq⟩⟩ := h
    exact ⟨⟨_, hp⟩, ⟨_, hq⟩, Or.inl ⟨p, hp⟩⟩

theorem CPos.half_le {r r' : Nat} {x y : Int} (h : CPos r x y) (h' : CPos r' x y) :
    r' / 2 ≤ r / 2 := by
  by_contra hlt
  have hlt : r / 2 < r' / 2 := by omega
  obtain ⟨_, _, hodd⟩ := h.mult
  obtain ⟨⟨z1, hz1⟩, ⟨z2, hz2⟩, _⟩ := h'.mult
  unfold side at hodd hz1 hz2
  rcases hodd with ⟨p, hp⟩ | ⟨p, hp⟩
  · exact pow_two_mul_odd_ne hlt p z1 (hp.symm.trans hz1)
  · exact pow_two_mul_odd_ne hlt p z2 (hp.symm.trans hz2)

/-- A grid position has at most one level. -/
theorem CPos.level_unique {r r' : Nat} {x y : Int} (h : CPos r x y) (h' : CPos r' x y) :
    r = r' := by
  have h1 := h.half_le h'
  have h2 := h'.half_le h
  have hdiv : r / 2 = r' / 2 := by omega
  have hside : side r' = side r := by unfold side; rw [hdiv]
  have hs := side_pos r
  have hne : side r ≠ 0 := by omega
  have key : ∀ p q : Int, side r * (2 * p + 1) ≠ side r * (2 * q) := by
    intro p q heq
    have := mul_left_cancel₀ hne heq
    omega
  by_cases hp : r % 2 = 0 <;> by_cases hp' : r' % 2 = 0
  · omega
  · exfalso
    simp only [CPos, hp, hp', if_true, if_false, hside] at h h'
    obtain ⟨⟨p1, e1⟩, ⟨p2, e2⟩⟩ := h'
    rcases h with ⟨_, ⟨q, eq⟩⟩ | ⟨⟨q, eq⟩, _⟩
    · exact key p2 q (e2.symm.trans eq)
    · exact key p1 q (e1.symm.trans eq)
  · exfalso
    simp only [CPos, hp, hp', if_true, if_false, hside] at h h'
    obtain ⟨⟨p1, e1⟩, ⟨p2, e2⟩⟩ := h
    rcases h' with ⟨_, ⟨q, eq⟩⟩ | ⟨⟨q, eq⟩, _⟩
    · exact key p2 q (e2.symm.trans eq)
    · exact key p1 q (e1.symm.trans eq)
  · omega

/-! ## The inner loop of `New` -/

theorem bisect_eq (id : Nat) (t : Tri) : bisect id t = t.left ∨ bisect id t = t.right := by
  unfold bisect Tri.left Tri.right
  split <;> simp

/-- Once the budget covers the bit length of `id`, the loop result no longer depends
on it: the loop stops because `id ≤ 1`. -/
theorem descend_fuel (fuel id : Nat) (t : Tri) (h : Nat.log 2 id ≤ fuel) :
    descend fuel id t = descend (Nat.log 2 id) id t := by
  induction fuel generalizing id t with
  | zero =>
    have : Nat.log 2 id = 0 := by omega
    rw [this]
  | succ n ih =>
    by_cases hid : id > 1
    · have hlog : Nat.log 2 id = Nat.log 2 (id / 2) + 1 :=
        Nat.log_of_one_lt_of_le (by norm_num) (by omega)
      rw [hlog]
      simp only [descend, hid, if_true, Nat.shiftRight_eq_div_pow, pow_one]
      exact ih _ _ (by omega)
    · have hlog : Nat.log 2 id = 0 := Nat.log_of_lt (by omega)
      rw [hlog]
      simp [descend, hid]

theorem descend_shaped {T : Int} (fuel id r : Nat) (t : Tri) (h : Shaped T r t)
    (hr : Nat.log 2 id ≤ r) (hf : Nat.log 2 id ≤ fuel) :
    Shaped T (r - Nat.log 2 id) (descend fuel id t) := by
  induction fuel generalizing id r t with
  | zero =>
    have : Nat.log 2 id = 0 := by omega
    rw [this]; exact h
  | succ n ih =>
    by_cases hid : id > 1
    · have hlog : Nat.log 2 id = Nat.log 2 (id / 2) + 1 :=
        Nat.log_of_one_lt_of_le (by norm_num) (by omega)
      simp only [descend, hid, if_true, Nat.shiftRight_eq_div_pow, pow_one]
      obtain ⟨r', rfl⟩ : ∃ r', r = r' + 1 := ⟨r - 1, by omega⟩
      have hb : Shaped T r' (bisect id t) := by
        rcases bisect_eq id t with e | e <;> rw [e]
        · exact h.children.1
        · exact h.children.2
      have := ih (id / 2) r' _ hb (by omega) (by omega)
      have e : r' + 1 - Nat.log 2 id = r' - Nat.log 2 (id / 2) := by omega
      rw [e]; exact this
    · have hlog : Nat.log 2 id = 0 := Nat.log_of_lt (by omega)
      rw [hlog]
      simp only [descend, hid, if_false]
      exact h

theorem depthOf_mono {i j : Nat} (h : i ≤ j) : depthOf i ≤ depthOf j :=
  Nat.log_mono_right (by omega)

theorem depthOf_lt {i n : Nat} (h : i + 2 < 2 ^ (n + 1)) : depthOf i < n := by
  unfold depthOf
  apply Nat.log_lt_of_lt_pow (by omega)
  rw [pow_succ] at h
  omega

theorem triangleOf_shaped (k i : Nat) (h : depthOf i ≤ 2 * k) :
    Shaped (2 ^ k) (2 * k - depthOf i) (triangleOf (2 ^ k) i) := by
  unfold triangleOf
  simp only [Nat.shiftRight_eq_div_pow, pow_one]
  apply descend_shaped _ _ _ _ (shaped_rootOf k _) h
  exact le_trans (Nat.log_le_self _ _) (by omega)

/-! ## `New` on grids of side `2 ^ k + 1` -/

theorem tableLen_cast (k : Nat) : ((tableLen k : Nat) : Int) = 2 ^ k * 2 ^ k * 2 - 2 := by
  unfold tableLen
  have h1 : 1 ≤ (2 ^ k) ^ 2 := Nat.one_le_pow _ _ (by positivity)
  have : 2 ≤ 2 * (2 ^ k) ^ 2 := by omega
  rw [Nat.cast_sub this]
  push_cast; ring

theorem tableLen_lt_iff (k i : Nat) : i < tableLen k ↔ i + 2 < 2 ^ (2 * k + 1) := by
  unfold tableLen
  have h1 : 1 ≤ (2 ^ k) ^ 2 := Nat.one_le_pow _ _ (by positivity)
  have : 2 ^ (2 * k + 1) = 2 * (2 ^ k) ^ 2 := by
    rw [pow_succ, pow_mul']; ring
  omega

theorem New_pow (k : Nat) :
    ∃ m, New (2 ^ k + 1) = .ok m ∧ ValidMartini k m ∧
      m.indices = List.replicate ((2 ^ k + 1) ^ 2) 0 := by
  have hland : Int.land ((2 : Int) ^ k) (2 ^ k - 1) = 0 := by
    rw [int_land_pred]; right; exact ⟨k, rfl⟩
  have hT : (1 : Int) ≤ 2 ^ k := by
    have : (0 : Int) < 2 ^ k := by positivity
    omega
  have hcast := tableLen_cast k
  have e1 : ((2 : Int) ^ k + 1 - 1) = 2 ^ k := by ring
  have hn : ((2 : Int) ^ k * 2 ^ k * 2 - 2).toNat = tableLen k := by
    rw [← hcast]; simp
  have hG : (((2 : Int) ^ k + 1) * (2 ^ k + 1)).toNat = (2 ^ k + 1) ^ 2 := by
    have : (((2 : Int) ^ k + 1) * (2 ^ k + 1)) = (((2 ^ k + 1) ^ 2 : Nat) : Int) := by
      push_cast; ring
    rw [this, Int.toNat_natCast]
  have hlen : (List.replicate (4 * tableLen k) (0 : Int)).length = 4 * (0 + tableLen k) := by
    simp
  obtain ⟨coords, hfill, hl, htab⟩ :=
    fillCoords_ok (2 ^ k) (tableLen k) 0 (List.replicate (4 * tableLen k) 0) hlen
      (fun j hj => absurd hj (by omega))
  have hmk1 : make (((2 : Int) ^ k + 1) * (2 ^ k + 1)) =
      .ok (List.replicate ((2 ^ k + 1) ^ 2) 0) := by
    rw [make_ok (by positivity), hG]
  have hmk2 : make (((2 : Int) ^ k * 2 ^ k * 2 - 2) * 4) =
      .ok (List.replicate (4 * tableLen k) 0) := by
    rw [make_ok (by rw [← hcast]; positivity)]
    congr 2
    rw [← hcast]
    have : ((tableLen k : Int) * 4) = ((4 * tableLen k : Nat) : Int) := by push_cast; ring
    rw [this, Int.toNat_natCast]
  refine ⟨⟨2 ^ k + 1, 2 ^ k * 2 ^ k * 2 - 2, 2 ^ k * 2 ^ k * 2 - 2 - 2 ^ k * 2 ^ k,
    List.replicate ((2 ^ k + 1) ^ 2) 0, coords⟩, ?_, ?_, rfl⟩
  · unfold New
    simp only [hland, ne_eq, not_true_eq_false, if_false, e1, hmk1, hmk2, ok_bind, hn, hfill,
      pure_eq_ok]
  · refine ⟨rfl, hcast.symm, by simp only; ring, by simp, ?_, ?_⟩
    · simp only; rw [hl]; simp
    · simpa using htab

theorem ValidMartini.rd_coords {k : Nat} {m : Martini} (h : ValidMartini k m) {i : Nat}
    (hi : i < tableLen k) :
    rd m.coords ((i : Int) * 4 + 0) = .ok (triangleOf (2 ^ k) i).ax ∧
    rd m.coords ((i : Int) * 4 + 1) = .ok (triangleOf (2 ^ k) i).ay ∧
    rd m.coords ((i : Int) * 4 + 2) = .ok (triangleOf (2 ^ k) i).bx ∧
    rd m.coords ((i : Int) * 4 + 3) = .ok (triangleOf (2 ^ k) i).by_ := by
  obtain ⟨p, q, r, s⟩ := h.table i hi
  have e0 : ((i : Int) * 4 + 0) = ((4 * i : Nat) : Int) := by push_cast; ring
  have e1 : ((i : Int) * 4 + 1) = ((4 * i + 1 : Nat) : Int) := by push_cast; ring
  have e2 : ((i : Int) * 4 + 2) = ((4 * i + 2 : Nat) : Int) := by push_cast; ring
  have e3 : ((i : Int) * 4 + 3) = ((4 * i + 3 : Nat) : Int) := by push_cast; ring
  rw [e0, e1, e2, e3]
  exact ⟨rd_ok p, rd_ok q, rd_ok r, rd_ok s⟩

/-- Remaining depth of table triangle `i`: at least one for every record, at least
two for the records below `numParentTriangles`. -/
theorem table_shaped (k i : Nat) (hi : i < tableLen k) :
    ∃ r, 2 * k - depthOf i = r + 1 ∧ Shaped (2 ^ k) (r + 1) (triangleOf (2 ^ k) i) := by
  have hlt : depthOf i < 2 * k := depthOf_lt ((tableLen_lt_iff k i).mp hi)
  refine ⟨2 * k - depthOf i - 1, by omega, ?_⟩
  have := triangleOf_shaped k i (by omega)
  have e : 2 * k - depthOf i - 1 + 1 = 2 * k - depthOf i := by omega
  rw [e]; exact this

theorem parent_shaped (k i : Nat) (hi : (i : Int) < (2 ^ k) ^ 2 - 2) :
    ∃ r, 2 * k - depthOf i = r + 2 ∧ Shaped (2 ^ k) (r + 2) (triangleOf (2 ^ k) i) := by
  have hi' : i + 2 < 2 ^ (2 * k) := by
    have : ((i + 2 : Nat) : Int) < ((2 ^ (2 * k) : Nat) : Int) := by
      push_cast; rw [pow_mul']; omega
    exact_mod_cast this
  obtain ⟨k', rfl⟩ : ∃ k', k = k' + 1 := by
    rcases k with _ | k'
    · simp at hi'
    · exact ⟨k', rfl⟩
  have hlt : depthOf i < 2 * k' + 1 := depthOf_lt (by
    have : 2 * k' + 1 + 1 = 2 * (k' + 1) := by ring
    rw [this]; exact hi')
  refine ⟨2 * (k' + 1) - depthOf i - 2, by omega, ?_⟩
  have := triangleOf_shaped (k' + 1) i (by omega)
  have e : 2 * (k' + 1) - depthOf i - 2 + 2 = 2 * (k' + 1) - depthOf i := by omega
  rw [e]; exact this

theorem parent_lt_tableLen (k i : Nat) (hi : (i : Int) < (2 ^ k) ^ 2 - 2) :
    i < tableLen k := by
  have := tableLen_cast k
  have h2 : (0 : Int) ≤ 2 ^ k * 2 ^ k := by positivity
  have : (i : Int) < (tableLen k : Int) := by rw [this]; nlinarith
  exact_mod_cast this

/-! ## Grid cells -/

theorem cell_nonneg (k : Nat) {x y : Int} (hx : 0 ≤ x) (hy : 0 ≤ y) :
    0 ≤ y * (2 ^ k + 1) + x := by
  have : (0 : Int) ≤ 2 ^ k + 1 := by positivity
  positivity

theorem cellIx_lt (k : Nat) {x y : Int} (hx0 : 0 ≤ x) (hx1 : x ≤ 2 ^ k) (hy0 : 0 ≤ y)
    (hy1 : y ≤ 2 ^ k) : cellIx (2 ^ k + 1) x y < (2 ^ k + 1) ^ 2 := by
  unfold cellIx
  have hT : (0 : Int) ≤ 2 ^ k := by positivity
  have h1 : y * (2 ^ k + 1) + x < (((2 ^ k + 1) ^ 2 : Nat) : Int) := by
    push_cast
    nlinarith
  have h0 := cell_nonneg k hx0 hy0
  omega

theorem cellIx_inj (k : Nat) {x y x' y' : Int} (hx0 : 0 ≤ x) (hx1 : x ≤ 2 ^ k) (hy0 : 0 ≤ y)
    (hx0' : 0 ≤ x') (hx1' : x' ≤ 2 ^ k) (hy0' : 0 ≤ y')
    (h : cellIx (2 ^ k + 1) x y = cellIx (2 ^ k + 1) x' y') : x = x' ∧ y = y' := by
  unfold cellIx at h
  have h0 := cell_nonneg k hx0 hy0
  have h0' := cell_nonneg k hx0' hy0'
  have heq : y * (2 ^ k + 1) + x = y' * (2 ^ k + 1) + x' := by omega
  have hT : (0 : Int) ≤ 2 ^ k := by positivity
  have hy : y = y' := by
    by_contra hne
    rcases lt_or_gt_of_ne hne with hlt | hgt
    · have : y + 1 ≤ y' := by omega
      nlinarith
    · have : y' + 1 ≤ y := by omega
      nlinarith
  subst hy
  exact ⟨by omega, rfl⟩

theorem rd_cell {α : Type} (k : Nat) {xs : List α} (hlen : xs.length = (2 ^ k + 1) ^ 2)
    {x y : Int} (hx0 : 0 ≤ x) (hx1 : x ≤ 2 ^ k) (hy0 : 0 ≤ y) (hy1 : y ≤ 2 ^ k) (d : α) :
    rd xs (y * (2 ^ k + 1) + x) = .ok (xs.getD (cellIx (2 ^ k + 1) x y) d) := by
  have hlt := cellIx_lt k hx0 hx1 hy0 hy1
  apply rd_ok_int (cell_nonneg k hx0 hy0)
  have : cellIx (2 ^ k + 1) x y < xs.length := by omega
  unfold cellIx at this ⊢
  rw [List.getD_eq_getElem?_getD, List.getElem?_eq_getElem this]
  rfl

theorem wr_cell {α : Type} (k : Nat) {xs : List α} (hlen : xs.length = (2 ^ k + 1) ^ 2)
    {x y : Int} (hx0 : 0 ≤ x) (hx1 : x ≤ 2 ^ k) (hy0 : 0 ≤ y) (hy1 : y ≤ 2 ^ k) (v : α) :
    wr xs (y * (2 ^ k + 1) + x) v = .ok (xs.set (cellIx (2 ^ k + 1) x y) v) := by
  have hlt := cellIx_lt k hx0 hx1 hy0 hy1
  apply wr_ok v (cell_nonneg k hx0 hy0)
  unfold cellIx at hlt
  omega

/-! ## `update` -/

theorem relax_length (G : Int) (terrain : List ℚ) (p : Bool) (t : Tri) (errors : List ℚ) :
    (relax G terrain p t errors).length = errors.length := by
  unfold relax
  split <;> simp

theorem relaxAll_length (k : Nat) (terrain : List ℚ) (n : Nat) (errors : List ℚ) :
    (relaxAll k terrain n errors).length = errors.length := by
  induction n generalizing errors with
  | zero => rfl
  | succ n ih => simp only [relaxAll]; rw [ih, relax_length]

theorem updateStep_eq {k : Nat} {m : Martini} (hm : ValidMartini k m) {terrain errors : List ℚ}
    (hlt : terrain.length = (2 ^ k + 1) ^ 2) (hle : errors.length = (2 ^ k + 1) ^ 2)
    {i : Nat} (hi : i < tableLen k) :
    updateStep m terrain (i : Int) errors =
      .ok (relax (2 ^ k + 1) terrain (decide ((i : Int) < (2 ^ k) ^ 2 - 2))
        (triangleOf (2 ^ k) i) errors) := by
  obtain ⟨r, hr, hs⟩ := table_shaped k i hi
  obtain ⟨ca, cb, cc, cd⟩ := hm.rd_coords hi
  obtain ⟨_, _, hcx, hcy⟩ := hs.apex_formula
  obtain ⟨mx0, mx1, my0, my1⟩ := hs.mid_bounds
  have hps : (i : Int) < (2 ^ k) ^ 2 - 2 →
      ∃ r, Shaped (2 ^ k) (r + 2) (triangleOf (2 ^ k) i) := fun hp => by
    obtain ⟨r', _, hs'⟩ := parent_shaped k i hp
    exact ⟨r', hs'⟩
  unfold updateStep
  simp only [ca, cb, cc, cd, ok_bind, hm.gridSize_eq, hm.numParent_eq]
  change
    (do
      let ta ← rd terrain ((triangleOf (2 ^ k) i).ay * (2 ^ k + 1) + (triangleOf (2 ^ k) i).ax)
      let tb ← rd terrain ((triangleOf (2 ^ k) i).by_ * (2 ^ k + 1) + (triangleOf (2 ^ k) i).bx)
      let tm ← rd terrain ((triangleOf (2 ^ k) i).my * (2 ^ k + 1) + (triangleOf (2 ^ k) i).mx)
      let em ← rd errors ((triangleOf (2 ^ k) i).my * (2 ^ k + 1) + (triangleOf (2 ^ k) i).mx)
      let errors ← wr errors ((triangleOf (2 ^ k) i).my * (2 ^ k + 1) + (triangleOf (2 ^ k) i).mx)
        (max em |(ta + tb) / 2 - tm|)
      if (i : Int) < (2 ^ k) ^ 2 - 2 then do
        let em ← rd errors
          ((triangleOf (2 ^ k) i).my * (2 ^ k + 1) + (triangleOf (2 ^ k) i).mx)
        let el ← rd errors
          (half ((triangleOf (2 ^ k) i).ay +
            ((triangleOf (2 ^ k) i).my + (triangleOf (2 ^ k) i).ax - (triangleOf (2 ^ k) i).mx)) *
              (2 ^ k + 1) +
            half ((triangleOf (2 ^ k) i).ax +
              ((triangleOf (2 ^ k) i).mx + (triangleOf (2 ^ k) i).my -
                (triangleOf (2 ^ k) i).ay)))
        let er ← rd errors
          (half ((triangleOf (2 ^ k) i).by_ +
            ((triangleOf (2 ^ k) i).my + (triangleOf (2 ^ k) i).ax - (triangleOf (2 ^ k) i).mx)) *
              (2 ^ k + 1) +
            half ((triangleOf (2 ^ k) i).bx +
              ((triangleOf (2 ^ k) i).mx + (triangleOf (2 ^ k) i).my -
                (triangleOf (2 ^ k) i).ay)))
        wr errors ((triangleOf (2 ^ k) i).my * (2 ^ k + 1) + (triangleOf (2 ^ k) i).mx)
          (max (max em el) er)
      else pure errors : Go (List ℚ)) = _
  generalize triangleOf (2 ^ k) i = t at *
  rw [hcx, hcy]
  rw [rd_cell k hlt hs.ax0 hs.ax1 hs.ay0 hs.ay1 0, rd_cell k hlt hs.bx0 hs.bx1 hs.by0 hs.by1 0,
    rd_cell k hlt mx0 mx1 my0 my1 0, rd_cell k hle mx0 mx1 my0 my1 0]
  simp only [ok_bind]
  rw [wr_cell k hle mx0 mx1 my0 my1]
  simp only [ok_bind]
  by_cases hp : (i : Int) < (2 ^ k) ^ 2 - 2
  · obtain ⟨r', hs'⟩ := hps hp
    obtain ⟨lx0, lx1, ly0, ly1⟩ := hs'.children.1.mid_bounds
    obtain ⟨rx0, rx1, ry0, ry1⟩ := hs'.children.2.mid_bounds
    have e1 : half (t.ay + t.cy) = t.left.my := by
      simp only [Tri.my, Tri.left, add_comm]
    have e2 : half (t.ax + t.cx) = t.left.mx := by
      simp only [Tri.mx, Tri.left, add_comm]
    have e3 : half (t.by_ + t.cy) = t.right.my := rfl
    have e4 : half (t.bx + t.cx) = t.right.mx := rfl
    have hle1 : ∀ v : ℚ, (errors.set (cellIx (2 ^ k + 1) t.mx t.my) v).length =
        (2 ^ k + 1) ^ 2 := fun v => by simp [hle]
    simp only [hp, if_true, e1, e2, e3, e4]
    rw [rd_cell k (hle1 _) mx0 mx1 my0 my1 0, rd_cell k (hle1 _) lx0 lx1 ly0 ly1 0,
      rd_cell k (hle1 _) rx0 rx1 ry0 ry1 0]
    simp only [ok_bind]
    rw [wr_cell k (hle1 _) mx0 mx1 my0 my1]
    simp only [relax, valAt, decide_True, if_true]
  · simp only [hp, if_false, pure_eq_ok, relax, valAt, decide_False]
    rfl

theorem getD_set_self {α : Type} (xs : List α) (i : Nat) (v d : α) (h : i < xs.length) :
    (xs.set i v).getD i d = v := by
  rw [List.getD_eq_getElem?_getD, List.getElem?_set_self h]; rfl

theorem getD_set_ne {α : Type} (xs : List α) (i j : Nat) (v d : α) (h : i ≠ j) :
    (xs.set i v).getD j d = xs.getD j d := by
  rw [List.getD_eq_getElem?_getD, List.getD_eq_getElem?_getD, List.getElem?_set_ne h]

theorem updateLoop_eq {k : Nat} {m : Martini} (hm : ValidMartini k m) {terrain : List ℚ}
    (hlt : terrain.length = (2 ^ k + 1) ^ 2) (n : Nat) (hn : n ≤ tableLen k) (errors : List ℚ)
    (hle : errors.length = (2 ^ k + 1) ^ 2) :
    updateLoop m terrain n errors = .ok (relaxAll k terrain n errors) := by
  induction n generalizing errors with
  | zero => rfl
  | succ n ih =>
    simp only [updateLoop, relaxAll]
    rw [updateStep_eq hm hlt hle (by omega)]
    simp only [ok_bind]
    exact ih (by omega) _ (by rw [relax_length]; exact hle)

/-- The error array that `NewTile` computes on a grid of side `2 ^ k + 1`. -/
theorem NewTile_eq {k : Nat} {m : Martini} (hm : ValidMartini k m) {terrain : List ℚ}
    (hlt : terrain.length = (2 ^ k + 1) ^ 2) :
    NewTile terrain m = .ok
      { terrain := terrain, martini := m,
        errors := relaxAll k terrain (tableLen k) (List.replicate ((2 ^ k + 1) ^ 2) 0) } := by
  unfold NewTile
  have hsz : ¬ ((terrain.length : Int) ≠ m.gridSize * m.gridSize) := by
    rw [hm.gridSize_eq, hlt]; push_cast; simp; ring
  simp only [hsz, if_false]
  have hmk : makeFloats (terrain.length : Int) = .ok (List.replicate ((2 ^ k + 1) ^ 2) 0) := by
    unfold makeFloats
    have : ¬ ((terrain.length : Int) < 0) := by omega
    rw [if_neg this, Int.toNat_natCast, hlt]
  rw [hmk]
  simp only [ok_bind, update, hm.numTriangles_eq, Int.toNat_natCast]
  rw [updateLoop_eq hm hlt _ le_rfl _ (by simp)]
  rfl

/-! ### One relaxation step -/

section Relax

variable (G : Int) (terrain : List ℚ) (p : Bool) (t : Tri) (errors : List ℚ)

theorem relax_getD_ne (j : Nat) (h : cellIx G t.mx t.my ≠ j) :
    (relax G terrain p t errors).getD j 0 = errors.getD j 0 := by
  unfold relax
  split
  · simp only [getD_set_ne _ _ _ _ _ h]
  · simp only [getD_set_ne _ _ _ _ _ h]

theorem relax_getD_mid (h : cellIx G t.mx t.my < errors.length) :
    (relax G terrain p t errors).getD (cellIx G t.mx t.my) 0 =
      if p then
        max (max (max (errors.getD (cellIx G t.mx t.my) 0)
          |(valAt terrain G t.ax t.ay + valAt terrain G t.bx t.by_) / 2 -
            valAt terrain G t.mx t.my|)
          (valAt (errors.set (cellIx G t.mx t.my) (max (errors.getD (cellIx G t.mx t.my) 0)
            |(valAt terrain G t.ax t.ay + valAt terrain G t.bx t.by_) / 2 -
              valAt terrain G t.mx t.my|)) G t.left.mx t.left.my))
          (valAt (errors.set (cellIx G t.mx t.my) (max (errors.getD (cellIx G t.mx t.my) 0)
            |(valAt terrain G t.ax t.ay + valAt terrain G t.bx t.by_) / 2 -
              valAt terrain G t.mx t.my|)) G t.right.mx t.right.my)
      else
        max (errors.getD (cellIx G t.mx t.my) 0)
          |(valAt terrain G t.ax t.ay + valAt terrain G t.bx t.by_) / 2 -
            valAt terrain G t.mx t.my| := by
  unfold relax
  cases p
  · simp only [Bool.false_eq_true, if_false]
    rw [getD_set_self _ _ _ _ h]
  · simp only [if_true]
    rw [getD_set_self _ _ _ _ (by simpa using h), getD_set_self _ _ _ _ h]

theorem relax_mono (j : Nat) : errors.getD j 0 ≤ (relax G terrain p t errors).getD j 0 := by
  by_cases hj : cellIx G t.mx t.my = j
  · subst hj
    by_cases hlen : cellIx G t.mx t.my < errors.length
    · rw [relax_getD_mid G terrain p t errors hlen]
      split
      · exact le_trans (le_trans (le_max_left _ _) (le_max_left _ _)) (le_max_left _ _)
      · exact le_max_left _ _
    · have hl : (relax G terrain p t errors).length ≤ cellIx G t.mx t.my := by
        rw [relax_length]; omega
      rw [List.getD_eq_default _ _ hl, List.getD_eq_default _ _ (by omega)]
  · rw [relax_getD_ne G terrain p t errors j hj]

theorem relax_mid_ge (h : cellIx G t.mx t.my < errors.length) :
    |(valAt terrain G t.ax t.ay + valAt terrain G t.bx t.by_) / 2 - valAt terrain G t.mx t.my| ≤
      valAt (relax G terrain p t errors) G t.mx t.my := by
  unfold valAt
  rw [relax_getD_mid G terrain p t errors h]
  split
  · exact le_trans (le_trans (le_max_right _ _) (le_max_left _ _)) (le_max_left _ _)
  · exact le_max_right _ _

theorem relax_parent_ge (h : cellIx G t.mx t.my < errors.length) :
    valAt (relax G terrain true t errors) G t.left.mx t.left.my ≤
        valAt (relax G terrain true t errors) G t.mx t.my ∧
      valAt (relax G terrain true t errors) G t.right.mx t.right.my ≤
        valAt (relax G terrain true t errors) G t.mx t.my := by
  have hmid := relax_getD_mid G terrain true t errors h
  simp only [if_true] at hmid
  constructor
  · by_cases hj : cellIx G t.mx t.my = cellIx G t.left.mx t.left.my
    · unfold valAt; rw [← hj]
    · unfold valAt
      rw [relax_getD_ne G terrain true t errors _ hj, hmid]
      refine le_trans ?_ (le_trans (le_max_right _ _) (le_max_left _ _))
      unfold valAt
      rw [getD_set_ne _ _ _ _ _ hj]
  · by_cases hj : cellIx G t.mx t.my = cellIx G t.right.mx t.right.my
    · unfold valAt; rw [← hj]
    · unfold valAt
      rw [relax_getD_ne G terrain true t errors _ hj, hmid]
      refine le_trans ?_ (le_max_right _ _)
      unfold valAt
      rw [getD_set_ne _ _ _ _ _ hj]

end Relax

theorem relaxAll_mono (k : Nat) (terrain : List ℚ) (n : Nat) (errors : List ℚ) (j : Nat) :
    errors.getD j 0 ≤ (relaxAll k terrain n errors).getD j 0 := by
  induction n generalizing errors with
  | zero => exact le_rfl
  | succ n ih =>
    simp only [relaxAll]
    exact le_trans (relax_mono _ _ _ _ _ j) (ih _)

/-- A property of the error array that holds right after iteration `i` and is kept by
every later iteration (those of smaller index) holds when the loop ends. -/
theorem relaxAll_induct (k : Nat) (terrain : List ℚ) (P : List ℚ → Prop) (i : Nat)
    (hstep : ∀ e : List ℚ, e.length = (2 ^ k + 1) ^ 2 →
      P (relax (2 ^ k + 1) terrain (decide ((i : Int) < (2 ^ k) ^ 2 - 2))
        (triangleOf (2 ^ k) i) e))
    (hkeep : ∀ n, n < i → ∀ e : List ℚ, e.length = (2 ^ k + 1) ^ 2 → P e →
      P (relax (2 ^ k + 1) terrain (decide ((n : Int) < (2 ^ k) ^ 2 - 2))
        (triangleOf (2 ^ k) n) e))
    (N : Nat) (hN : i < N) (e : List ℚ) (he : e.length = (2 ^ k + 1) ^ 2) :
    P (relaxAll k terrain N e) := by
  have low : ∀ n, n ≤ i → ∀ e : List ℚ, e.length = (2 ^ k + 1) ^ 2 → P e →
      P (relaxAll k terrain n e) := by
    intro n
    induction n with
    | zero => intro _ e _ hp; exact hp
    | succ n ih =>
      intro hn e he hp
      simp only [relaxAll]
      exact ih (by omega) _ (by rw [relax_length]; exact he) (hkeep n (by omega) e he hp)
  induction N generalizing e with
  | zero => omega
  | succ N ih =>
    simp only [relaxAll]
    rcases Nat.lt_succ_iff_lt_or_eq.mp hN with hlt | heq
    · exact ih hlt _ (by rw [relax_length]; exact he)
    · subst heq
      exact low i le_rfl _ (by rw [relax_length]; exact he) (hstep e he)

/-! ### The final error array -/

theorem mid_cell_lt {k r : Nat} {t : Tri} (h : Shaped (2 ^ k) (r + 1) t) :
    cellIx (2 ^ k + 1) t.mx t.my < (2 ^ k + 1) ^ 2 := by
  obtain ⟨a, b, c, d⟩ := h.mid_bounds
  exact cellIx_lt k a b c d

/-- Every table triangle leaves its own interpolation error at its midpoint. -/
theorem final_ge_middle (k : Nat) (terrain : List ℚ) (i N : Nat) (hi : i < tableLen k)
    (hN : i < N) (e : List ℚ) (he : e.length = (2 ^ k + 1) ^ 2) :
    |(valAt terrain (2 ^ k + 1) (triangleOf (2 ^ k) i).ax (triangleOf (2 ^ k) i).ay +
        valAt terrain (2 ^ k + 1) (triangleOf (2 ^ k) i).bx (triangleOf (2 ^ k) i).by_) / 2 -
      valAt terrain (2 ^ k + 1) (triangleOf (2 ^ k) i).mx (triangleOf (2 ^ k) i).my| ≤
    valAt (relaxAll k terrain N e) (2 ^ k + 1) (triangleOf (2 ^ k) i).mx
      (triangleOf (2 ^ k) i).my := by
  obtain ⟨r, _, hs⟩ := table_shaped k i hi
  refine relaxAll_induct k terrain
    (fun E => |(valAt terrain (2 ^ k + 1) (triangleOf (2 ^ k) i).ax (triangleOf (2 ^ k) i).ay +
        valAt terrain (2 ^ k + 1) (triangleOf (2 ^ k) i).bx (triangleOf (2 ^ k) i).by_) / 2 -
      valAt terrain (2 ^ k + 1) (triangleOf (2 ^ k) i).mx (triangleOf (2 ^ k) i).my| ≤
      valAt E (2 ^ k + 1) (triangleOf (2 ^ k) i).mx (triangleOf (2 ^ k) i).my) i ?_ ?_ N hN e he
  · intro e he
    exact relax_mid_ge _ _ _ _ _ (by rw [he]; exact mid_cell_lt hs)
  · intro n _ e _ hp
    exact le_trans hp (relax_mono _ _ _ _ _ _)

/-- The midpoint of a later-processed table triangle is never a child midpoint of a
triangle below `numParentTriangles` processed before it. -/
theorem mid_ne_child_mid (k n i : Nat) (hni : n ≤ i) (hi : (i : Int) < (2 ^ k) ^ 2 - 2) :
    cellIx (2 ^ k + 1) (triangleOf (2 ^ k) n).mx (triangleOf (2 ^ k) n).my ≠
        cellIx (2 ^ k + 1) (triangleOf (2 ^ k) i).left.mx (triangleOf (2 ^ k) i).left.my ∧
      cellIx (2 ^ k + 1) (triangleOf (2 ^ k) n).mx (triangleOf (2 ^ k) n).my ≠
        cellIx (2 ^ k + 1) (triangleOf (2 ^ k) i).right.mx (triangleOf (2 ^ k) i).right.my := by
  have hit := parent_lt_tableLen k i hi
  obtain ⟨r, hr, hs⟩ := table_shaped k n (by omega)
  obtain ⟨r', hr', hs'⟩ := parent_shaped k i hi
  have hd := depthOf_mono hni
  have hne : r ≠ r' := by omega
  obtain ⟨a, b, c, d⟩ := hs.mid_bounds
  constructor
  · intro heq
    obtain ⟨a', b', c', d'⟩ := hs'.children.1.mid_bounds
    obtain ⟨ex, ey⟩ := cellIx_inj k a b c a' b' c' heq
    have l1 := hs.mid_level
    have l2 := hs'.children.1.mid_level
    rw [ex, ey] at l1
    exact hne (l1.level_unique l2)
  · intro heq
    obtain ⟨a', b', c', d'⟩ := hs'.children.2.mid_bounds
    obtain ⟨ex, ey⟩ := cellIx_inj k a b c a' b' c' heq
    have l1 := hs.mid_level
    have l2 := hs'.children.2.mid_level
    rw [ex, ey] at l1
    exact hne (l1.level_unique l2)

/-- In the final error array the error at the midpoint of a triangle below
`numParentTriangles` dominates the errors at the midpoints of its two children. -/
theorem final_monotone (k : Nat) (terrain : List ℚ) (i N : Nat)
    (hi : (i : Int) < (2 ^ k) ^ 2 - 2) (hN : i < N) (e : List ℚ)
    (he : e.length = (2 ^ k + 1) ^ 2) :
    valAt (relaxAll k terrain N e) (2 ^ k + 1) (triangleOf (2 ^ k) i).left.mx
        (triangleOf (2 ^ k) i).left.my ≤
      valAt (relaxAll k terrain N e) (2 ^ k + 1) (triangleOf (2 ^ k) i).mx
        (triangleOf (2 ^ k) i).my ∧
    valAt (relaxAll k terrain N e) (2 ^ k + 1) (triangleOf (2 ^ k) i).right.mx
        (triangleOf (2 ^ k) i).right.my ≤
      valAt (relaxAll k terrain N e) (2 ^ k + 1) (triangleOf (2 ^ k) i).mx
        (triangleOf (2 ^ k) i).my := by
  obtain ⟨r, _, hs⟩ := table_shaped k i (parent_lt_tableLen k i hi)
  refine relaxAll_induct k terrain
    (fun E => valAt E (2 ^ k + 1) (triangleOf (2 ^ k) i).left.mx
        (triangleOf (2 ^ k) i).left.my ≤
      valAt E (2 ^ k + 1) (triangleOf (2 ^ k) i).mx (triangleOf (2 ^ k) i).my ∧
    valAt E (2 ^ k + 1) (triangleOf (2 ^ k) i).right.mx
        (triangleOf (2 ^ k) i).right.my ≤
      valAt E (2 ^ k + 1) (triangleOf (2 ^ k) i).mx (triangleOf (2 ^ k) i).my) i ?_ ?_ N hN e he
  · intro e he
    have : decide ((i : Int) < (2 ^ k) ^ 2 - 2) = true := by simpa using hi
    rw [this]
    exact relax_parent_ge _ _ _ _ (by rw [he]; exact mid_cell_lt hs)
  · intro n hn e _ hp
    obtain ⟨h1, h2⟩ := mid_ne_child_mid k n i (by omega) hi
    unfold valAt at hp ⊢
    rw [relax_getD_ne _ _ _ _ _ _ h1, relax_getD_ne _ _ _ _ _ _ h2]
    exact ⟨le_trans hp.1 (relax_mono _ _ _ _ _ _), le_trans hp.2 (relax_mono _ _ _ _ _ _)⟩

theorem relaxAll_nonneg (k : Nat) (terrain : List ℚ) (n m : Nat) (j : Nat) :
    0 ≤ (relaxAll k terrain n (List.replicate m 0)).getD j 0 := by
  refine le_trans ?_ (relaxAll_mono k terrain n _ j)
  rw [List.getD_eq_getElem?_getD, List.getElem?_replicate]
  split <;> simp

/-! ### Constant terrain -/

theorem getD_replicate_zero (n j : Nat) : (List.replicate n (0 : ℚ)).getD j 0 = 0 := by
  rw [List.getD_eq_getElem?_getD, List.getElem?_replicate]
  split <;> simp

theorem set_replicate_self {α : Type} (n j : Nat) (v : α) :
    (List.replicate n v).set j v = List.replicate n v := by
  apply List.ext_getElem?
  intro i
  rw [List.getElem?_set]
  split
  · rename_i h
    subst h
    simp only [List.length_replicate]
    split <;> simp [List.getElem?_replicate, *]
  · rfl

theorem relax_const (k : Nat) (c : ℚ) (p : Bool) (t : Tri) {r : Nat}
    (hs : Shaped (2 ^ k) (r + 1) t) :
    relax (2 ^ k + 1) (List.replicate ((2 ^ k + 1) ^ 2) c) p t
        (List.replicate ((2 ^ k + 1) ^ 2) 0) = List.replicate ((2 ^ k + 1) ^ 2) 0 := by
  have hval : ∀ x y : Int, 0 ≤ x → x ≤ 2 ^ k → 0 ≤ y → y ≤ 2 ^ k →
      valAt (List.replicate ((2 ^ k + 1) ^ 2) c) (2 ^ k + 1) x y = c := by
    intro x y a b c' d
    have := cellIx_lt k a b c' d
    unfold valAt
    rw [List.getD_eq_getElem?_getD, List.getElem?_replicate, if_pos this]; rfl
  obtain ⟨a, b, c', d⟩ := hs.mid_bounds
  have hm : |(c + c) / 2 - c| = 0 := by
    have : (c + c) / 2 - c = 0 := by ring
    rw [this]; simp
  have hz : ∀ x y : Int, valAt (List.replicate ((2 ^ k + 1) ^ 2) 0) (2 ^ k + 1) x y = 0 := by
    intro x y
    unfold valAt
    exact getD_replicate_zero _ _
  unfold relax
  simp only [hval _ _ hs.ax0 hs.ax1 hs.ay0 hs.ay1, hval _ _ hs.bx0 hs.bx1 hs.by0 hs.by1,
    hval _ _ a b c' d, hm, getD_replicate_zero, max_self, set_replicate_self, hz]
  split <;> rfl

theorem relaxAll_const (k : Nat) (c : ℚ) (n : Nat) (hn : n ≤ tableLen k) :
    relaxAll k (List.replicate ((2 ^ k + 1) ^ 2) c) n (List.replicate ((2 ^ k + 1) ^ 2) 0) =
      List.replicate ((2 ^ k + 1) ^ 2) 0 := by
  induction n with
  | zero => rfl
  | succ n ih =>
    simp only [relaxAll]
    obtain ⟨r, _, hs⟩ := table_shaped k n (by omega)
    rw [relax_const k c _ _ hs]
    exact ih (by omega)

/-! ## The traversal of `GetMesh` -/

theorem splits_eq {k : Nat} {t : Tile} (ht : ValidTile k t) (maxError : ℚ) {r : Nat} {tri : Tri}
    (hs : Shaped (2 ^ k) r tri) :
    splits t maxError tri = .ok (splitsP t.errors (2 ^ k + 1) maxError tri) := by
  unfold splits splitsP
  by_cases hsz : |tri.ax - tri.cx| + |tri.ay - tri.cy| > 1
  · obtain ⟨r', rfl⟩ : ∃ r', r = r' + 1 := ⟨r - 1, by have := hs.size_gt_one_iff.mp hsz; omega⟩
    obtain ⟨a, b, c, d⟩ := hs.mid_bounds
    simp only [hsz, if_true, ht.martini.gridSize_eq, rd_cell k ht.errors_len a b c d 0, ok_bind,
      pure_eq_ok, decide_True, Bool.true_and, valAt]
  · simp only [hsz, if_false, pure_eq_ok, decide_False, Bool.false_and]

theorem splitsP_zero {k : Nat} (errors : List ℚ) (maxError : ℚ) {tri : Tri}
    (hs : Shaped (2 ^ k) 0 tri) : splitsP errors (2 ^ k + 1) maxError tri = false := by
  unfold splitsP
  have : ¬ |tri.ax - tri.cx| + |tri.ay - tri.cy| > 1 := by
    rw [hs.size_gt_one_iff]; omega
  simp only [this, decide_False, Bool.false_and]

theorem countElements_eq {k : Nat} {t : Tile} (ht : ValidTile k t) (maxError : ℚ) (r fuel : Nat)
    (tri : Tri) (hs : Shaped (2 ^ k) r tri) (hf : r + 1 ≤ fuel) (s : CountState) :
    countElements t maxError fuel tri s =
      (leaves t.errors (2 ^ k + 1) maxError r tri).foldlM
        (fun s tri => countLeaf (2 ^ k + 1) tri s) s := by
  induction r generalizing fuel tri s with
  | zero =>
    obtain ⟨f, rfl⟩ : ∃ f, fuel = f + 1 := ⟨fuel - 1, by omega⟩
    simp only [countElements, splits_eq ht maxError hs, splitsP_zero _ _ hs, ok_bind, leaves,
      List.foldlM_cons, List.foldlM_nil, ht.martini.gridSize_eq, Bool.false_eq_true, if_false,
      bind_pure]
  | succ r ih =>
    obtain ⟨f, rfl⟩ : ∃ f, fuel = f + 1 := ⟨fuel - 1, by omega⟩
    simp only [countElements, splits_eq ht maxError hs, ok_bind, leaves]
    by_cases hsp : splitsP t.errors (2 ^ k + 1) maxError tri = true
    · simp only [hsp, if_true, List.foldlM_append]
      rw [ih f _ hs.children.1 (by omega)]
      congr 1
      funext s'
      exact ih f _ hs.children.2 (by omega) s'
    · have hsp' : splitsP t.errors (2 ^ k + 1) maxError tri = false := by simpa using hsp
      simp only [hsp', Bool.false_eq_true, if_false, List.foldlM_cons, List.foldlM_nil,
        ht.martini.gridSize_eq, bind_pure]

theorem processTriangle_eq {k : Nat} {t : Tile} (ht : ValidTile k t) (maxError : ℚ)
    (indices : List Int) (r fuel : Nat) (tri : Tri) (hs : Shaped (2 ^ k) r tri)
    (hf : r + 1 ≤ fuel) (s : FillState) :
    processTriangle t maxError indices fuel tri s =
      (leaves t.errors (2 ^ k + 1) maxError r tri).foldlM
        (fun s tri => fillLeaf (2 ^ k + 1) indices tri s) s := by
  induction r generalizing fuel tri s with
  | zero =>
    obtain ⟨f, rfl⟩ : ∃ f, fuel = f + 1 := ⟨fuel - 1, by omega⟩
    simp only [processTriangle, splits_eq ht maxError hs, splitsP_zero _ _ hs, ok_bind, leaves,
      List.foldlM_cons, List.foldlM_nil, ht.martini.gridSize_eq, Bool.false_eq_true, if_false,
      bind_pure]
  | succ r ih =>
    obtain ⟨f, rfl⟩ : ∃ f, fuel = f + 1 := ⟨fuel - 1, by omega⟩
    simp only [processTriangle, splits_eq ht maxError hs, ok_bind, leaves]
    by_cases hsp : splitsP t.errors (2 ^ k + 1) maxError tri = true
    · simp only [hsp, if_true, List.foldlM_append]
      rw [ih f _ hs.children.1 (by omega)]
      congr 1
      funext s'
      exact ih f _ hs.children.2 (by omega) s'
    · have hsp' : splitsP t.errors (2 ^ k + 1) maxError tri = false := by simpa using hsp
      simp only [hsp', Bool.false_eq_true, if_false, List.foldlM_cons, List.foldlM_nil,
        ht.martini.gridSize_eq, bind_pure]

/-- Every triangle at which the traversal stops belongs to the hierarchy and fails the
split test. -/
theorem leaves_spec {k : Nat} (errors : List ℚ) (maxError : ℚ) (r : Nat) (tri : Tri)
    (hs : Shaped (2 ^ k) r tri) :
    ∀ l ∈ leaves errors (2 ^ k + 1) maxError r tri,
      ∃ r', r' ≤ r ∧ Shaped (2 ^ k) r' l ∧ splitsP errors (2 ^ k + 1) maxError l = false := by
  induction r generalizing tri with
  | zero =>
    intro l hl
    simp only [leaves, List.mem_singleton] at hl
    subst hl
    exact ⟨0, le_rfl, hs, splitsP_zero _ _ hs⟩
  | succ r ih =>
    intro l hl
    simp only [leaves] at hl
    by_cases hsp : splitsP errors (2 ^ k + 1) maxError tri = true
    · simp only [hsp, if_true, List.mem_append] at hl
      rcases hl with hl | hl
      · obtain ⟨r', h1, h2, h3⟩ := ih _ hs.children.1 l hl
        exact ⟨r', by omega, h2, h3⟩
      · obtain ⟨r', h1, h2, h3⟩ := ih _ hs.children.2 l hl
        exact ⟨r', by omega, h2, h3⟩
    · have hsp' : splitsP errors (2 ^ k + 1) maxError tri = false := by simpa using hsp
      simp only [hsp', Bool.false_eq_true, if_false, List.mem_singleton] at hl
      subst hl
      exact ⟨r + 1, le_rfl, hs, hsp'⟩

theorem emitted_spec (k : Nat) (errors : List ℚ) (maxError : ℚ) :
    ∀ l ∈ emitted k errors maxError,
      ∃ r', r' ≤ 2 * k ∧ Shaped (2 ^ k) r' l ∧
        splitsP errors (2 ^ k + 1) maxError l = false := by
  intro l hl
  simp only [emitted, List.mem_append] at hl
  rcases hl with hl | hl
  · exact leaves_spec errors maxError _ _ (shaped_root_first k) l hl
  · exact leaves_spec errors maxError _ _ (shaped_root_second k) l hl

/-! ## First pass of `GetMesh`: counting and numbering -/

theorem countP_set_nonzero (l : List Int) (j : Nat) (v : Int) (hj : j < l.length)
    (h0 : l.getD j 0 = 0) (hv : v ≠ 0) :
    (l.set j v).countP (fun v => decide (v ≠ 0)) = l.countP (fun v => decide (v ≠ 0)) + 1 := by
  induction l generalizing j with
  | nil => simp at hj
  | cons x xs ih =>
    cases j with
    | zero =>
      simp only [List.getD_cons_zero] at h0
      subst h0
      simp [List.countP_cons, hv]
    | succ j =>
      simp only [List.getD_cons_succ] at h0
      simp only [List.set_cons_succ, List.countP_cons]
      rw [ih j (by simpa using hj) h0]
      omega

theorem countP_nonzero_eq_length (l : List Int) (h : ∀ j, j < l.length → l.getD j 0 ≠ 0) :
    l.countP (fun v => decide (v ≠ 0)) = l.length := by
  rw [List.countP_eq_length]
  intro a ha
  obtain ⟨n, hn, rfl⟩ := List.getElem_of_mem ha
  have := h n hn
  rw [List.getD_eq_getElem _ _ hn] at this
  simpa using this

theorem markP_length (G : Int) (s : CountState) (p : Int × Int) :
    (markP G s p).indices.length = s.indices.length := by
  unfold markP
  split <;> simp

theorem markP_numTriangles (G : Int) (s : CountState) (p : Int × Int) :
    (markP G s p).numTriangles = s.numTriangles := by
  unfold markP
  split <;> rfl

theorem markVertex_eq (k : Nat) (s : CountState) (hlen : s.indices.length = (2 ^ k + 1) ^ 2)
    (p : Int × Int) (hp : InGrid k p) :
    markVertex (2 ^ k + 1) p.1 p.2 s = .ok (markP (2 ^ k + 1) s p) := by
  obtain ⟨a, b, c, d⟩ := hp
  unfold markVertex markP
  rw [rd_cell k hlen a b c d 0]
  simp only [ok_bind]
  split
  · rw [wr_cell k hlen a b c d]; rfl
  · rfl

theorem Shaped.corners_inGrid {k r : Nat} {t : Tri} (h : Shaped (2 ^ k) r t) :
    ∀ p ∈ t.corners, InGrid k p := by
  intro p hp
  simp only [Tri.corners, List.mem_cons, List.mem_singleton, List.not_mem_nil, or_false] at hp
  rcases hp with rfl | rfl | rfl
  · exact ⟨h.ax0, h.ax1, h.ay0, h.ay1⟩
  · exact ⟨h.bx0, h.bx1, h.by0, h.by1⟩
  · exact ⟨h.cx0, h.cx1, h.cy0, h.cy1⟩

theorem countLeafP_length (G : Int) (s : CountState) (tri : Tri) :
    (countLeafP G s tri).indices.length = s.indices.length := by
  simp only [countLeafP, markP_length]

theorem countLeaf_eq (k : Nat) (s : CountState) (hlen : s.indices.length = (2 ^ k + 1) ^ 2)
    (tri : Tri) (hin : ∀ p ∈ tri.corners, InGrid k p) :
    countLeaf (2 ^ k + 1) tri s = .ok (countLeafP (2 ^ k + 1) s tri) := by
  have ha := hin (tri.ax, tri.ay) (by simp [Tri.corners])
  have hb := hin (tri.bx, tri.by_) (by simp [Tri.corners])
  have hc := hin (tri.cx, tri.cy) (by simp [Tri.corners])
  unfold countLeaf countLeafP
  rw [markVertex_eq k s hlen (tri.ax, tri.ay) ha]
  simp only [ok_bind]
  rw [markVertex_eq k _ (by rw [markP_length]; exact hlen) (tri.bx, tri.by_) hb]
  simp only [ok_bind]
  rw [markVertex_eq k _ (by rw [markP_length, markP_length]; exact hlen) (tri.cx, tri.cy) hc]
  rfl

theorem foldlM_countLeaf_eq (k : Nat) (tris : List Tri)
    (hin : ∀ t ∈ tris, ∀ p ∈ t.corners, InGrid k p) (s : CountState)
    (hlen : s.indices.length = (2 ^ k + 1) ^ 2) :
    tris.foldlM (fun s tri => countLeaf (2 ^ k + 1) tri s) s =
      .ok (tris.foldl (countLeafP (2 ^ k + 1)) s) := by
  induction tris generalizing s with
  | nil => rfl
  | cons t ts ih =>
    simp only [List.foldlM_cons, List.foldl_cons]
    rw [countLeaf_eq k s hlen t (hin t (by simp))]
    simp only [ok_bind]
    exact ih (fun t' ht' => hin t' (by simp [ht'])) _ (by rw [countLeafP_length]; exact hlen)

theorem MarkInv.numVertices_nonneg {k : Nat} {s : CountState} {cells : List (Int × Int)}
    (h : MarkInv k s cells) : 0 ≤ s.numVertices := by
  rw [← h.count]; positivity

theorem markP_inv {k : Nat} {s : CountState} {cells : List (Int × Int)} (h : MarkInv k s cells)
    (p : Int × Int) (hp : InGrid k p) : MarkInv k (markP (2 ^ k + 1) s p) (cells ++ [p]) := by
  have hnv := h.numVertices_nonneg
  have hlt : cellIx (2 ^ k + 1) p.1 p.2 < s.indices.length := by
    rw [h.len]; exact cellIx_lt k hp.1 hp.2.1 hp.2.2.1 hp.2.2.2
  unfold markP
  by_cases h0 : s.indices.getD (cellIx (2 ^ k + 1) p.1 p.2) 0 = 0
  · simp only [h0, if_true]
    have hget : ∀ j, (s.indices.set (cellIx (2 ^ k + 1) p.1 p.2) (s.numVertices + 1)).getD j 0 =
        if cellIx (2 ^ k + 1) p.1 p.2 = j then s.numVertices + 1 else s.indices.getD j 0 := by
      intro j
      split
      · rename_i e; subst e; exact getD_set_self _ _ _ _ hlt
      · rename_i e; exact getD_set_ne _ _ _ _ _ e
    refine ⟨by simp [h.len], ?_, ?_, ?_, ?_, ?_⟩
    · intro j
      simp only [hget]
      split
      · right; omega
      · rcases h.range j with e | ⟨e1, e2⟩
        · left; exact e
        · right; omega
    · intro j j'
      simp only [hget]
      intro hne heq
      by_cases e1 : cellIx (2 ^ k + 1) p.1 p.2 = j <;>
        by_cases e2 : cellIx (2 ^ k + 1) p.1 p.2 = j'
      · omega
      · simp only [e1, e2, if_true, if_false] at heq hne
        rcases h.range j' with e | ⟨_, e⟩ <;> omega
      · simp only [e1, e2, if_true, if_false] at heq hne
        rcases h.range j with e | ⟨_, e⟩ <;> omega
      · simp only [e1, e2, if_false] at heq hne
        exact h.inj j j' hne heq
    · intro o ho1 ho2
      simp only [hget]
      simp only at ho2
      by_cases hon : o ≤ s.numVertices
      · obtain ⟨q, hq, hqo⟩ := h.surj o ho1 hon
        refine ⟨q, List.mem_append_left _ hq, ?_⟩
        have : cellIx (2 ^ k + 1) p.1 p.2 ≠ cellIx (2 ^ k + 1) q.1 q.2 := by
          intro e; rw [← e, h0] at hqo; omega
        simp only [this, if_false]; exact hqo
      · refine ⟨p, by simp, ?_⟩
        simp only [if_true]; omega
    · intro q hq
      simp only [hget]
      split
      · omega
      · rcases List.mem_append.mp hq with hq | hq
        · exact h.marked q hq
        · simp only [List.mem_singleton] at hq
          subst hq
          rename_i e; exact absurd rfl e
    · simp only
      rw [countP_set_nonzero _ _ _ hlt h0 (by omega)]
      push_cast
      rw [h.count]
  · simp only [h0, if_false]
    refine ⟨h.len, h.range, h.inj, ?_, ?_, h.count⟩
    · intro o ho1 ho2
      obtain ⟨q, hq, hqo⟩ := h.surj o ho1 ho2
      exact ⟨q, List.mem_append_left _ hq, hqo⟩
    · intro q hq
      rcases List.mem_append.mp hq with hq | hq
      · exact h.marked q hq
      · simp only [List.mem_singleton] at hq
        subst hq
        exact h0

theorem countLeafP_inv {k : Nat} {s : CountState} {cells : List (Int × Int)}
    (h : MarkInv k s cells) (tri : Tri) (hin : ∀ p ∈ tri.corners, InGrid k p) :
    MarkInv k (countLeafP (2 ^ k + 1) s tri) (cells ++ tri.corners) ∧
      (countLeafP (2 ^ k + 1) s tri).numTriangles = s.numTriangles + 1 := by
  have ha := hin (tri.ax, tri.ay) (by simp [Tri.corners])
  have hb := hin (tri.bx, tri.by_) (by simp [Tri.corners])
  have hc := hin (tri.cx, tri.cy) (by simp [Tri.corners])
  have h3 := markP_inv (markP_inv (markP_inv h _ ha) _ hb) _ hc
  have e : cells ++ tri.corners = cells ++ [(tri.ax, tri.ay)] ++ [(tri.bx, tri.by_)] ++
      [(tri.cx, tri.cy)] := by simp [Tri.corners]
  rw [e]
  constructor
  · exact ⟨h3.len, h3.range, h3.inj, h3.surj, h3.marked, h3.count⟩
  · simp only [countLeafP, markP_numTriangles]

theorem foldl_countLeafP_inv {k : Nat} (tris : List Tri)
    (hin : ∀ t ∈ tris, ∀ p ∈ t.corners, InGrid k p) {s : CountState}
    {cells : List (Int × Int)} (h : MarkInv k s cells) :
    MarkInv k (tris.foldl (countLeafP (2 ^ k + 1)) s) (cells ++ tris.flatMap Tri.corners) ∧
      (tris.foldl (countLeafP (2 ^ k + 1)) s).numTriangles = s.numTriangles + tris.length := by
  induction tris generalizing s cells with
  | nil => simpa using h
  | cons t ts ih =>
    obtain ⟨h1, h2⟩ := countLeafP_inv h t (hin t (by simp))
    obtain ⟨h3, h4⟩ := ih (fun t' ht' => hin t' (by simp [ht'])) h1
    simp only [List.foldl_cons, List.flatMap_cons, List.length_cons]
    constructor
    · rw [← List.append_assoc]; exact h3
    · rw [h4, h2]; push_cast; ring

theorem markInv_init (k n : Nat) (hn : n = (2 ^ k + 1) ^ 2) :
    MarkInv k { indices := List.replicate n 0, numVertices := 0, numTriangles := 0 } [] := by
  have hz : ∀ j, (List.replicate n (0 : Int)).getD j 0 = 0 := by
    intro j
    rw [List.getD_eq_getElem?_getD, List.getElem?_replicate]
    split <;> rfl
  refine ⟨by simp [hn], fun j => Or.inl (hz j), fun j j' hne => absurd (hz j) hne, ?_, ?_, ?_⟩
  · intro o h1 h2; simp only at h2; omega
  · intro p hp; simp at hp
  · simp only
    rw [List.countP_replicate]
    simp

/-! ## Second pass of `GetMesh`: filling the output arrays -/

theorem MarkInv.numbered {k : Nat} {s : CountState} {cells : List (Int × Int)}
    (h : MarkInv k s cells) (hin : ∀ p ∈ cells, InGrid k p) :
    Numbered k s.indices s.numVertices.toNat cells := by
  have hnv := h.numVertices_nonneg
  refine ⟨h.len, hin, ?_, ?_, ?_, ?_⟩
  · intro p hp
    have hm := h.marked p hp
    unfold ordAt
    rcases h.range (cellIx (2 ^ k + 1) p.1 p.2) with e | ⟨e1, e2⟩
    · exact absurd e hm
    · omega
  · intro p hp q hq heq
    unfold ordAt at heq
    have hm := h.marked p hp
    have := h.inj _ (cellIx (2 ^ k + 1) q.1 q.2) hm (by omega)
    obtain ⟨a, b, c, _⟩ := hin p hp
    obtain ⟨a', b', c', _⟩ := hin q hq
    obtain ⟨e1, e2⟩ := cellIx_inj k a b c a' b' c' this
    exact Prod.ext e1 e2
  · intro o h0 h1
    obtain ⟨p, hp, hpo⟩ := h.surj (o + 1) (by omega) (by omega)
    exact ⟨p, hp, by unfold ordAt; omega⟩
  · have := h.count
    omega

theorem setVertex_length (G : Int) (idx vs : List Int) (q : Int × Int) :
    (setVertex G idx vs q).length = vs.length := by
  simp [setVertex]

/-- Storing the coordinates of `q` keeps the slots of every other numbered cell and makes
the slots of `q` right. -/
theorem setVertex_keeps (G : Int) (idx vs : List Int) (nV : Nat) (hlen : vs.length = 2 * nV)
    (p q : Int × Int) (hp : 0 ≤ ordAt idx G p.1 p.2) (hq : 0 ≤ ordAt idx G q.1 q.2)
    (hqn : ordAt idx G q.1 q.2 < nV)
    (hinj : ordAt idx G p.1 p.2 = ordAt idx G q.1 q.2 → p = q)
    (h : VertexAt G idx vs p ∨ p = q) : VertexAt G idx (setVertex G idx vs q) p := by
  unfold VertexAt setVertex
  by_cases e : ordAt idx G p.1 p.2 = ordAt idx G q.1 q.2
  · have := hinj e
    subst this
    constructor
    · rw [getD_set_ne _ _ _ _ _ (by omega), getD_set_self _ _ _ _ (by omega)]
    · rw [getD_set_self _ _ _ _ (by simp; omega)]
  · rcases h with h | h
    · constructor
      · rw [getD_set_ne _ _ _ _ _ (by omega), getD_set_ne _ _ _ _ _ (by omega)]; exact h.1
      · rw [getD_set_ne _ _ _ _ _ (by omega), getD_set_ne _ _ _ _ _ (by omega)]; exact h.2
    · exact absurd (by rw [h]) e

theorem fillLeaf_eq (k : Nat) (idx : List Int) (nV nT : Nat) (f : FillState) (tri : Tri)
    (hidx : idx.length = (2 ^ k + 1) ^ 2) (hin : ∀ p ∈ tri.corners, InGrid k p)
    (hord : ∀ p ∈ tri.corners, 0 ≤ ordAt idx (2 ^ k + 1) p.1 p.2 ∧
      ordAt idx (2 ^ k + 1) p.1 p.2 < nV)
    (hv : f.vertices.length = 2 * nV) (ht : f.triangles.length = 3 * nT)
    (d : Nat) (hd : f.triIndex = 3 * (d : Int)) (hdn : d < nT) :
    fillLeaf (2 ^ k + 1) idx tri f = .ok (fillLeafP (2 ^ k + 1) idx f tri) := by
  have ha := hin (tri.ax, tri.ay) (by simp [Tri.corners])
  have hb := hin (tri.bx, tri.by_) (by simp [Tri.corners])
  have hc := hin (tri.cx, tri.cy) (by simp [Tri.corners])
  have oa := hord (tri.ax, tri.ay) (by simp [Tri.corners])
  have ob := hord (tri.bx, tri.by_) (by simp [Tri.corners])
  have oc := hord (tri.cx, tri.cy) (by simp [Tri.corners])
  simp only at oa ob oc
  unfold fillLeaf fillLeafP
  rw [rd_cell k hidx ha.1 ha.2.1 ha.2.2.1 ha.2.2.2 0,
    rd_cell k hidx hb.1 hb.2.1 hb.2.2.1 hb.2.2.2 0,
    rd_cell k hidx hc.1 hc.2.1 hc.2.2.1 hc.2.2.2 0]
  simp only [ok_bind]
  change
    (do
      let vertices ← wr f.vertices (2 * ordAt idx (2 ^ k + 1) tri.ax tri.ay) tri.ax
      let vertices ← wr vertices (2 * ordAt idx (2 ^ k + 1) tri.ax tri.ay + 1) tri.ay
      let vertices ← wr vertices (2 * ordAt idx (2 ^ k + 1) tri.bx tri.by_) tri.bx
      let vertices ← wr vertices (2 * ordAt idx (2 ^ k + 1) tri.bx tri.by_ + 1) tri.by_
      let vertices ← wr vertices (2 * ordAt idx (2 ^ k + 1) tri.cx tri.cy) tri.cx
      let vertices ← wr vertices (2 * ordAt idx (2 ^ k + 1) tri.cx tri.cy + 1) tri.cy
      let triangles ← wr f.triangles f.triIndex (ordAt idx (2 ^ k + 1) tri.ax tri.ay)
      let triangles ← wr triangles (f.triIndex + 1) (ordAt idx (2 ^ k + 1) tri.bx tri.by_)
      let triangles ← wr triangles (f.triIndex + 1 + 1) (ordAt idx (2 ^ k + 1) tri.cx tri.cy)
      pure ({ vertices := vertices, triangles := triangles,
              triIndex := f.triIndex + 1 + 1 + 1 } : FillState) : Go FillState) = _
  generalize ordAt idx (2 ^ k + 1) tri.ax tri.ay = a at *
  generalize ordAt idx (2 ^ k + 1) tri.bx tri.by_ = b at *
  generalize ordAt idx (2 ^ k + 1) tri.cx tri.cy = c at *
  rw [wr_ok _ (by omega) (by omega)]
  simp only [ok_bind]
  rw [wr_ok _ (by omega) (by simp only [List.length_set]; omega)]
  simp only [ok_bind]
  rw [wr_ok _ (by omega) (by simp only [List.length_set]; omega)]
  simp only [ok_bind]
  rw [wr_ok _ (by omega) (by simp only [List.length_set]; omega)]
  simp only [ok_bind]
  rw [wr_ok _ (by omega) (by simp only [List.length_set]; omega)]
  simp only [ok_bind]
  rw [wr_ok _ (by omega) (by simp only [List.length_set]; omega)]
  simp only [ok_bind]
  rw [wr_ok _ (by omega) (by omega)]
  simp only [ok_bind]
  rw [wr_ok _ (by omega) (by simp only [List.length_set]; omega)]
  simp only [ok_bind]
  rw [wr_ok _ (by omega) (by simp only [List.length_set]; omega)]
  rfl

theorem fillLeafP_vertices (G : Int) (idx : List Int) (f : FillState) (tri : Tri) :
    (fillLeafP G idx f tri).vertices =
      setVertex G idx (setVertex G idx (setVertex G idx f.vertices (tri.ax, tri.ay))
        (tri.bx, tri.by_)) (tri.cx, tri.cy) := rfl

theorem fillLeafP_inv {k : Nat} {idx : List Int} {nV nT : Nat} {f : FillState}
    {done : List Tri} (h : FillInv k idx nV nT f done) (tri : Tri) (hdn : done.length < nT)
    (cells : List (Int × Int)) (hnum : Numbered k idx nV cells)
    (hdone : ∀ p ∈ done.flatMap Tri.corners, p ∈ cells)
    (htri : ∀ p ∈ tri.corners, p ∈ cells) :
    FillInv k idx nV nT (fillLeafP (2 ^ k + 1) idx f tri) (done ++ [tri]) := by
  have ha := htri (tri.ax, tri.ay) (by simp [Tri.corners])
  have hb := htri (tri.bx, tri.by_) (by simp [Tri.corners])
  have hc := htri (tri.cx, tri.cy) (by simp [Tri.corners])
  have step : ∀ (vs : List Int) (p q : Int × Int), vs.length = 2 * nV → p ∈ cells → q ∈ cells →
      (VertexAt (2 ^ k + 1) idx vs p ∨ p = q) →
      VertexAt (2 ^ k + 1) idx (setVertex (2 ^ k + 1) idx vs q) p := by
    intro vs p q hl hp hq hv
    exact setVertex_keeps _ _ _ nV hl p q (hnum.ord_range p hp).1 (hnum.ord_range q hq).1
      (hnum.ord_range q hq).2 (hnum.ord_inj p hp q hq) hv
  have hti := h.tri_ix
  have htl := h.tlen
  refine ⟨?_, ?_, ?_, ?_, ?_⟩
  · rw [fillLeafP_vertices]; simp only [setVertex_length]; exact h.vlen
  · simp only [fillLeafP, List.length_set]; exact h.tlen
  · simp only [fillLeafP, List.length_append, List.length_singleton]; push_cast; omega
  · intro j t hj
    have e1 : (f.triIndex).toNat = 3 * done.length := by omega
    have e2 : (f.triIndex + 1).toNat = 3 * done.length + 1 := by omega
    have e3 : (f.triIndex + 1 + 1).toNat = 3 * done.length + 2 := by omega
    unfold TriangleAt
    simp only [fillLeafP, e1, e2, e3]
    by_cases hjd : j < done.length
    · rw [List.getElem?_append_left hjd] at hj
      obtain ⟨p1, p2, p3⟩ := h.tris j t hj
      refine ⟨?_, ?_, ?_⟩
      · rw [getD_set_ne _ _ _ _ _ (by omega), getD_set_ne _ _ _ _ _ (by omega),
          getD_set_ne _ _ _ _ _ (by omega)]; exact p1
      · rw [getD_set_ne _ _ _ _ _ (by omega), getD_set_ne _ _ _ _ _ (by omega),
          getD_set_ne _ _ _ _ _ (by omega)]; exact p2
      · rw [getD_set_ne _ _ _ _ _ (by omega), getD_set_ne _ _ _ _ _ (by omega),
          getD_set_ne _ _ _ _ _ (by omega)]; exact p3
    · have hlen : j < (done ++ [tri]).length := by
        by_contra hcon
        rw [List.getElem?_eq_none (by omega)] at hj
        cases hj
      simp only [List.length_append, List.length_singleton] at hlen
      have hjeq : j = done.length := by omega
      subst hjeq
      rw [List.getElem?_append_right (le_refl _)] at hj
      simp only [Nat.sub_self, List.getElem?_cons_zero, Option.some.injEq] at hj
      subst hj
      refine ⟨?_, ?_, ?_⟩
      · rw [getD_set_ne _ _ _ _ _ (by omega), getD_set_ne _ _ _ _ _ (by omega),
          getD_set_self _ _ _ _ (by omega)]
      · rw [getD_set_ne _ _ _ _ _ (by omega),
          getD_set_self _ _ _ _ (by simp only [List.length_set]; omega)]
      · rw [getD_set_self _ _ _ _ (by simp only [List.length_set]; omega)]
  · intro p hp
    rw [fillLeafP_vertices]
    have hpc : p ∈ cells := by
      simp only [List.flatMap_append, List.mem_append, List.flatMap_cons, List.flatMap_nil,
        List.append_nil] at hp
      rcases hp with hp | hp
      · exact hdone p hp
      · exact htri p hp
    have hcase : VertexAt (2 ^ k + 1) idx f.vertices p ∨ p = (tri.ax, tri.ay) ∨
        p = (tri.bx, tri.by_) ∨ p = (tri.cx, tri.cy) := by
      simp only [List.flatMap_append, List.mem_append, List.flatMap_cons, List.flatMap_nil,
        List.append_nil] at hp
      rcases hp with hp | hp
      · exact Or.inl (h.verts p hp)
      · simp only [Tri.corners, List.mem_cons, List.mem_singleton, List.not_mem_nil,
          or_false] at hp
        exact Or.inr hp
    have l1 : (setVertex (2 ^ k + 1) idx f.vertices (tri.ax, tri.ay)).length = 2 * nV := by
      rw [setVertex_length]; exact h.vlen
    have l2 : (setVertex (2 ^ k + 1) idx (setVertex (2 ^ k + 1) idx f.vertices (tri.ax, tri.ay))
        (tri.bx, tri.by_)).length = 2 * nV := by
      rw [setVertex_length]; exact l1
    apply step _ _ _ l2 hpc hc
    rcases hcase with h0 | h1 | h2 | h3
    · exact Or.inl (step _ _ _ l1 hpc hb (Or.inl (step _ _ _ h.vlen hpc ha (Or.inl h0))))
    · exact Or.inl (step _ _ _ l1 hpc hb (Or.inl (step _ _ _ h.vlen hpc ha (Or.inr h1))))
    · exact Or.inl (step _ _ _ l1 hpc hb (Or.inr h2))
    · exact Or.inr h3

theorem foldlM_fillLeaf {k : Nat} {idx : List Int} {nV nT : Nat} (cells : List (Int × Int))
    (hnum : Numbered k idx nV cells) (rest : List Tri) (done : List Tri) (f : FillState)
    (h : FillInv k idx nV nT f done) (hn : done.length + rest.length ≤ nT)
    (hdone : ∀ p ∈ done.flatMap Tri.corners, p ∈ cells)
    (hrest : ∀ p ∈ rest.flatMap Tri.corners, p ∈ cells) :
    ∃ f', rest.foldlM (fun s tri => fillLeaf (2 ^ k + 1) idx tri s) f = .ok f' ∧
      FillInv k idx nV nT f' (done ++ rest) := by
  induction rest generalizing done f with
  | nil => exact ⟨f, rfl, by simpa using h⟩
  | cons t ts ih =>
    have htc : ∀ p ∈ t.corners, p ∈ cells := fun p hp =>
      hrest p (by simp only [List.flatMap_cons, List.mem_append]; exact Or.inl hp)
    have hlen : done.length < nT := by simp only [List.length_cons] at hn; omega
    have h1 := fillLeafP_inv h t hlen cells hnum hdone htc
    have heq := fillLeaf_eq k idx nV nT f t hnum.len (fun p hp => hnum.inGrid p (htc p hp))
      (fun p hp => hnum.ord_range p (htc p hp)) h.vlen h.tlen done.length h.tri_ix hlen
    obtain ⟨f', hf', hinv⟩ := ih (done ++ [t]) _ h1
      (by simp only [List.length_append, List.length_cons, List.length_nil] at hn ⊢; omega)
      (by
        intro p hp
        simp only [List.flatMap_append, List.mem_append, List.flatMap_cons, List.flatMap_nil,
          List.append_nil] at hp
        rcases hp with hp | hp
        · exact hdone p hp
        · exact htc p hp)
      (fun p hp => hrest p (by
        simp only [List.flatMap_cons, List.mem_append]; exact Or.inr hp))
    refine ⟨f', ?_, ?_⟩
    · simp only [List.foldlM_cons, heq, ok_bind]; exact hf'
    · simpa using hinv

theorem emitted_inGrid (k : Nat) (errors : List ℚ) (maxError : ℚ) :
    ∀ t ∈ emitted k errors maxError, ∀ p ∈ t.corners, InGrid k p := by
  intro t ht
  obtain ⟨r, _, hs, _⟩ := emitted_spec k errors maxError t ht
  exact hs.corners_inGrid

/-- The method `GetMesh` returns, and its output arrays describe exactly the triangles at which the
traversal stops. -/
theorem GetMesh_rep {k : Nat} {t : Tile} (ht : ValidTile k t) (maxError : ℚ) (fuel : Nat)
    (hf : 2 * k + 1 ≤ fuel) :
    ∃ mesh nV, GetMesh fuel t maxError = .ok mesh ∧
      MeshRep k (emitted k t.errors maxError) mesh nV ∧
      mesh.indices = ((emitted k t.errors maxError).foldl (countLeafP (2 ^ k + 1))
        { indices := List.replicate ((2 ^ k + 1) ^ 2) 0, numVertices := 0,
          numTriangles := 0 }).indices ∧
      (nV : Int) = ((emitted k t.errors maxError).foldl (countLeafP (2 ^ k + 1))
        { indices := List.replicate ((2 ^ k + 1) ^ 2) 0, numVertices := 0,
          numTriangles := 0 }).numVertices := by
  have hmax : t.martini.gridSize - 1 = 2 ^ k := by rw [ht.martini.gridSize_eq]; ring
  have hmap : t.martini.indices.map (fun _ => (0 : Int)) =
      List.replicate ((2 ^ k + 1) ^ 2) 0 := by
    rw [← ht.martini.indices_len]
    exact List.map_const' _ _
  have hin := emitted_inGrid k t.errors maxError
  have hcells : ∀ p ∈ (emitted k t.errors maxError).flatMap Tri.corners, InGrid k p := by
    intro p hp
    obtain ⟨t', ht', hp'⟩ := List.mem_flatMap.mp hp
    exact hin t' ht' p hp'
  obtain ⟨hinv, hnt⟩ := foldl_countLeafP_inv (emitted k t.errors maxError) hin
    (markInv_init k ((2 ^ k + 1) ^ 2) rfl)
  simp only [List.nil_append, zero_add] at hinv hnt
  have hnum := hinv.numbered hcells
  have hnv := hinv.numVertices_nonneg
  obtain ⟨s, hs⟩ : ∃ s, s = (emitted k t.errors maxError).foldl (countLeafP (2 ^ k + 1))
      { indices := List.replicate ((2 ^ k + 1) ^ 2) 0, numVertices := 0, numTriangles := 0 } :=
    ⟨_, rfl⟩
  rw [← hs] at hinv hnt hnum hnv
  have hcount : (do
      let s ← countElements t maxError fuel ⟨0, 0, 2 ^ k, 2 ^ k, 2 ^ k, 0⟩
        { indices := List.replicate ((2 ^ k + 1) ^ 2) 0, numVertices := 0, numTriangles := 0 }
      countElements t maxError fuel ⟨2 ^ k, 2 ^ k, 0, 0, 0, 2 ^ k⟩ s : Go CountState) =
      .ok s := by
    have e1 := fun s => countElements_eq ht maxError (2 * k) fuel _ (shaped_root_first k) hf s
    have e2 := fun s => countElements_eq ht maxError (2 * k) fuel _ (shaped_root_second k) hf s
    simp only [e1, e2]
    rw [← List.foldlM_append]
    rw [hs]
    exact foldlM_countLeaf_eq k _ hin _ (by simp)
  have hfill0 : FillInv k s.indices s.numVertices.toNat (emitted k t.errors maxError).length
      { vertices := List.replicate (2 * s.numVertices.toNat) 0,
        triangles := List.replicate (3 * (emitted k t.errors maxError).length) 0,
        triIndex := 0 } [] := by
    refine ⟨by simp, by simp, by simp, ?_, ?_⟩
    · intro j t' hj; simp at hj
    · intro p hp; simp at hp
  obtain ⟨f, hfeq, hfinv⟩ := foldlM_fillLeaf _ hnum (emitted k t.errors maxError) [] _ hfill0
    (by simp) (by intro p hp; simp at hp) (fun p hp => hp)
  have hproc : (do
      let f ← processTriangle t maxError s.indices fuel ⟨0, 0, 2 ^ k, 2 ^ k, 2 ^ k, 0⟩
        { vertices := List.replicate (2 * s.numVertices.toNat) 0,
          triangles := List.replicate (3 * (emitted k t.errors maxError).length) 0,
          triIndex := 0 }
      processTriangle t maxError s.indices fuel ⟨2 ^ k, 2 ^ k, 0, 0, 0, 2 ^ k⟩ f :
        Go FillState) = .ok f := by
    have e1 := fun s' => processTriangle_eq ht maxError s.indices (2 * k) fuel _
      (shaped_root_first k) hf s'
    have e2 := fun s' => processTriangle_eq ht maxError s.indices (2 * k) fuel _
      (shaped_root_second k) hf s'
    simp only [e1, e2]
    rw [← List.foldlM_append]
    exact hfeq
  have hmk1 : make (s.numVertices * 2) = .ok (List.replicate (2 * s.numVertices.toNat) 0) := by
    rw [make_ok (by omega)]
    congr 2
    omega
  have hmk2 : make (s.numTriangles * 3) =
      .ok (List.replicate (3 * (emitted k t.errors maxError).length) 0) := by
    rw [make_ok (by omega)]
    congr 2
    omega
  refine ⟨⟨f.vertices, f.triangles, s.indices⟩, s.numVertices.toNat, ?_, ?_, ?_, ?_⟩
  · unfold GetMesh
    simp only [hmax, hmap]
    rw [bind_eq_ok] at hcount
    obtain ⟨s1, hs1, hs2⟩ := hcount
    rw [bind_eq_ok] at hproc
    obtain ⟨f1, hf1, hf2⟩ := hproc
    simp only [hs1, ok_bind, hs2, hmk1, hmk2, hf1, hf2, pure_eq_ok]
  · simp only [List.nil_append] at hfinv
    exact ⟨hnum, hfinv.vlen, hfinv.tlen, hfinv.tris, hfinv.verts⟩
  · rw [hs]
  · rw [← hs]; omega

/-! ## The traversal only visits table triangles -/

theorem bisect_add_even (q n : Nat) (t : Tri) (hn : n % 2 = 0) :
    bisect (q + n) t = bisect q t := by
  unfold bisect
  simp only [Nat.and_one_is_mod]
  have : (q + n) % 2 = q % 2 := by omega
  rw [this]

theorem bisect_odd (q : Nat) (t : Tri) (h : q % 2 = 1) : bisect q t = t.left := by
  unfold bisect Tri.left
  simp only [Nat.and_one_is_mod, h]
  rfl

theorem bisect_even (q : Nat) (t : Tri) (h : q % 2 = 0) : bisect q t = t.right := by
  unfold bisect Tri.right
  simp only [Nat.and_one_is_mod, h]
  rfl

theorem descend_log_succ (q : Nat) (t : Tri) (hq : 2 ≤ q) :
    descend (Nat.log 2 q) q t = descend (Nat.log 2 (q / 2)) (q / 2) (bisect q t) := by
  have hlog : Nat.log 2 q = Nat.log 2 (q / 2) + 1 :=
    Nat.log_of_one_lt_of_le (by norm_num) hq
  rw [hlog]
  have : q > 1 := by omega
  simp only [descend, this, if_true, Nat.shiftRight_eq_div_pow, pow_one]

/-- Adding a bisection at the end of the path of `q` adds a bit above the top bit of `q`. -/
theorem descend_child (d q : Nat) (t : Tri) (hq : Nat.log 2 q = d) (hq1 : 1 ≤ q) :
    descend (Nat.log 2 (q + 2 ^ (d + 1))) (q + 2 ^ (d + 1)) t =
        (descend (Nat.log 2 q) q t).left ∧
      descend (Nat.log 2 (q + 2 ^ d)) (q + 2 ^ d) t = (descend (Nat.log 2 q) q t).right := by
  induction d generalizing q t with
  | zero =>
    have hq2 : q < 2 := by
      by_contra hcon
      have := Nat.log_pos (b := 2) (by norm_num) (by omega : 2 ≤ q)
      omega
    have : q = 1 := by omega
    subst this
    constructor
    · have e : Nat.log 2 (1 + 2 ^ (0 + 1)) = 1 := by norm_num [Nat.log]
      rw [e]
      simp [descend, bisect_odd]
    · have e : Nat.log 2 (1 + 2 ^ 0) = 1 := by norm_num [Nat.log]
      rw [e]
      simp [descend, bisect_even]
  | succ d ih =>
    have hq2 : 2 ≤ q := by
      by_contra hcon
      have : Nat.log 2 q = 0 := Nat.log_of_lt (by omega)
      omega
    have hlog : Nat.log 2 q = Nat.log 2 (q / 2) + 1 :=
      Nat.log_of_one_lt_of_le (by norm_num) hq2
    have hp : 0 < 2 ^ d := by positivity
    obtain ⟨i1, i2⟩ := ih (q / 2) (bisect q t) (by omega) (by omega)
    constructor
    · rw [descend_log_succ _ _ (by omega), descend_log_succ q t hq2]
      have e1 : (q + 2 ^ (d + 1 + 1)) / 2 = q / 2 + 2 ^ (d + 1) := by
        rw [pow_succ]; omega
      have e2 : bisect (q + 2 ^ (d + 1 + 1)) t = bisect q t :=
        bisect_add_even _ _ _ (by rw [pow_succ]; omega)
      rw [e1, e2]; exact i1
    · rw [descend_log_succ _ _ (by omega), descend_log_succ q t hq2]
      have e1 : (q + 2 ^ (d + 1)) / 2 = q / 2 + 2 ^ d := by
        rw [pow_succ]; omega
      have e2 : bisect (q + 2 ^ (d + 1)) t = bisect q t :=
        bisect_add_even _ _ _ (by rw [pow_succ]; omega)
      rw [e1, e2]; exact i2

theorem log_add_pow (d q : Nat) (hq : Nat.log 2 q = d) (hq1 : 1 ≤ q) :
    Nat.log 2 (q + 2 ^ (d + 1)) = d + 1 ∧ Nat.log 2 (q + 2 ^ d) = d + 1 := by
  have h1 : 2 ^ d ≤ q := by rw [← hq]; exact Nat.pow_log_le_self 2 (by omega)
  have h2 : q < 2 ^ (d + 1) := by rw [← hq]; exact Nat.lt_pow_succ_log_self (by norm_num) q
  have h3 : 2 ^ (d + 1 + 1) = 2 * 2 ^ (d + 1) := by rw [pow_succ]; ring
  have h4 : 2 ^ (d + 1) = 2 * 2 ^ d := by rw [pow_succ]; ring
  constructor
  · apply Nat.log_eq_of_pow_le_of_lt_pow <;> omega
  · apply Nat.log_eq_of_pow_le_of_lt_pow <;> omega

theorem Tabled.split {k r : Nat} {t : Tri} (h : Tabled k (r + 1) t) :
    Tabled k r t.left ∧ Tabled k r t.right := by
  obtain ⟨q, b, hb, hq1, hlog, rfl⟩ := h
  obtain ⟨l1, l2⟩ := log_add_pow (Nat.log 2 q) q rfl hq1
  obtain ⟨c1, c2⟩ := descend_child (Nat.log 2 q) q (rootOf (2 ^ k) b) rfl hq1
  constructor
  · exact ⟨q + 2 ^ (Nat.log 2 q + 1), b, hb, Nat.le_add_right_of_le hq1, by omega, c1.symm⟩
  · exact ⟨q + 2 ^ Nat.log 2 q, b, hb, Nat.le_add_right_of_le hq1, by omega, c2.symm⟩

theorem tabled_root_first (k : Nat) : Tabled k (2 * k) ⟨0, 0, 2 ^ k, 2 ^ k, 2 ^ k, 0⟩ :=
  ⟨1, 1, by omega, le_rfl, by simp, by simp [descend, rootOf]⟩

theorem tabled_root_second (k : Nat) : Tabled k (2 * k) ⟨2 ^ k, 2 ^ k, 0, 0, 0, 2 ^ k⟩ :=
  ⟨1, 0, by omega, le_rfl, by simp, by simp [descend, rootOf]⟩

theorem rootOf_add_even (T : Int) (n b : Nat) (hn : n % 2 = 0) :
    rootOf T (n + b) = rootOf T b := by
  unfold rootOf
  simp only [Nat.and_one_is_mod]
  have : (n + b) % 2 = b % 2 := by omega
  rw [this]

/-- A triangle of the traversal above the unit level is a record of the corner table. -/
theorem Tabled.index {k r : Nat} {t : Tri} (h : Tabled k (r + 1) t) :
    ∃ i, i < tableLen k ∧ depthOf i + (r + 1) = 2 * k ∧ triangleOf (2 ^ k) i = t := by
  obtain ⟨q, b, hb, hq1, hlog, rfl⟩ := h
  have hqlt : q < 2 ^ (2 * k) := by
    have := Nat.lt_pow_succ_log_self (b := 2) (by norm_num) q
    have h2 : 2 ^ (Nat.log 2 q + 1) ≤ 2 ^ (2 * k) :=
      Nat.pow_le_pow_right (by norm_num) (by omega)
    omega
  have hdiv : (2 * q + b - 2 + 2) / 2 = q := by omega
  refine ⟨2 * q + b - 2, ?_, ?_, ?_⟩
  · rw [tableLen_lt_iff]
    have : 2 ^ (2 * k + 1) = 2 * 2 ^ (2 * k) := by rw [pow_succ]; ring
    omega
  · unfold depthOf
    rw [hdiv]; exact hlog
  · unfold triangleOf
    simp only [Nat.shiftRight_eq_div_pow, pow_one]
    rw [hdiv]
    have e : 2 * q + b - 2 + 2 = 2 * q + b := by omega
    rw [e, rootOf_add_even _ _ _ (by omega)]
    exact descend_fuel _ _ _ (le_trans (Nat.log_le_self _ _) (by omega))

/-- Invariants of the hierarchy pass from the root of a traversal to the triangles at
which it stops. -/
theorem leaves_induct (errors : List ℚ) (G : Int) (maxError : ℚ) (P : Nat → Tri → Prop)
    (hchild : ∀ r t, P (r + 1) t → P r t.left ∧ P r t.right) (r : Nat) (tri : Tri)
    (h : P r tri) :
    ∀ l ∈ leaves errors G maxError r tri, ∃ r', r' ≤ r ∧ P r' l := by
  induction r generalizing tri with
  | zero =>
    intro l hl
    simp only [leaves, List.mem_singleton] at hl
    subst hl
    exact ⟨0, le_rfl, h⟩
  | succ r ih =>
    intro l hl
    simp only [leaves] at hl
    split at hl
    · rcases List.mem_append.mp hl with hl | hl
      · obtain ⟨r', h1, h2⟩ := ih _ (hchild r tri h).1 l hl
        exact ⟨r', by omega, h2⟩
      · obtain ⟨r', h1, h2⟩ := ih _ (hchild r tri h).2 l hl
        exact ⟨r', by omega, h2⟩
    · simp only [List.mem_singleton] at hl
      subst hl
      exact ⟨r + 1, le_rfl, h⟩

theorem emitted_tabled (k : Nat) (errors : List ℚ) (maxError : ℚ) :
    ∀ l ∈ emitted k errors maxError,
      ∃ r, Shaped (2 ^ k) r l ∧ Tabled k r l := by
  intro l hl
  have hchild : ∀ r t, (Shaped (2 ^ k) (r + 1) t ∧ Tabled k (r + 1) t) →
      (Shaped (2 ^ k) r t.left ∧ Tabled k r t.left) ∧
        (Shaped (2 ^ k) r t.right ∧ Tabled k r t.right) :=
    fun r t h => ⟨⟨h.1.children.1, h.2.split.1⟩, ⟨h.1.children.2, h.2.split.2⟩⟩
  simp only [emitted, List.mem_append] at hl
  rcases hl with hl | hl
  · obtain ⟨r, _, h⟩ := leaves_induct errors _ maxError
      (fun r t => Shaped (2 ^ k) r t ∧ Tabled k r t) hchild _ _
      ⟨shaped_root_first k, tabled_root_first k⟩ l hl
    exact ⟨r, h⟩
  · obtain ⟨r, _, h⟩ := leaves_induct errors _ maxError
      (fun r t => Shaped (2 ^ k) r t ∧ Tabled k r t) hchild _ _
      ⟨shaped_root_second k, tabled_root_second k⟩ l hl
    exact ⟨r, h⟩

/-! ## Reading the output of `GetMesh` -/

theorem pipeline (k : Nat) (terrain : List ℚ) (hlen : terrain.length = (2 ^ k + 1) ^ 2) :
    ∃ m tile, New (2 ^ k + 1) = .ok m ∧ NewTile terrain m = .ok tile ∧ ValidMartini k m ∧
      ValidTile k tile ∧ tile.martini = m ∧ tile.terrain = terrain ∧
      tile.errors = relaxAll k terrain (tableLen k) (List.replicate ((2 ^ k + 1) ^ 2) 0) := by
  obtain ⟨m, hm, hv, _⟩ := New_pow k
  refine ⟨m, _, hm, NewTile_eq hv hlen, hv, ⟨hv, hlen, ?_⟩, rfl, rfl, rfl⟩
  simp only [relaxAll_length, List.length_replicate]

theorem ValidMartini.record_eq {k : Nat} {m : Martini} (h : ValidMartini k m) {i : Nat}
    (hi : i < tableLen k) : m.record i = triangleOf (2 ^ k) i := by
  obtain ⟨p, q, r, s⟩ := h.table i hi
  obtain ⟨r', _, hs⟩ := table_shaped k i hi
  obtain ⟨_, _, hcx, hcy⟩ := hs.apex_formula
  have e : ∀ (n : Nat) (v : Int), m.coords[n]? = some v → m.coords.getD n 0 = v := by
    intro n v hv
    rw [List.getD_eq_getElem?_getD, hv]; rfl
  unfold Martini.record
  simp only [e _ _ p, e _ _ q, e _ _ r, e _ _ s]
  unfold Tri.mx Tri.my at hcx hcy
  rw [hcx, hcy]

theorem MeshRep.vertex_eq {k : Nat} {E : List Tri} {mesh : Mesh} {nV : Nat}
    (h : MeshRep k E mesh nV) {p : Int × Int} (hp : p ∈ E.flatMap Tri.corners) :
    mesh.vertex (ordAt mesh.indices (2 ^ k + 1) p.1 p.2) = p := by
  obtain ⟨h1, h2⟩ := h.verts p hp
  unfold Mesh.vertex
  rw [h1, h2]

theorem mem_corners_of_getElem? {E : List Tri} {j : Nat} {t : Tri} (h : E[j]? = some t) :
    (t.ax, t.ay) ∈ E.flatMap Tri.corners ∧ (t.bx, t.by_) ∈ E.flatMap Tri.corners ∧
      (t.cx, t.cy) ∈ E.flatMap Tri.corners := by
  have hmem : t ∈ E := List.getElem?_mem h
  refine ⟨?_, ?_, ?_⟩ <;>
    exact List.mem_flatMap.mpr ⟨t, hmem, by simp [Tri.corners]⟩

/-- Decoding output triangle `j` gives back the `j`-th triangle of the traversal. -/
theorem MeshRep.triangle_eq {k : Nat} {E : List Tri} {mesh : Mesh} {nV : Nat}
    (h : MeshRep k E mesh nV) {j : Nat} {t : Tri} (hj : E[j]? = some t) :
    mesh.triangle j = t := by
  obtain ⟨t1, t2, t3⟩ := h.tris j t hj
  obtain ⟨ma, mb, mc⟩ := mem_corners_of_getElem? hj
  unfold Mesh.triangle
  rw [t1, t2, t3, h.vertex_eq ma, h.vertex_eq mb, h.vertex_eq mc]

theorem MeshRep.numVertices_eq {k : Nat} {E : List Tri} {mesh : Mesh} {nV : Nat}
    (h : MeshRep k E mesh nV) : mesh.vertices.length / 2 = nV := by
  rw [h.vlen]; omega

theorem MeshRep.getElem?_of_lt {k : Nat} {E : List Tri} {mesh : Mesh} {nV : Nat}
    (h : MeshRep k E mesh nV) {j : Nat} (hj : 3 * j + 2 < mesh.triangles.length) :
    ∃ t, E[j]? = some t := by
  rw [h.tlen] at hj
  have : j < E.length := by omega
  exact ⟨E[j], List.getElem?_eq_getElem this⟩

/-- Every entry of `triangles` is the ordinal of a corner of an emitted triangle. -/
theorem MeshRep.entry {k : Nat} {E : List Tri} {mesh : Mesh} {nV : Nat}
    (h : MeshRep k E mesh nV) {v : Int} (hv : v ∈ mesh.triangles) :
    ∃ p ∈ E.flatMap Tri.corners, v = ordAt mesh.indices (2 ^ k + 1) p.1 p.2 := by
  obtain ⟨n, hn, rfl⟩ := List.getElem_of_mem hv
  have hn' : n < 3 * E.length := by rw [← h.tlen]; exact hn
  have hj : n / 3 < E.length := by omega
  have hget := List.getElem?_eq_getElem hj
  obtain ⟨t1, t2, t3⟩ := h.tris (n / 3) _ hget
  obtain ⟨ma, mb, mc⟩ := mem_corners_of_getElem? hget
  have hd : mesh.triangles[n] = mesh.triangles.getD n 0 := by
    rw [List.getD_eq_getElem _ _ hn]
  rw [hd]
  have hcases : n = 3 * (n / 3) ∨ n = 3 * (n / 3) + 1 ∨ n = 3 * (n / 3) + 2 := by omega
  generalize E[n / 3] = t at *
  generalize n / 3 = j at *
  rcases hcases with e | e | e
  · exact ⟨_, ma, by rw [e]; exact t1⟩
  · exact ⟨_, mb, by rw [e]; exact t2⟩
  · exact ⟨_, mc, by rw [e]; exact t3⟩

/-- Every ordinal below the vertex count occurs in `triangles`. -/
theorem MeshRep.ordinal_used {k : Nat} {E : List Tri} {mesh : Mesh} {nV : Nat}
    (h : MeshRep k E mesh nV) (o : Nat) (ho : o < nV) : (o : Int) ∈ mesh.triangles := by
  obtain ⟨p, hp, hpo⟩ := h.numbered.ord_surj o (by omega) (by omega)
  obtain ⟨t, ht, hpt⟩ := List.mem_flatMap.mp hp
  obtain ⟨j, hj, hjt⟩ := List.getElem_of_mem ht
  have hget : E[j]? = some t := by rw [List.getElem?_eq_getElem hj, hjt]
  obtain ⟨t1, t2, t3⟩ := h.tris j t hget
  have hlen : 3 * j + 2 < mesh.triangles.length := by rw [h.tlen]; omega
  have mem : ∀ n, n < mesh.triangles.length → mesh.triangles.getD n 0 ∈ mesh.triangles := by
    intro n hn
    rw [List.getD_eq_getElem _ _ hn]
    exact List.getElem_mem hn
  simp only [Tri.corners, List.mem_cons, List.mem_singleton, List.not_mem_nil, or_false] at hpt
  rcases hpt with rfl | rfl | rfl
  · rw [← hpo, ← t1]; exact mem _ (by omega)
  · rw [← hpo, ← t2]; exact mem _ (by omega)
  · rw [← hpo, ← t3]; exact mem _ (by omega)

/-- Distinct ordinals carry distinct grid cells. -/
theorem MeshRep.vertex_inj {k : Nat} {E : List Tri} {mesh : Mesh} {nV : Nat}
    (h : MeshRep k E mesh nV) (o o' : Nat) (ho : o < nV) (ho' : o' < nV)
    (heq : mesh.vertex o = mesh.vertex o') : o = o' := by
  obtain ⟨p, hp, hpo⟩ := h.numbered.ord_surj o (by omega) (by omega)
  obtain ⟨p', hp', hpo'⟩ := h.numbered.ord_surj o' (by omega) (by omega)
  have e1 := h.vertex_eq hp
  have e2 := h.vertex_eq hp'
  rw [hpo] at e1
  rw [hpo'] at e2
  have : p = p' := by rw [← e1, ← e2]; exact heq
  subst this
  omega

theorem MeshRep.vertex_inGrid {k : Nat} {E : List Tri} {mesh : Mesh} {nV : Nat}
    (h : MeshRep k E mesh nV) (o : Nat) (ho : o < nV) : InGrid k (mesh.vertex o) := by
  obtain ⟨p, hp, hpo⟩ := h.numbered.ord_surj o (by omega) (by omega)
  have e1 := h.vertex_eq hp
  rw [hpo] at e1
  rw [e1]
  exact h.numbered.inGrid p hp

/-! ## Claims about the accuracy and the shape of the output -/

/-- In exact arithmetic: on a grid of side `2 ^ k + 1`, for every terrain of length
`gridSize²` and every `maxError`, `New`, `NewTile` and `GetMesh` return, and every output
triangle `(a, b, c)` with `|ax-cx| + |ay-cy| > 1` has `errors[m] ≤ maxError` at its
hypotenuse midpoint `m`, hence `|(terrain[a] + terrain[b]) / 2 - terrain[m]| ≤ maxError`. -/
theorem getMesh_accuracy_exact (k : Nat) (terrain : List ℚ) (maxError : ℚ) (fuel : Nat)
    (hlen : terrain.length = (2 ^ k + 1) ^ 2) (hfuel : 2 * k + 1 ≤ fuel) :
    ∃ m tile mesh, New (2 ^ k + 1) = .ok m ∧ NewTile terrain m = .ok tile ∧
      GetMesh fuel tile maxError = .ok mesh ∧
      ∀ j, 3 * j + 2 < mesh.triangles.length →
        |(mesh.triangle j).ax - (mesh.triangle j).cx| +
            |(mesh.triangle j).ay - (mesh.triangle j).cy| > 1 →
          valAt tile.errors (2 ^ k + 1) (mesh.triangle j).mx (mesh.triangle j).my ≤ maxError ∧
          |(valAt terrain (2 ^ k + 1) (mesh.triangle j).ax (mesh.triangle j).ay +
              valAt terrain (2 ^ k + 1) (mesh.triangle j).bx (mesh.triangle j).by_) / 2 -
            valAt terrain (2 ^ k + 1) (mesh.triangle j).mx (mesh.triangle j).my| ≤ maxError := by
  obtain ⟨m, tile, hm, ht, _, hvt, _, _, herr⟩ := pipeline k terrain hlen
  obtain ⟨mesh, nV, hg, hrep, _, _⟩ := GetMesh_rep hvt maxError fuel hfuel
  refine ⟨m, tile, mesh, hm, ht, hg, ?_⟩
  intro j hj hsize
  obtain ⟨t, hjt⟩ := hrep.getElem?_of_lt hj
  rw [hrep.triangle_eq hjt] at hsize ⊢
  have hmem := List.getElem?_mem hjt
  obtain ⟨r', _, hs, hsp⟩ := emitted_spec k tile.errors maxError t hmem
  obtain ⟨r, hs2, htab⟩ := emitted_tabled k tile.errors maxError t hmem
  have hle : valAt tile.errors (2 ^ k + 1) t.mx t.my ≤ maxError := by
    unfold splitsP at hsp
    simp only [hsize, decide_True, Bool.true_and, decide_eq_false_iff_not, not_lt] at hsp
    exact hsp
  refine ⟨hle, le_trans ?_ hle⟩
  obtain ⟨r0, rfl⟩ : ∃ r0, r = r0 + 1 :=
    ⟨r - 1, by have := hs2.size_gt_one_iff.mp hsize; omega⟩
  obtain ⟨i, hi, _, rfl⟩ := htab.index
  rw [herr]
  exact final_ge_middle k terrain i (tableLen k) hi hi _ (by simp)

/-- C2. Monotonicity of the error field: after `NewTile` on a grid of side `2 ^ k + 1`, for
every table index `i < numParentTriangles` with stored corners `a`, `b`, midpoint `m` and
derived apex `c`, the final `errors[m]` is at least the final `errors` at the midpoints of
`(a, c)` and of `(b, c)`. -/
theorem errors_monotone (k : Nat) (terrain : List ℚ)
    (hlen : terrain.length = (2 ^ k + 1) ^ 2) :
    ∃ m tile, New (2 ^ k + 1) = .ok m ∧ NewTile terrain m = .ok tile ∧
      ∀ i : Nat, (i : Int) < m.numParentTriangles →
        valAt tile.errors m.gridSize (half ((m.record i).ax + (m.record i).cx))
            (half ((m.record i).ay + (m.record i).cy)) ≤
          valAt tile.errors m.gridSize (m.record i).mx (m.record i).my ∧
        valAt tile.errors m.gridSize (half ((m.record i).bx + (m.record i).cx))
            (half ((m.record i).by_ + (m.record i).cy)) ≤
          valAt tile.errors m.gridSize (m.record i).mx (m.record i).my := by
  obtain ⟨m, tile, hm, ht, hv, hvt, _, _, herr⟩ := pipeline k terrain hlen
  refine ⟨m, tile, hm, ht, ?_⟩
  intro i hi
  rw [hv.numParent_eq] at hi
  have hit := parent_lt_tableLen k i hi
  rw [hv.record_eq hit, hv.gridSize_eq, herr]
  have := final_monotone k terrain i (tableLen k) hi hit
    (List.replicate ((2 ^ k + 1) ^ 2) 0) (List.length_replicate _ _)
  simp only [Tri.left, Tri.right, Tri.mx, Tri.my] at this ⊢
  rw [add_comm (triangleOf (2 ^ k) i).ax, add_comm (triangleOf (2 ^ k) i).ay]
  exact this

/-- C7. Index validity of the output of `GetMesh`: with `V = len(vertices) / 2`, every entry
of `triangles` lies in `[0, V)`; `triangles` has three slots per emitted triangle, each
holding the ordinal written for a corner of that triangle; and every ordinal below `V`
occurs in `triangles`. -/
theorem getMesh_index_validity (k : Nat) (terrain : List ℚ) (maxError : ℚ) (fuel : Nat)
    (hlen : terrain.length = (2 ^ k + 1) ^ 2) (hfuel : 2 * k + 1 ≤ fuel) :
    ∃ m tile mesh, New (2 ^ k + 1) = .ok m ∧ NewTile terrain m = .ok tile ∧
      GetMesh fuel tile maxError = .ok mesh ∧
      (∀ v ∈ mesh.triangles, 0 ≤ v ∧ v < ((mesh.vertices.length / 2 : Nat) : Int)) ∧
      mesh.triangles.length = 3 * (emitted k tile.errors maxError).length ∧
      (∀ j t, (emitted k tile.errors maxError)[j]? = some t →
        TriangleAt (2 ^ k + 1) mesh.indices mesh.triangles j t) ∧
      (∀ o : Nat, o < mesh.vertices.length / 2 → (o : Int) ∈ mesh.triangles) := by
  obtain ⟨m, tile, hm, ht, _, hvt, _, _, _⟩ := pipeline k terrain hlen
  obtain ⟨mesh, nV, hg, hrep, _, _⟩ := GetMesh_rep hvt maxError fuel hfuel
  refine ⟨m, tile, mesh, hm, ht, hg, ?_, hrep.tlen, hrep.tris, ?_⟩
  · intro v hv
    obtain ⟨p, hp, rfl⟩ := hrep.entry hv
    rw [hrep.numVertices_eq]
    exact hrep.numbered.ord_range p hp
  · intro o ho
    rw [hrep.numVertices_eq] at ho
    exact hrep.ordinal_used o ho

/-- C8. Vertex sharing in `GetMesh`: the coordinate pairs stored in `vertices` are pairwise
distinct and lie in `[0, gridSize-1]²`, and the three ordinals written to `triangles` for
the `j`-th triangle `(a, b, c)` of the traversal index exactly the coordinates of `a`, `b`
and `c` in `vertices`. -/
theorem getMesh_vertex_sharing (k : Nat) (terrain : List ℚ) (maxError : ℚ) (fuel : Nat)
    (hlen : terrain.length = (2 ^ k + 1) ^ 2) (hfuel : 2 * k + 1 ≤ fuel) :
    ∃ m tile mesh, New (2 ^ k + 1) = .ok m ∧ NewTile terrain m = .ok tile ∧
      GetMesh fuel tile maxError = .ok mesh ∧
      (∀ o o' : Nat, o < mesh.vertices.length / 2 → o' < mesh.vertices.length / 2 →
        mesh.vertex o = mesh.vertex o' → o = o') ∧
      (∀ o : Nat, o < mesh.vertices.length / 2 →
        0 ≤ (mesh.vertex o).1 ∧ (mesh.vertex o).1 ≤ m.gridSize - 1 ∧
          0 ≤ (mesh.vertex o).2 ∧ (mesh.vertex o).2 ≤ m.gridSize - 1) ∧
      mesh.triangles.length = 3 * (emitted k tile.errors maxError).length ∧
      (∀ j t, (emitted k tile.errors maxError)[j]? = some t →
        mesh.vertex (mesh.triangles.getD (3 * j) 0) = (t.ax, t.ay) ∧
        mesh.vertex (mesh.triangles.getD (3 * j + 1) 0) = (t.bx, t.by_) ∧
        mesh.vertex (mesh.triangles.getD (3 * j + 2) 0) = (t.cx, t.cy)) := by
  obtain ⟨m, tile, hm, ht, hv, hvt, _, _, _⟩ := pipeline k terrain hlen
  obtain ⟨mesh, nV, hg, hrep, _, _⟩ := GetMesh_rep hvt maxError fuel hfuel
  refine ⟨m, tile, mesh, hm, ht, hg, ?_, ?_, hrep.tlen, ?_⟩
  · intro o o' ho ho' heq
    rw [hrep.numVertices_eq] at ho ho'
    exact hrep.vertex_inj o o' ho ho' heq
  · intro o ho
    rw [hrep.numVertices_eq] at ho
    have := hrep.vertex_inGrid o ho
    have e : m.gridSize - 1 = 2 ^ k := by rw [hv.gridSize_eq]; ring
    rw [e]
    unfold InGrid at this
    exact this
  · intro j t hj
    obtain ⟨t1, t2, t3⟩ := hrep.tris j t hj
    obtain ⟨ma, mb, mc⟩ := mem_corners_of_getElem? hj
    rw [t1, t2, t3]
    have ea := hrep.vertex_eq ma
    have eb := hrep.vertex_eq mb
    have ec := hrep.vertex_eq mc
    simp only at ea eb ec
    exact ⟨ea, eb, ec⟩

/-! ## Claims about `New` -/

theorem New_one : New 1 = .error .negativeLength := by
  have hland : Int.land ((1 : Int) - 1) (1 - 1 - 1) = 0 := by decide!
  unfold New
  simp only [hland, ne_eq, not_true_eq_false, if_false]
  have h1 : make ((1 : Int) * 1) = .ok (List.replicate 1 0) := by
    rw [make_ok (by norm_num)]; rfl
  have h2 : make ((((1 : Int) - 1) * (1 - 1) * 2 - 2) * 4) = .error .negativeLength := by
    unfold make
    norm_num
  rw [h1, h2]
  rfl

/-! ## The minimal mesh -/

theorem leaves_of_not_split (errors : List ℚ) (G : Int) (maxError : ℚ) (r : Nat) (tri : Tri)
    (h : splitsP errors G maxError tri = false) : leaves errors G maxError r tri = [tri] := by
  cases r with
  | zero => rfl
  | succ r => simp only [leaves, h, Bool.false_eq_true, if_false]

theorem valAt_le_of_forall (errors : List ℚ) (G x y : Int) (maxError : ℚ)
    (h : ∀ e ∈ errors, e ≤ maxError) (hlt : cellIx G x y < errors.length) :
    valAt errors G x y ≤ maxError := by
  unfold valAt
  rw [List.getD_eq_getElem _ _ hlt]
  exact h _ (List.getElem_mem hlt)

theorem splitsP_of_le (k : Nat) (errors : List ℚ) (maxError : ℚ)
    (hlen : errors.length = (2 ^ k + 1) ^ 2) (h : ∀ e ∈ errors, e ≤ maxError) (r : Nat)
    (tri : Tri) (hs : Shaped (2 ^ k) r tri) :
    splitsP errors (2 ^ k + 1) maxError tri = false := by
  cases r with
  | zero => exact splitsP_zero _ _ hs
  | succ r =>
    have := valAt_le_of_forall errors (2 ^ k + 1) tri.mx tri.my maxError h (by
      rw [hlen]; exact mid_cell_lt hs)
    unfold splitsP
    simp only [Bool.and_eq_false_imp, decide_eq_true_eq, decide_eq_false_iff_not, not_lt]
    exact fun _ => this

theorem emitted_minimal (k : Nat) (errors : List ℚ) (maxError : ℚ)
    (hlen : errors.length = (2 ^ k + 1) ^ 2) (h : ∀ e ∈ errors, e ≤ maxError) :
    emitted k errors maxError =
      [⟨0, 0, 2 ^ k, 2 ^ k, 2 ^ k, 0⟩, ⟨2 ^ k, 2 ^ k, 0, 0, 0, 2 ^ k⟩] := by
  unfold emitted
  rw [leaves_of_not_split _ _ _ _ _ (splitsP_of_le k errors maxError hlen h _ _
      (shaped_root_first k)),
    leaves_of_not_split _ _ _ _ _ (splitsP_of_le k errors maxError hlen h _ _
      (shaped_root_second k))]
  rfl

theorem getD_set_ite {α : Type} (xs : List α) (i j : Nat) (v d : α) :
    (xs.set i v).getD j d = if i = j ∧ i < xs.length then v else xs.getD j d := by
  by_cases h : i = j
  · subst h
    by_cases hl : i < xs.length
    · simp only [hl, and_self, if_true]; exact getD_set_self _ _ _ _ hl
    · simp only [hl, and_false, if_false]
      rw [List.getD_eq_default _ _ (by simp; omega), List.getD_eq_default _ _ (by omega)]
  · simp only [h, false_and, if_false]; exact getD_set_ne _ _ _ _ _ h

theorem markP_new (G : Int) (L : List Int) (nv nt : Int) (p : Int × Int)
    (h : L.getD (cellIx G p.1 p.2) 0 = 0) :
    markP G { indices := L, numVertices := nv, numTriangles := nt } p =
      { indices := L.set (cellIx G p.1 p.2) (nv + 1), numVertices := nv + 1,
        numTriangles := nt } := by
  simp only [markP, h, if_true]

theorem markP_old (G : Int) (s : CountState) (p : Int × Int)
    (h : s.indices.getD (cellIx G p.1 p.2) 0 ≠ 0) : markP G s p = s := by
  simp only [markP, h, if_false]

/-- The numbering that the first pass gives to the four grid corners. -/
theorem first_pass_minimal (k : Nat) :
    ∃ idx, ([(⟨0, 0, 2 ^ k, 2 ^ k, 2 ^ k, 0⟩ : Tri), ⟨2 ^ k, 2 ^ k, 0, 0, 0, 2 ^ k⟩].foldl
        (countLeafP (2 ^ k + 1))
        { indices := List.replicate ((2 ^ k + 1) ^ 2) 0, numVertices := 0,
          numTriangles := 0 }) = { indices := idx, numVertices := 4, numTriangles := 2 } ∧
      ordAt idx (2 ^ k + 1) 0 0 = 0 ∧ ordAt idx (2 ^ k + 1) (2 ^ k) (2 ^ k) = 1 ∧
      ordAt idx (2 ^ k + 1) (2 ^ k) 0 = 2 ∧ ordAt idx (2 ^ k + 1) 0 (2 ^ k) = 3 := by
  have hT : (1 : Int) ≤ 2 ^ k := by
    have : (0 : Int) < 2 ^ k := by positivity
    omega
  have hT0 : (0 : Int) ≤ 2 ^ k := by omega
  have l0 := cellIx_lt k (le_refl 0) hT0 (le_refl 0) hT0
  have l1 := cellIx_lt k hT0 (le_refl _) hT0 (le_refl _)
  have l2 := cellIx_lt k hT0 (le_refl _) (le_refl 0) hT0
  have l3 := cellIx_lt k (le_refl 0) hT0 hT0 (le_refl _)
  have ne : ∀ x y x' y' : Int, 0 ≤ x → x ≤ 2 ^ k → 0 ≤ y → 0 ≤ x' → x' ≤ 2 ^ k → 0 ≤ y' →
      (x ≠ x' ∨ y ≠ y') → cellIx (2 ^ k + 1) x y ≠ cellIx (2 ^ k + 1) x' y' := by
    intro x y x' y' a b c a' b' c' hne heq
    obtain ⟨e1, e2⟩ := cellIx_inj k a b c a' b' c' heq
    omega
  have n01 := ne 0 0 (2 ^ k) (2 ^ k) (le_refl 0) hT0 (le_refl 0) hT0 (le_refl _) hT0
    (Or.inl (by omega))
  have n02 := ne 0 0 (2 ^ k) 0 (le_refl 0) hT0 (le_refl 0) hT0 (le_refl _) (le_refl 0)
    (Or.inl (by omega))
  have n03 := ne 0 0 0 (2 ^ k) (le_refl 0) hT0 (le_refl 0) (le_refl 0) hT0 hT0
    (Or.inr (by omega))
  have n12 := ne (2 ^ k) (2 ^ k) (2 ^ k) 0 hT0 (le_refl _) hT0 hT0 (le_refl _) (le_refl 0)
    (Or.inr (by omega))
  have n13 := ne (2 ^ k) (2 ^ k) 0 (2 ^ k) hT0 (le_refl _) hT0 (le_refl 0) hT0 hT0
    (Or.inl (by omega))
  have n23 := ne (2 ^ k) 0 0 (2 ^ k) hT0 (le_refl _) (le_refl 0) (le_refl 0) hT0 hT0
    (Or.inl (by omega))
  have hz : ∀ j, (List.replicate ((2 ^ k + 1) ^ 2) (0 : Int)).getD j 0 = 0 := by
    intro j
    rw [List.getD_eq_getElem?_getD, List.getElem?_replicate]
    split <;> rfl
  have hl : (List.replicate ((2 ^ k + 1) ^ 2) (0 : Int)).length = (2 ^ k + 1) ^ 2 :=
    List.length_replicate _ _
  generalize List.replicate ((2 ^ k + 1) ^ 2) (0 : Int) = L0 at *
  have s1 : markP (2 ^ k + 1) { indices := L0, numVertices := 0, numTriangles := 0 } (0, 0) =
      { indices := L0.set (cellIx (2 ^ k + 1) 0 0) 1, numVertices := 1, numTriangles := 0 } := by
    rw [markP_new _ L0 _ _ (0, 0) (hz _)]; norm_num
  have s2 : markP (2 ^ k + 1)
      { indices := L0.set (cellIx (2 ^ k + 1) 0 0) 1, numVertices := 1, numTriangles := 0 }
      (2 ^ k, 2 ^ k) =
      { indices := (L0.set (cellIx (2 ^ k + 1) 0 0) 1).set (cellIx (2 ^ k + 1) (2 ^ k) (2 ^ k)) 2,
        numVertices := 2, numTriangles := 0 } := by
    rw [markP_new _ _ _ _ (2 ^ k, 2 ^ k) (by
      simp only [getD_set_ite, n01, false_and, if_false]; exact hz _)]
    norm_num
  have s3 : markP (2 ^ k + 1)
      { indices := (L0.set (cellIx (2 ^ k + 1) 0 0) 1).set (cellIx (2 ^ k + 1) (2 ^ k) (2 ^ k)) 2,
        numVertices := 2, numTriangles := 0 } (2 ^ k, 0) =
      { indices := ((L0.set (cellIx (2 ^ k + 1) 0 0) 1).set
          (cellIx (2 ^ k + 1) (2 ^ k) (2 ^ k)) 2).set (cellIx (2 ^ k + 1) (2 ^ k) 0) 3,
        numVertices := 3, numTriangles := 0 } := by
    rw [markP_new _ _ _ _ (2 ^ k, 0) (by
      simp only [getD_set_ite, n02, n12, false_and, if_false]; exact hz _)]
    norm_num
  have s4 : markP (2 ^ k + 1)
      { indices := ((L0.set (cellIx (2 ^ k + 1) 0 0) 1).set
          (cellIx (2 ^ k + 1) (2 ^ k) (2 ^ k)) 2).set (cellIx (2 ^ k + 1) (2 ^ k) 0) 3,
        numVertices := 3, numTriangles := 0 + 1 } (2 ^ k, 2 ^ k) =
      { indices := ((L0.set (cellIx (2 ^ k + 1) 0 0) 1).set
          (cellIx (2 ^ k + 1) (2 ^ k) (2 ^ k)) 2).set (cellIx (2 ^ k + 1) (2 ^ k) 0) 3,
        numVertices := 3, numTriangles := 0 + 1 } := by
    apply markP_old
    simp only [getD_set_ite, n12.symm, false_and, if_false, List.length_set, hl, l1, and_self,
      if_true]
    norm_num
  have s5 : markP (2 ^ k + 1)
      { indices := ((L0.set (cellIx (2 ^ k + 1) 0 0) 1).set
          (cellIx (2 ^ k + 1) (2 ^ k) (2 ^ k)) 2).set (cellIx (2 ^ k + 1) (2 ^ k) 0) 3,
        numVertices := 3, numTriangles := 0 + 1 } (0, 0) =
      { indices := ((L0.set (cellIx (2 ^ k + 1) 0 0) 1).set
          (cellIx (2 ^ k + 1) (2 ^ k) (2 ^ k)) 2).set (cellIx (2 ^ k + 1) (2 ^ k) 0) 3,
        numVertices := 3, numTriangles := 0 + 1 } := by
    apply markP_old
    simp only [getD_set_ite, n02.symm, n01.symm, false_and, if_false, List.length_set, hl, l0,
      and_self, if_true]
    norm_num
  have s6 : markP (2 ^ k + 1)
      { indices := ((L0.set (cellIx (2 ^ k + 1) 0 0) 1).set
          (cellIx (2 ^ k + 1) (2 ^ k) (2 ^ k)) 2).set (cellIx (2 ^ k + 1) (2 ^ k) 0) 3,
        numVertices := 3, numTriangles := 0 + 1 } (0, 2 ^ k) =
      { indices := (((L0.set (cellIx (2 ^ k + 1) 0 0) 1).set
          (cellIx (2 ^ k + 1) (2 ^ k) (2 ^ k)) 2).set (cellIx (2 ^ k + 1) (2 ^ k) 0) 3).set
            (cellIx (2 ^ k + 1) 0 (2 ^ k)) 4,
        numVertices := 4, numTriangles := 0 + 1 } := by
    rw [markP_new _ _ _ _ (0, 2 ^ k) (by
      simp only [getD_set_ite, n03, n13, n23, false_and, if_false]; exact hz _)]
    norm_num
  refine ⟨(((L0.set (cellIx (2 ^ k + 1) 0 0) 1).set
          (cellIx (2 ^ k + 1) (2 ^ k) (2 ^ k)) 2).set (cellIx (2 ^ k + 1) (2 ^ k) 0) 3).set
            (cellIx (2 ^ k + 1) 0 (2 ^ k)) 4, ?_, ?_, ?_, ?_, ?_⟩
  · simp only [List.foldl_cons, List.foldl_nil, countLeafP, s1, s2, s3, s4, s5, s6]
    norm_num
  · simp only [ordAt, getD_set_ite, n01, n02, n03, n12, n13, n23, n01.symm, n02.symm, n03.symm,
      n12.symm, n13.symm, n23.symm, false_and, if_false, List.length_set, hl, l0, l1, l2, l3,
      and_self, if_true]
    norm_num
  · simp only [ordAt, getD_set_ite, n01, n02, n03, n12, n13, n23, n01.symm, n02.symm, n03.symm,
      n12.symm, n13.symm, n23.symm, false_and, if_false, List.length_set, hl, l0, l1, l2, l3,
      and_self, if_true]
    norm_num
  · simp only [ordAt, getD_set_ite, n01, n02, n03, n12, n13, n23, n01.symm, n02.symm, n03.symm,
      n12.symm, n13.symm, n23.symm, false_and, if_false, List.length_set, hl, l0, l1, l2, l3,
      and_self, if_true]
    norm_num
  · simp only [ordAt, getD_set_ite, n01, n02, n03, n12, n13, n23, n01.symm, n02.symm, n03.symm,
      n12.symm, n13.symm, n23.symm, false_and, if_false, List.length_set, hl, l0, l1, l2, l3,
      and_self, if_true]
    norm_num

theorem eq_of_getD (l l' : List Int) (hlen : l.length = l'.length)
    (h : ∀ j, j < l'.length → l.getD j 0 = l'.getD j 0) : l = l' := by
  apply List.ext_getElem hlen
  intro j h1 h2
  have := h j h2
  rw [List.getD_eq_getElem _ _ h1, List.getD_eq_getElem _ _ h2] at this
  exact this

/-- When no root triangle is split, `GetMesh` returns the four grid corners and the two
root triangles. -/
theorem GetMesh_minimal {k : Nat} {t : Tile} (ht : ValidTile k t) (maxError : ℚ) (fuel : Nat)
    (hf : 2 * k + 1 ≤ fuel) (hle : ∀ e ∈ t.errors, e ≤ maxError) :
    ∃ mesh, GetMesh fuel t maxError = .ok mesh ∧
      mesh.vertices = [0, 0, 2 ^ k, 2 ^ k, 2 ^ k, 0, 0, 2 ^ k] ∧
      mesh.triangles = [0, 1, 2, 1, 0, 3] := by
  obtain ⟨mesh, nV, hg, hrep, hidx, hnv⟩ := GetMesh_rep ht maxError fuel hf
  have hE := emitted_minimal k t.errors maxError ht.errors_len hle
  rw [hE] at hrep hidx hnv
  obtain ⟨idx, hfold, o0, o1, o2, o3⟩ := first_pass_minimal k
  rw [hfold] at hidx hnv
  simp only at hidx hnv
  have hnV : nV = 4 := by omega
  subst hnV
  refine ⟨mesh, hg, ?_, ?_⟩
  · have v0 := hrep.verts (0, 0) (by simp [Tri.corners])
    have v1 := hrep.verts (2 ^ k, 2 ^ k) (by simp [Tri.corners])
    have v2 := hrep.verts (2 ^ k, 0) (by simp [Tri.corners])
    have v3 := hrep.verts (0, 2 ^ k) (by simp [Tri.corners])
    unfold VertexAt at v0 v1 v2 v3
    rw [hidx] at v0 v1 v2 v3
    have e0 : (2 * (0 : Int)).toNat = 0 := by decide
    have e1 : (2 * (0 : Int) + 1).toNat = 1 := by decide
    have e2 : (2 * (1 : Int)).toNat = 2 := by decide
    have e3 : (2 * (1 : Int) + 1).toNat = 3 := by decide
    have e4 : (2 * (2 : Int)).toNat = 4 := by decide
    have e5 : (2 * (2 : Int) + 1).toNat = 5 := by decide
    have e6 : (2 * (3 : Int)).toNat = 6 := by decide
    have e7 : (2 * (3 : Int) + 1).toNat = 7 := by decide
    simp only [o0, o1, o2, o3, e0, e1, e2, e3, e4, e5, e6, e7] at v0 v1 v2 v3
    apply eq_of_getD _ _ (by rw [hrep.vlen]; rfl)
    intro j hj
    simp only [List.length_cons, List.length_nil] at hj
    interval_cases j
    · rw [v0.1]; rfl
    · rw [v0.2]; rfl
    · rw [v1.1]; rfl
    · rw [v1.2]; rfl
    · rw [v2.1]; rfl
    · rw [v2.2]; rfl
    · rw [v3.1]; rfl
    · rw [v3.2]; rfl
  · have t0 := hrep.tris 0 _ (by rfl : ([(⟨0, 0, 2 ^ k, 2 ^ k, 2 ^ k, 0⟩ : Tri),
      ⟨2 ^ k, 2 ^ k, 0, 0, 0, 2 ^ k⟩] : List Tri)[0]? = some ⟨0, 0, 2 ^ k, 2 ^ k, 2 ^ k, 0⟩)
    have t1 := hrep.tris 1 _ (by rfl : ([(⟨0, 0, 2 ^ k, 2 ^ k, 2 ^ k, 0⟩ : Tri),
      ⟨2 ^ k, 2 ^ k, 0, 0, 0, 2 ^ k⟩] : List Tri)[1]? = some ⟨2 ^ k, 2 ^ k, 0, 0, 0, 2 ^ k⟩)
    unfold TriangleAt at t0 t1
    rw [hidx] at t0 t1
    simp only [o0, o1, o2, o3, Nat.mul_zero, Nat.mul_one, Nat.zero_add] at t0 t1
    apply eq_of_getD _ _ (by rw [hrep.tlen]; rfl)
    intro j hj
    simp only [List.length_cons, List.length_nil] at hj
    interval_cases j
    · rw [t0.1]; rfl
    · rw [t0.2.1]; rfl
    · rw [t0.2.2]; rfl
    · rw [t1.1]; rfl
    · rw [t1.2.1]; rfl
    · rw [t1.2.2]; rfl

/-- C4. On a grid of side `2 ^ k + 1` with `max = gridSize - 1`, for every terrain of
length `gridSize²` and every `maxError` that is at least every entry of `errors`,
`GetMesh maxError` returns `vertices = [0,0, max,max, max,0, 0,max]` and
`triangles = [0,1,2, 1,0,3]`: two triangles on the four grid corners. -/
theorem getMesh_large_maxError (k : Nat) (terrain : List ℚ) (maxError : ℚ) (fuel : Nat)
    (hlen : terrain.length = (2 ^ k + 1) ^ 2) (hfuel : 2 * k + 1 ≤ fuel) :
    ∃ m tile mesh, New (2 ^ k + 1) = .ok m ∧ NewTile terrain m = .ok tile ∧
      GetMesh fuel tile maxError = .ok mesh ∧
      ((∀ e ∈ tile.errors, e ≤ maxError) →
        mesh.vertices = [0, 0, m.gridSize - 1, m.gridSize - 1, m.gridSize - 1, 0, 0,
          m.gridSize - 1] ∧
        mesh.triangles = [0, 1, 2, 1, 0, 3]) := by
  obtain ⟨m, tile, hm, ht, hv, hvt, _, _, _⟩ := pipeline k terrain hlen
  obtain ⟨mesh, _, hg, _, _, _⟩ := GetMesh_rep hvt maxError fuel hfuel
  refine ⟨m, tile, mesh, hm, ht, hg, ?_⟩
  intro hle
  obtain ⟨mesh', hg', h1, h2⟩ := GetMesh_minimal hvt maxError fuel hfuel hle
  rw [hg] at hg'
  cases hg'
  have e : m.gridSize - 1 = 2 ^ k := by rw [hv.gridSize_eq]; ring
  rw [e]
  exact ⟨h1, h2⟩

/-- In exact arithmetic: on a grid of side `2 ^ k + 1`, for every constant terrain,
`NewTile` produces an `errors` array of `gridSize²` zeros, and for every `maxError ≥ 0`,
`GetMesh maxError` returns the minimal mesh of 2 triangles and 4 vertices. -/
theorem constant_terrain_minimal_exact (k : Nat) (c maxError : ℚ) (fuel : Nat)
    (hme : 0 ≤ maxError) (hfuel : 2 * k + 1 ≤ fuel) :
    ∃ m tile mesh, New (2 ^ k + 1) = .ok m ∧
      NewTile (List.replicate ((2 ^ k + 1) ^ 2) c) m = .ok tile ∧
      tile.errors.length = (2 ^ k + 1) ^ 2 ∧ (∀ e ∈ tile.errors, e = 0) ∧
      GetMesh fuel tile maxError = .ok mesh ∧
      mesh.vertices = [0, 0, m.gridSize - 1, m.gridSize - 1, m.gridSize - 1, 0, 0,
        m.gridSize - 1] ∧
      mesh.triangles = [0, 1, 2, 1, 0, 3] ∧
      mesh.vertices.length / 2 = 4 ∧ mesh.triangles.length / 3 = 2 := by
  obtain ⟨m, tile, hm, ht, hv, hvt, _, _, herr⟩ :=
    pipeline k (List.replicate ((2 ^ k + 1) ^ 2) c) (List.length_replicate _ _)
  rw [relaxAll_const k c _ le_rfl] at herr
  have hzero : ∀ e ∈ tile.errors, e = 0 := by
    intro e he
    rw [herr] at he
    exact List.eq_of_mem_replicate he
  obtain ⟨mesh, hg, h1, h2⟩ := GetMesh_minimal hvt maxError fuel hfuel
    (fun e he => by rw [hzero e he]; exact hme)
  have e : m.gridSize - 1 = 2 ^ k := by rw [hv.gridSize_eq]; ring
  refine ⟨m, tile, mesh, hm, ht, hvt.errors_len, hzero, hg, ?_, h2, ?_, ?_⟩
  · rw [e]; exact h1
  · rw [h1]; simp
  · rw [h2]; simp

/-! ## Lattice points of the triangles of the hierarchy -/

theorem inTri_children {T : Int} {r : Nat} {t : Tri} (hs : Shaped T (r + 1) t) {px py : Int}
    (h : InTri t px py) : InTri t.left px py ∨ InTri t.right px py := by
  obtain ⟨m1, m2, _, _⟩ := hs.apex_formula
  have rotx := hs.rotx
  have roty := hs.roty
  obtain ⟨ax, ay, bx, by_, cx, cy⟩ := t
  simp only [Tri.left, Tri.right, InTri] at *
  generalize Tri.mx ⟨ax, ay, bx, by_, cx, cy⟩ = mx at *
  generalize Tri.my ⟨ax, ay, bx, by_, cx, cy⟩ = my at *
  obtain ⟨hx, rfl⟩ : ∃ hx, mx = cx + hx := ⟨mx - cx, by ring⟩
  obtain ⟨hy, rfl⟩ : ∃ hy, my = cy + hy := ⟨my - cy, by ring⟩
  have e1 : ax = cx + hx - hy := by omega
  have e2 : ay = cy + hx + hy := by omega
  have e3 : bx = cx + hx + hy := by omega
  have e4 : by_ = cy - hx + hy := by omega
  subst e1 e2 e3 e4
  obtain ⟨h1, h2, h3⟩ := h
  by_cases hc : (px - cx) * (cy + hx + hy - cy) - (py - cy) * (cx + hx - hy - cx) ≤
      (px - cx) * (cx + hx - hy - cx) + (py - cy) * (cy + hx + hy - cy)
  · left
    refine ⟨?_, ?_, ?_⟩ <;> ring_nf at * <;> linarith
  · right
    refine ⟨?_, ?_, ?_⟩ <;> ring_nf at * <;> linarith

theorem inTri_unit {T : Int} {t : Tri} (hs : Shaped T 0 t) {px py : Int}
    (h : InTri t px py) : (px, py) ∈ t.corners := by
  have leg := hs.leg
  have rotx := hs.rotx
  have roty := hs.roty
  have hside : side 0 = 1 := by simp [side]
  simp only [ULeg, Nat.zero_mod, if_true, hside] at leg
  unfold InTri at h
  simp only [Tri.corners, List.mem_cons, List.mem_singleton, List.not_mem_nil, or_false,
    Prod.mk.injEq]
  rcases leg with ⟨h1 | h1, h2⟩ | ⟨h1, h2 | h2⟩ <;>
    simp only [h1, h2, mul_one, mul_zero, mul_neg, neg_zero, add_zero, zero_add, sub_zero,
      zero_sub, neg_neg, one_mul] at h <;> omega

theorem inTri_root (k : Nat) {p : Int × Int} (hp : InGrid k p) :
    InTri ⟨0, 0, 2 ^ k, 2 ^ k, 2 ^ k, 0⟩ p.1 p.2 ∨ InTri ⟨2 ^ k, 2 ^ k, 0, 0, 0, 2 ^ k⟩ p.1 p.2 := by
  obtain ⟨a, b, c, d⟩ := hp
  have hT : (0 : Int) ≤ 2 ^ k := by positivity
  generalize (2 : Int) ^ k = T at *
  unfold InTri
  simp only
  by_cases hc : p.2 ≤ p.1
  · left
    refine ⟨?_, ?_, ?_⟩
    · nlinarith [mul_nonneg hT (sub_nonneg.mpr b)]
    · nlinarith [mul_nonneg hT c]
    · nlinarith [mul_nonneg hT (sub_nonneg.mpr hc)]
  · right
    have hc' : p.1 ≤ p.2 := by omega
    refine ⟨?_, ?_, ?_⟩
    · nlinarith [mul_nonneg hT a]
    · nlinarith [mul_nonneg hT (sub_nonneg.mpr d)]
    · nlinarith [mul_nonneg hT (sub_nonneg.mpr hc')]

/-! ## The maximal mesh -/

theorem leaves_full {k : Nat} {errors : List ℚ} {maxError : ℚ}
    (hall : AllSplit k errors maxError) (r : Nat) (t : Tri) (hs : Shaped (2 ^ k) r t)
    (ht : Tabled k r t) :
    (leaves errors (2 ^ k + 1) maxError r t).length = 2 ^ r ∧
      (∀ l ∈ leaves errors (2 ^ k + 1) maxError r t, Shaped (2 ^ k) 0 l) ∧
      (∀ px py, InTri t px py →
        ∃ l ∈ leaves errors (2 ^ k + 1) maxError r t, (px, py) ∈ l.corners) := by
  induction r generalizing t with
  | zero =>
    refine ⟨by simp [leaves], ?_, ?_⟩
    · intro l hl
      simp only [leaves, List.mem_singleton] at hl
      subst hl; exact hs
    · intro px py hin
      exact ⟨t, by simp [leaves], inTri_unit hs hin⟩
  | succ r ih =>
    obtain ⟨l1, l2, l3⟩ := ih t.left hs.children.1 ht.split.1
    obtain ⟨r1, r2, r3⟩ := ih t.right hs.children.2 ht.split.2
    simp only [leaves, hall r t hs ht, if_true]
    refine ⟨?_, ?_, ?_⟩
    · rw [List.length_append, l1, r1, pow_succ]; ring
    · intro l hl
      rcases List.mem_append.mp hl with hl | hl
      · exact l2 l hl
      · exact r2 l hl
    · intro px py hin
      rcases inTri_children hs hin with h | h
      · obtain ⟨l, hl, hp⟩ := l3 px py h
        exact ⟨l, List.mem_append_left _ hl, hp⟩
      · obtain ⟨l, hl, hp⟩ := r3 px py h
        exact ⟨l, List.mem_append_right _ hl, hp⟩

theorem leaves_eq_descendants {k : Nat} {errors : List ℚ} {maxError : ℚ}
    (hall : AllSplit k errors maxError) (r : Nat) (t : Tri) (hs : Shaped (2 ^ k) r t)
    (ht : Tabled k r t) : leaves errors (2 ^ k + 1) maxError r t = descendants r t := by
  induction r generalizing t with
  | zero => rfl
  | succ r ih =>
    simp only [leaves, hall r t hs ht, if_true, descendants]
    rw [ih t.left hs.children.1 ht.split.1, ih t.right hs.children.2 ht.split.2]

theorem emitted_eq_unitTriangles {k : Nat} {errors : List ℚ} {maxError : ℚ}
    (hall : AllSplit k errors maxError) : emitted k errors maxError = unitTriangles k := by
  unfold emitted unitTriangles
  rw [leaves_eq_descendants hall _ _ (shaped_root_first k) (tabled_root_first k),
    leaves_eq_descendants hall _ _ (shaped_root_second k) (tabled_root_second k)]

theorem emitted_full {k : Nat} {errors : List ℚ} {maxError : ℚ}
    (hall : AllSplit k errors maxError) :
    (emitted k errors maxError).length = 2 * (2 ^ k) ^ 2 ∧
      (∀ l ∈ emitted k errors maxError, Shaped (2 ^ k) 0 l) ∧
      (∀ p, InGrid k p → p ∈ (emitted k errors maxError).flatMap Tri.corners) := by
  obtain ⟨l1, l2, l3⟩ := leaves_full hall (2 * k) _ (shaped_root_first k) (tabled_root_first k)
  obtain ⟨r1, r2, r3⟩ := leaves_full hall (2 * k) _ (shaped_root_second k)
    (tabled_root_second k)
  unfold emitted
  refine ⟨?_, ?_, ?_⟩
  · rw [List.length_append, l1, r1, pow_mul']; ring
  · intro l hl
    rcases List.mem_append.mp hl with hl | hl
    · exact l2 l hl
    · exact r2 l hl
  · intro p hp
    rw [List.flatMap_append, List.mem_append]
    rcases inTri_root k hp with h | h
    · obtain ⟨l, hl, hpl⟩ := l3 p.1 p.2 h
      exact Or.inl (List.mem_flatMap.mpr ⟨l, hl, hpl⟩)
    · obtain ⟨l, hl, hpl⟩ := r3 p.1 p.2 h
      exact Or.inr (List.mem_flatMap.mpr ⟨l, hl, hpl⟩)

theorem cell_of_index (k j : Nat) (hj : j < (2 ^ k + 1) ^ 2) :
    ∃ p : Int × Int, InGrid k p ∧ cellIx (2 ^ k + 1) p.1 p.2 = j := by
  have hG : 0 < 2 ^ k + 1 := by positivity
  refine ⟨(((j % (2 ^ k + 1) : Nat) : Int), ((j / (2 ^ k + 1) : Nat) : Int)), ?_, ?_⟩
  · have h1 : j % (2 ^ k + 1) < 2 ^ k + 1 := Nat.mod_lt _ hG
    have h2 : j / (2 ^ k + 1) < 2 ^ k + 1 := by
      rw [Nat.div_lt_iff_lt_mul hG]
      calc j < (2 ^ k + 1) ^ 2 := hj
        _ = (2 ^ k + 1) * (2 ^ k + 1) := by ring
    have c1 : ((2 : Int) ^ k) = ((2 ^ k : Nat) : Int) := by push_cast; rfl
    unfold InGrid
    simp only
    rw [c1]
    refine ⟨by positivity, ?_, by positivity, ?_⟩
    · exact_mod_cast Nat.lt_succ_iff.mp h1
    · exact_mod_cast Nat.lt_succ_iff.mp h2
  · unfold cellIx
    simp only
    have : ((j / (2 ^ k + 1) : Nat) : Int) * (2 ^ k + 1) + ((j % (2 ^ k + 1) : Nat) : Int) =
        ((j / (2 ^ k + 1) * (2 ^ k + 1) + j % (2 ^ k + 1) : Nat) : Int) := by
      push_cast; ring
    rw [this, Int.toNat_natCast]
    exact Nat.div_add_mod' j (2 ^ k + 1)

/-- When every triangle above the unit level is split, `GetMesh` returns the full grid:
one vertex per cell and the `2 * (2 ^ k)²` unit triangles. -/
theorem GetMesh_full {k : Nat} {t : Tile} (ht : ValidTile k t) (maxError : ℚ) (fuel : Nat)
    (hf : 2 * k + 1 ≤ fuel) (hall : AllSplit k t.errors maxError) :
    ∃ mesh, GetMesh fuel t maxError = .ok mesh ∧
      MeshRep k (emitted k t.errors maxError) mesh ((2 ^ k + 1) ^ 2) ∧
      mesh.vertices.length = 2 * (2 ^ k + 1) ^ 2 ∧
      mesh.triangles.length = 3 * (2 * (2 ^ k) ^ 2) ∧
      (∀ l ∈ emitted k t.errors maxError, Shaped (2 ^ k) 0 l) ∧
      (∀ p, InGrid k p → p ∈ (emitted k t.errors maxError).flatMap Tri.corners) := by
  obtain ⟨mesh, nV, hg, hrep, _, _⟩ := GetMesh_rep ht maxError fuel hf
  obtain ⟨f1, f2, f3⟩ := emitted_full hall
  have hnz : ∀ j, j < mesh.indices.length → mesh.indices.getD j 0 ≠ 0 := by
    intro j hj
    rw [hrep.numbered.len] at hj
    obtain ⟨p, hp, hpj⟩ := cell_of_index k j hj
    have := (hrep.numbered.ord_range p (f3 p hp)).1
    unfold ordAt at this
    rw [hpj] at this
    omega
  have hcount := countP_nonzero_eq_length _ hnz
  rw [hrep.numbered.count, hrep.numbered.len] at hcount
  subst hcount
  exact ⟨mesh, hg, hrep, hrep.vlen, by rw [hrep.tlen, f1], f2, f3⟩

theorem relaxAll_valAt_nonneg (k : Nat) (terrain : List ℚ) (n m : Nat) (G x y : Int) :
    0 ≤ valAt (relaxAll k terrain n (List.replicate m 0)) G x y := by
  unfold valAt
  exact relaxAll_nonneg k terrain n m _

theorem Shaped.unit_legs {T : Int} {t : Tri} (hs : Shaped T 0 t) :
    |t.ax - t.cx| + |t.ay - t.cy| = 1 ∧ |t.bx - t.cx| + |t.by_ - t.cy| = 1 := by
  have leg := hs.leg
  have hside : side 0 = 1 := by simp [side]
  simp only [ULeg, Nat.zero_mod, if_true, hside] at leg
  rw [hs.rotx, hs.roty]
  rcases leg with ⟨h1 | h1, h2⟩ | ⟨h1, h2 | h2⟩
  all_goals
    have h3 : t.cx - t.ax = -(t.ax - t.cx) := by ring
    rw [h3, h1, h2]
    norm_num

/-- C6. On a grid of side `2 ^ k + 1`, for every terrain of length `gridSize²` and every
negative `maxError`, `GetMesh maxError` refines maximally: it returns `gridSize²` vertices,
every grid cell exactly once, and `2*(gridSize-1)²` triangles, each with unit legs `c-a`
and `c-b` at right angle; they are the unit triangles of the hierarchy, every one of them,
in traversal order. -/
theorem getMesh_negative_maxError (k : Nat) (terrain : List ℚ) (maxError : ℚ) (fuel : Nat)
    (hlen : terrain.length = (2 ^ k + 1) ^ 2) (hneg : maxError < 0)
    (hfuel : 2 * k + 1 ≤ fuel) :
    ∃ m tile mesh, New (2 ^ k + 1) = .ok m ∧ NewTile terrain m = .ok tile ∧
      GetMesh fuel tile maxError = .ok mesh ∧
      ((mesh.vertices.length / 2 : Nat) : Int) = m.gridSize ^ 2 ∧
      ((mesh.triangles.length / 3 : Nat) : Int) = 2 * (m.gridSize - 1) ^ 2 ∧
      (∀ x y : Int, 0 ≤ x → x ≤ m.gridSize - 1 → 0 ≤ y → y ≤ m.gridSize - 1 →
        ∃! o : Nat, o < mesh.vertices.length / 2 ∧ mesh.vertex o = (x, y)) ∧
      (∀ j, 3 * j + 2 < mesh.triangles.length →
        |(mesh.triangle j).ax - (mesh.triangle j).cx| +
            |(mesh.triangle j).ay - (mesh.triangle j).cy| = 1 ∧
        |(mesh.triangle j).bx - (mesh.triangle j).cx| +
            |(mesh.triangle j).by_ - (mesh.triangle j).cy| = 1 ∧
        (mesh.triangle j).bx - (mesh.triangle j).cx =
          (mesh.triangle j).ay - (mesh.triangle j).cy ∧
        (mesh.triangle j).by_ - (mesh.triangle j).cy =
          (mesh.triangle j).cx - (mesh.triangle j).ax) ∧
      mesh.triangles.length = 3 * (unitTriangles k).length ∧
      (∀ j t, (unitTriangles k)[j]? = some t → mesh.triangle j = t) := by
  obtain ⟨m, tile, hm, ht, hv, hvt, _, _, herr⟩ := pipeline k terrain hlen
  have hall : AllSplit k tile.errors maxError := by
    intro r t hs _
    unfold splitsP
    have h1 := hs.size_gt_one_iff.mpr (by omega)
    have h2 : maxError < valAt tile.errors (2 ^ k + 1) t.mx t.my := by
      rw [herr]
      exact lt_of_lt_of_le hneg (relaxAll_valAt_nonneg _ _ _ _ _ _ _)
    simp only [h1, decide_True, Bool.true_and, decide_eq_true_eq, gt_iff_lt]
    exact h2
  obtain ⟨mesh, hg, hrep, hvl, htl, hunit, hcov⟩ := GetMesh_full hvt maxError fuel hfuel hall
  have hG : m.gridSize - 1 = 2 ^ k := by rw [hv.gridSize_eq]; ring
  have hV : mesh.vertices.length / 2 = (2 ^ k + 1) ^ 2 := hrep.numVertices_eq
  have hE := emitted_eq_unitTriangles hall
  refine ⟨m, tile, mesh, hm, ht, hg, ?_, ?_, ?_, ?_, ?_, ?_⟩
  · rw [hV, hv.gridSize_eq]; push_cast; ring
  · rw [htl, hG]
    have : 3 * (2 * (2 ^ k) ^ 2) / 3 = 2 * (2 ^ k) ^ 2 := by omega
    rw [this]; push_cast; ring
  · intro x y x0 x1 y0 y1
    rw [hG] at x1 y1
    have hp : (x, y) ∈ (emitted k tile.errors maxError).flatMap Tri.corners :=
      hcov (x, y) ⟨x0, x1, y0, y1⟩
    obtain ⟨o0, o1⟩ := hrep.numbered.ord_range _ hp
    have hveq := hrep.vertex_eq hp
    simp only at o0 o1 hveq
    obtain ⟨o, ho⟩ : ∃ o : Nat, (o : Int) = ordAt mesh.indices (2 ^ k + 1) x y :=
      ⟨(ordAt mesh.indices (2 ^ k + 1) x y).toNat, by omega⟩
    rw [← ho] at hveq o1
    refine ⟨o, ⟨by rw [hV]; exact_mod_cast o1, hveq⟩, ?_⟩
    rintro o' ⟨ho', hv'⟩
    rw [hV] at ho'
    exact hrep.vertex_inj o' o ho' (by exact_mod_cast o1) (by rw [hv', hveq])
  · intro j hj
    obtain ⟨t, hjt⟩ := hrep.getElem?_of_lt hj
    rw [hrep.triangle_eq hjt]
    have hs := hunit t (List.getElem?_mem hjt)
    exact ⟨hs.unit_legs.1, hs.unit_legs.2, hs.rotx, hs.roty⟩
  · rw [← hE]; exact hrep.tlen
  · intro j t hj
    rw [← hE] at hj
    exact hrep.triangle_eq hj

/-! ## `GetMesh` with `maxError = 0` -/

/-- Beyond `2 * k + 1` the recursion budget has no influence on what `GetMesh` returns. -/
theorem GetMesh_fuel {k : Nat} {t : Tile} (ht : ValidTile k t) (maxError : ℚ) (fuel : Nat)
    (hf : 2 * k + 1 ≤ fuel) : GetMesh fuel t maxError = GetMesh (2 * k + 1) t maxError := by
  have hmax : t.martini.gridSize - 1 = 2 ^ k := by rw [ht.martini.gridSize_eq]; ring
  have c1 := fun s => countElements_eq ht maxError (2 * k) fuel _ (shaped_root_first k) hf s
  have c2 := fun s => countElements_eq ht maxError (2 * k) fuel _ (shaped_root_second k) hf s
  have c3 := fun s => countElements_eq ht maxError (2 * k) (2 * k + 1) _ (shaped_root_first k)
    le_rfl s
  have c4 := fun s => countElements_eq ht maxError (2 * k) (2 * k + 1) _ (shaped_root_second k)
    le_rfl s
  have p1 := fun i s => processTriangle_eq ht maxError i (2 * k) fuel _ (shaped_root_first k)
    hf s
  have p2 := fun i s => processTriangle_eq ht maxError i (2 * k) fuel _ (shaped_root_second k)
    hf s
  have p3 := fun i s => processTriangle_eq ht maxError i (2 * k) (2 * k + 1) _
    (shaped_root_first k) le_rfl s
  have p4 := fun i s => processTriangle_eq ht maxError i (2 * k) (2 * k + 1) _
    (shaped_root_second k) le_rfl s
  unfold GetMesh
  simp only [hmax, c1, c2, c3, c4, p1, p2, p3, p4]

theorem returns_iff {α : Type} (r : Go α) (p : α → Bool) :
    returns r p = true ↔ ∃ a, r = .ok a ∧ p a = true := by
  cases r with
  | error e => simp [returns]
  | ok a => simp [returns]

theorem centreBump_mesh :
    returns (meshOf 5 5 centreBump 0)
      (fun mesh => mesh.vertices.length / 2 == 17 && mesh.triangles.length / 3 == 24 &&
        (List.range 17).any (fun o => mesh.vertex (o : Nat) == ((2 : Int), (2 : Int)))) = true := by
  decide!

/-- C3 (as stated, refuted). On the `5 × 5` grid whose only non-zero height is the centre
cell, `GetMesh 0` returns 17 vertices and 24 triangles, not `25 = gridSize²` vertices and
`32 = 2*(gridSize-1)²` triangles, although the heightmap is not constant. -/
theorem getMesh_zero_counterexample :
    (∃ a ∈ centreBump, ∃ b ∈ centreBump, a ≠ b) ∧
    ∃ mesh, meshOf 5 5 centreBump 0 = .ok mesh ∧
      mesh.vertices.length / 2 = 17 ∧ mesh.triangles.length / 3 = 24 ∧
      mesh.vertices.length / 2 ≠ 5 ^ 2 ∧ mesh.triangles.length / 3 ≠ 2 * (5 - 1) ^ 2 := by
  refine ⟨⟨0, by simp [centreBump], 1, by simp [centreBump], by norm_num⟩, ?_⟩
  obtain ⟨mesh, hm, hp⟩ := (returns_iff _ _).mp centreBump_mesh
  simp only [Bool.and_eq_true, beq_iff_eq] at hp
  refine ⟨mesh, hm, hp.1.1, hp.1.2, ?_, ?_⟩
  · rw [hp.1.1]; norm_num
  · rw [hp.1.2]; norm_num

/-- C3 (amended). On a grid of side `2 ^ k + 1`, for every terrain whose error field is
positive at the hypotenuse midpoint of every triangle of the corner table, `GetMesh 0`
yields the maximal mesh: `gridSize²` vertices and `2*(gridSize-1)²` triangles.  For the
`5 × 5` grid whose only non-zero height is the centre cell, `GetMesh 0` returns 17
vertices and 24 triangles, and the centre `(2, 2)` is among the vertices. -/
theorem getMesh_zero_maximal :
    (∀ (k : Nat) (terrain : List ℚ) (fuel : Nat), terrain.length = (2 ^ k + 1) ^ 2 →
      2 * k + 1 ≤ fuel →
      ∃ m tile mesh, New (2 ^ k + 1) = .ok m ∧ NewTile terrain m = .ok tile ∧
        GetMesh fuel tile 0 = .ok mesh ∧
        ((∀ i : Nat, (i : Int) < m.numTriangles →
            0 < valAt tile.errors m.gridSize (m.record i).mx (m.record i).my) →
          ((mesh.vertices.length / 2 : Nat) : Int) = m.gridSize ^ 2 ∧
          ((mesh.triangles.length / 3 : Nat) : Int) = 2 * (m.gridSize - 1) ^ 2)) ∧
    (∃ mesh, meshOf 5 5 centreBump 0 = .ok mesh ∧
      mesh.vertices.length / 2 = 17 ∧ mesh.triangles.length / 3 = 24 ∧
      ∃ o : Nat, o < 17 ∧ mesh.vertex o = (2, 2)) := by
  constructor
  · intro k terrain fuel hlen hfuel
    obtain ⟨m, tile, hm, ht, hv, hvt, _, _, _⟩ := pipeline k terrain hlen
    obtain ⟨mesh, _, hg, _, _, _⟩ := GetMesh_rep hvt 0 fuel hfuel
    refine ⟨m, tile, mesh, hm, ht, hg, ?_⟩
    intro hpos
    have hall : AllSplit k tile.errors 0 := by
      intro r t hs htab
      obtain ⟨i, hi, _, rfl⟩ := htab.index
      have h1 := hs.size_gt_one_iff.mpr (by omega)
      have h2 := hpos i (by rw [hv.numTriangles_eq]; exact_mod_cast hi)
      rw [hv.record_eq hi, hv.gridSize_eq] at h2
      unfold splitsP
      simp only [h1, decide_True, Bool.true_and, decide_eq_true_eq, gt_iff_lt]
      exact h2
    obtain ⟨mesh', hg', hrep, _, htl, _, _⟩ := GetMesh_full hvt 0 fuel hfuel hall
    rw [hg] at hg'
    cases hg'
    have hG : m.gridSize - 1 = 2 ^ k := by rw [hv.gridSize_eq]; ring
    constructor
    · rw [hrep.numVertices_eq, hv.gridSize_eq]; push_cast; ring
    · rw [htl, hG]
      have : 3 * (2 * (2 ^ k) ^ 2) / 3 = 2 * (2 ^ k) ^ 2 := by omega
      rw [this]; push_cast; ring
  · obtain ⟨mesh, hm, hp⟩ := (returns_iff _ _).mp centreBump_mesh
    simp only [Bool.and_eq_true, beq_iff_eq, List.any_eq_true, List.mem_range] at hp
    obtain ⟨⟨h1, h2⟩, o, ho, hv⟩ := hp
    exact ⟨mesh, hm, h1, h2, o, ho, hv⟩

/-! ## Instances on the `3 × 3` checkerboard -/

/-- C2, instance: the `3 × 3` checkerboard. -/
theorem errors_monotone_witness :
    checkerboard.length = (2 ^ 1 + 1) ^ 2 ∧
    ∃ m tile, New (2 ^ 1 + 1) = .ok m ∧ NewTile checkerboard m = .ok tile ∧
      ∀ i : Nat, (i : Int) < m.numParentTriangles →
        valAt tile.errors m.gridSize (half ((m.record i).ax + (m.record i).cx))
            (half ((m.record i).ay + (m.record i).cy)) ≤
          valAt tile.errors m.gridSize (m.record i).mx (m.record i).my ∧
        valAt tile.errors m.gridSize (half ((m.record i).bx + (m.record i).cx))
            (half ((m.record i).by_ + (m.record i).cy)) ≤
          valAt tile.errors m.gridSize (m.record i).mx (m.record i).my :=
  ⟨by decide, errors_monotone 1 checkerboard (by decide)⟩

/-- C7, instance: the `3 × 3` checkerboard with `maxError = 0`. -/
theorem getMesh_index_validity_witness :
    (checkerboard.length = (2 ^ 1 + 1) ^ 2 ∧ 2 * 1 + 1 ≤ 3) ∧
    ∃ m tile mesh, New (2 ^ 1 + 1) = .ok m ∧ NewTile checkerboard m = .ok tile ∧
      GetMesh 3 tile 0 = .ok mesh ∧
      (∀ v ∈ mesh.triangles, 0 ≤ v ∧ v < ((mesh.vertices.length / 2 : Nat) : Int)) ∧
      mesh.triangles.length = 3 * (emitted 1 tile.errors 0).length ∧
      (∀ j t, (emitted 1 tile.errors 0)[j]? = some t →
        TriangleAt (2 ^ 1 + 1) mesh.indices mesh.triangles j t) ∧
      (∀ o : Nat, o < mesh.vertices.length / 2 → (o : Int) ∈ mesh.triangles) :=
  ⟨⟨by decide, by decide⟩, getMesh_index_validity 1 checkerboard 0 3 (by decide) (by decide)⟩

/-- C8, instance: the `3 × 3` checkerboard with `maxError = 0`. -/
theorem getMesh_vertex_sharing_witness :
    (checkerboard.length = (2 ^ 1 + 1) ^ 2 ∧ 2 * 1 + 1 ≤ 3) ∧
    ∃ m tile mesh, New (2 ^ 1 + 1) = .ok m ∧ NewTile checkerboard m = .ok tile ∧
      GetMesh 3 tile 0 = .ok mesh ∧
      (∀ o o' : Nat, o < mesh.vertices.length / 2 → o' < mesh.vertices.length / 2 →
        mesh.vertex o = mesh.vertex o' → o = o') ∧
      (∀ o : Nat, o < mesh.vertices.length / 2 →
        0 ≤ (mesh.vertex o).1 ∧ (mesh.vertex o).1 ≤ m.gridSize - 1 ∧
          0 ≤ (mesh.vertex o).2 ∧ (mesh.vertex o).2 ≤ m.gridSize - 1) ∧
      mesh.triangles.length = 3 * (emitted 1 tile.errors 0).length ∧
      (∀ j t, (emitted 1 tile.errors 0)[j]? = some t →
        mesh.vertex (mesh.triangles.getD (3 * j) 0) = (t.ax, t.ay) ∧
        mesh.vertex (mesh.triangles.getD (3 * j + 1) 0) = (t.bx, t.by_) ∧
        mesh.vertex (mesh.triangles.getD (3 * j + 2) 0) = (t.cx, t.cy)) :=
  ⟨⟨by decide, by decide⟩, getMesh_vertex_sharing 1 checkerboard 0 3 (by decide) (by decide)⟩

/-- C6, instance: the `3 × 3` checkerboard with `maxError = -1`. -/
theorem getMesh_negative_maxError_witness :
    (checkerboard.length = (2 ^ 1 + 1) ^ 2 ∧ (-1 : ℚ) < 0 ∧ 2 * 1 + 1 ≤ 3) ∧
    ∃ m tile mesh, New (2 ^ 1 + 1) = .ok m ∧ NewTile checkerboard m = .ok tile ∧
      GetMesh 3 tile (-1) = .ok mesh ∧
      ((mesh.vertices.length / 2 : Nat) : Int) = m.gridSize ^ 2 ∧
      ((mesh.triangles.length / 3 : Nat) : Int) = 2 * (m.gridSize - 1) ^ 2 ∧
      (∀ x y : Int, 0 ≤ x → x ≤ m.gridSize - 1 → 0 ≤ y → y ≤ m.gridSize - 1 →
        ∃! o : Nat, o < mesh.vertices.length / 2 ∧ mesh.vertex o = (x, y)) ∧
      (∀ j, 3 * j + 2 < mesh.triangles.length →
        |(mesh.triangle j).ax - (mesh.triangle j).cx| +
            |(mesh.triangle j).ay - (mesh.triangle j).cy| = 1 ∧
        |(mesh.triangle j).bx - (mesh.triangle j).cx| +
            |(mesh.triangle j).by_ - (mesh.triangle j).cy| = 1 ∧
        (mesh.triangle j).bx - (mesh.triangle j).cx =
          (mesh.triangle j).ay - (mesh.triangle j).cy ∧
        (mesh.triangle j).by_ - (mesh.triangle j).cy =
          (mesh.triangle j).cx - (mesh.triangle j).ax) ∧
      mesh.triangles.length = 3 * (unitTriangles 1).length ∧
      (∀ j t, (unitTriangles 1)[j]? = some t → mesh.triangle j = t) :=
  ⟨⟨by decide, by decide!, by decide⟩,
    getMesh_negative_maxError 1 checkerboard (-1) 3 (by decide) (by decide!) (by decide)⟩

theorem checkerboard_errors_le_one :
    returns (New (2 ^ 1 + 1) >>= fun m => NewTile checkerboard m)
      (fun t => t.errors.all (fun e => decide (e ≤ 1))) = true := by
  decide!

theorem checkerboard_errors_pos :
    returns (New (2 ^ 1 + 1) >>= fun m => NewTile checkerboard m)
      (fun t => (List.range t.martini.numTriangles.toNat).all (fun i =>
        decide (0 < valAt t.errors t.martini.gridSize (t.martini.record i).mx
          (t.martini.record i).my))) = true := by
  decide!

theorem NewTile_martini {terrain : List ℚ} {m : Martini} {tile : Tile}
    (h : NewTile terrain m = .ok tile) : tile.martini = m := by
  unfold NewTile at h
  simp only at h
  split at h
  · cases h
  · simp only [update] at h
    rw [bind_eq_ok] at h
    obtain ⟨e, _, h⟩ := h
    rw [bind_eq_ok] at h
    obtain ⟨e', _, h⟩ := h
    cases h
    rfl

/-- C4, instance: the `3 × 3` checkerboard with `maxError = 1`, which is at least every
entry of its error array. -/
theorem getMesh_large_maxError_witness :
    (checkerboard.length = (2 ^ 1 + 1) ^ 2 ∧ 2 * 1 + 1 ≤ 3) ∧
    ∃ m tile mesh, New (2 ^ 1 + 1) = .ok m ∧ NewTile checkerboard m = .ok tile ∧
      GetMesh 3 tile 1 = .ok mesh ∧ (∀ e ∈ tile.errors, e ≤ 1) ∧
      mesh.vertices = [0, 0, m.gridSize - 1, m.gridSize - 1, m.gridSize - 1, 0, 0,
        m.gridSize - 1] ∧
      mesh.triangles = [0, 1, 2, 1, 0, 3] := by
  refine ⟨⟨by decide, by decide⟩, ?_⟩
  obtain ⟨m, tile, mesh, hm, ht, hg, himp⟩ :=
    getMesh_large_maxError 1 checkerboard 1 3 (by decide) (by decide)
  obtain ⟨t', ht', hp⟩ := (returns_iff _ _).mp checkerboard_errors_le_one
  rw [hm, ok_bind, ht] at ht'
  cases ht'
  have hle : ∀ e ∈ tile.errors, e ≤ 1 := by
    intro e he
    have := List.all_eq_true.mp hp e he
    simpa using this
  exact ⟨m, tile, mesh, hm, ht, hg, hle, himp hle⟩

/-- C3 (amended), instance: on the `3 × 3` checkerboard every table midpoint has a positive
error, and `GetMesh 0` returns all 9 cells and all 8 unit triangles. -/
theorem getMesh_zero_maximal_witness :
    (checkerboard.length = (2 ^ 1 + 1) ^ 2 ∧ 2 * 1 + 1 ≤ 3) ∧
    ∃ m tile mesh, New (2 ^ 1 + 1) = .ok m ∧ NewTile checkerboard m = .ok tile ∧
      GetMesh 3 tile 0 = .ok mesh ∧
      (∀ i : Nat, (i : Int) < m.numTriangles →
        0 < valAt tile.errors m.gridSize (m.record i).mx (m.record i).my) ∧
      ((mesh.vertices.length / 2 : Nat) : Int) = m.gridSize ^ 2 ∧
      ((mesh.triangles.length / 3 : Nat) : Int) = 2 * (m.gridSize - 1) ^ 2 := by
  refine ⟨⟨by decide, by decide⟩, ?_⟩
  obtain ⟨m, tile, mesh, hm, ht, hg, himp⟩ :=
    getMesh_zero_maximal.1 1 checkerboard 3 (by decide) (by decide)
  obtain ⟨t', ht', hp⟩ := (returns_iff _ _).mp checkerboard_errors_pos
  rw [hm, ok_bind, ht] at ht'
  cases ht'
  have hmm := NewTile_martini ht
  rw [hmm] at hp
  have hpos : ∀ i : Nat, (i : Int) < m.numTriangles →
      0 < valAt tile.errors m.gridSize (m.record i).mx (m.record i).my := by
    intro i hi
    have := List.all_eq_true.mp hp i (List.mem_range.mpr (by omega))
    simpa using this
  exact ⟨m, tile, mesh, hm, ht, hg, hpos, himp hpos⟩

/-! ## Claims about `NewTile` and about run-time failures -/

theorem New_error_of_not_pow (gridSize : Int) (hnp : ¬ ∃ k : Nat, gridSize - 1 = 2 ^ k) :
    ∃ e, New gridSize = .error e := by
  by_cases hland : Int.land (gridSize - 1) (gridSize - 1 - 1) = 0
  · rcases (int_land_pred _).mp hland with h0 | ⟨k, hk⟩
    · have : gridSize = 1 := by omega
      subst this
      exact ⟨_, New_one⟩
    · exact absurd ⟨k, hk⟩ hnp
  · refine ⟨.invalidGridSize, ?_⟩
    unfold New
    simp only [ne_eq, hland, not_false_eq_true, if_true]

/-- Every Martini that `New` returns is the one built for some side `2 ^ k + 1`. -/
theorem New_ok_inv {gridSize : Int} {m : Martini} (h : New gridSize = .ok m) :
    ∃ k : Nat, gridSize = 2 ^ k + 1 ∧ ValidMartini k m := by
  by_cases hp : ∃ k : Nat, gridSize - 1 = 2 ^ k
  · obtain ⟨k, hk⟩ := hp
    have hg : gridSize = 2 ^ k + 1 := by omega
    obtain ⟨m', hm', hv, _⟩ := New_pow k
    rw [← hg, h] at hm'
    cases hm'
    exact ⟨k, hg, hv⟩
  · obtain ⟨e, he⟩ := New_error_of_not_pow gridSize hp
    rw [h] at he
    cases he

theorem length_eq_iff (k : Nat) (m : Martini) (hv : ValidMartini k m) (terrain : List ℚ) :
    (terrain.length : Int) = m.gridSize * m.gridSize ↔ terrain.length = (2 ^ k + 1) ^ 2 := by
  rw [hv.gridSize_eq]
  have : ((2 : Int) ^ k + 1) * (2 ^ k + 1) = (((2 ^ k + 1) ^ 2 : Nat) : Int) := by
    push_cast; ring
  rw [this]
  exact Int.ofNat_inj

/-- C11. For every Martini built by `New` and every terrain slice, `NewTile` (and
`CreateTile`, which only calls it) fails, producing no Tile, if and only if
`len(terrain) != gridSize*gridSize`; otherwise it returns a Tile whose `errors` array has
the same length `gridSize²` as `terrain`. -/
theorem newTile_fails_iff (gridSize : Int) (m : Martini) (terrain : List ℚ)
    (hnew : New gridSize = .ok m) :
    ((∃ e, NewTile terrain m = .error e) ↔ (terrain.length : Int) ≠ m.gridSize * m.gridSize) ∧
    ((∃ e, m.CreateTile terrain = .error e) ↔
      (terrain.length : Int) ≠ m.gridSize * m.gridSize) ∧
    ((terrain.length : Int) = m.gridSize * m.gridSize →
      ∃ tile, NewTile terrain m = .ok tile ∧ m.CreateTile terrain = .ok tile ∧
        tile.errors.length = terrain.length ∧ (tile.errors.length : Int) = m.gridSize ^ 2) := by
  obtain ⟨k, _, hv⟩ := New_ok_inv hnew
  have hiff : (∃ e, NewTile terrain m = .error e) ↔
      (terrain.length : Int) ≠ m.gridSize * m.gridSize := by
    constructor
    · rintro ⟨e, he⟩ heq
      rw [NewTile_eq hv ((length_eq_iff k m hv terrain).mp heq)] at he
      cases he
    · intro hne
      refine ⟨.invalidTerrainLength, ?_⟩
      unfold NewTile
      simp only [hne, ne_eq, not_false_eq_true, if_true]
  refine ⟨hiff, hiff, ?_⟩
  intro heq
  have hlen := (length_eq_iff k m hv terrain).mp heq
  refine ⟨_, NewTile_eq hv hlen, NewTile_eq hv hlen, ?_, ?_⟩
  · simp only [relaxAll_length, List.length_replicate, hlen]
  · simp only [relaxAll_length, List.length_replicate]
    rw [hv.gridSize_eq]; push_cast; ring

/-- C11, instance: the Martini of side 3 with the `3 × 3` checkerboard. -/
theorem newTile_fails_iff_witness :
    ∃ m, New (2 ^ 1 + 1) = .ok m ∧
      ((∃ e, NewTile checkerboard m = .error e) ↔
        (checkerboard.length : Int) ≠ m.gridSize * m.gridSize) ∧
      ((∃ e, m.CreateTile checkerboard = .error e) ↔
        (checkerboard.length : Int) ≠ m.gridSize * m.gridSize) ∧
      ((checkerboard.length : Int) = m.gridSize * m.gridSize →
        ∃ tile, NewTile checkerboard m = .ok tile ∧ m.CreateTile checkerboard = .ok tile ∧
          tile.errors.length = checkerboard.length ∧
          (tile.errors.length : Int) = m.gridSize ^ 2) := by
  obtain ⟨m, hm, _, _⟩ := New_pow 1
  exact ⟨m, hm, newTile_fails_iff (2 ^ 1 + 1) m checkerboard hm⟩

/-- C13. For every Martini of side `2 ^ k + 1` and every terrain of length `gridSize²`,
every entry of the `errors` array produced by `NewTile` is `≥ 0`. -/
theorem errors_nonneg (k : Nat) (terrain : List ℚ)
    (hlen : terrain.length = (2 ^ k + 1) ^ 2) :
    ∃ m tile, New (2 ^ k + 1) = .ok m ∧ NewTile terrain m = .ok tile ∧
      ∀ e ∈ tile.errors, 0 ≤ e := by
  obtain ⟨m, tile, hm, ht, _, _, _, _, herr⟩ := pipeline k terrain hlen
  refine ⟨m, tile, hm, ht, ?_⟩
  intro e he
  obtain ⟨n, hn, rfl⟩ := List.getElem_of_mem he
  have := relaxAll_nonneg k terrain (tableLen k) ((2 ^ k + 1) ^ 2) n
  rw [← herr, List.getD_eq_getElem _ _ hn] at this
  exact this

/-- C13, instance: the `3 × 3` checkerboard. -/
theorem errors_nonneg_witness :
    checkerboard.length = (2 ^ 1 + 1) ^ 2 ∧
    ∃ m tile, New (2 ^ 1 + 1) = .ok m ∧ NewTile checkerboard m = .ok tile ∧
      ∀ e ∈ tile.errors, 0 ≤ e :=
  ⟨by decide, errors_nonneg 1 checkerboard (by decide)⟩

/-- C12. Absence of run-time failures on a grid of side `2 ^ k + 1`: for every terrain of
length `gridSize²` and every `maxError`, `New`, `NewTile` (hence `update`) and `GetMesh`
return without an out-of-range access; all table corners, derived apexes, midpoints and
child midpoints lie in `[0, gridSize-1]²`; every corner of an emitted triangle lies in the
grid and has a non-zero scratch ordinal when the second pass reads it; and the second
pass writes exactly `len(triangles)` slots. -/
theorem no_runtime_failure (k : Nat) (terrain : List ℚ) (maxError : ℚ) (fuel : Nat)
    (hlen : terrain.length = (2 ^ k + 1) ^ 2) (hfuel : 2 * k + 1 ≤ fuel) :
    ∃ m tile mesh, New (2 ^ k + 1) = .ok m ∧ NewTile terrain m = .ok tile ∧
      GetMesh fuel tile maxError = .ok mesh ∧
      (∀ i : Nat, (i : Int) < m.numTriangles →
        InGrid k ((m.record i).ax, (m.record i).ay) ∧
        InGrid k ((m.record i).bx, (m.record i).by_) ∧
        InGrid k ((m.record i).cx, (m.record i).cy) ∧
        InGrid k ((m.record i).mx, (m.record i).my)) ∧
      (∀ i : Nat, (i : Int) < m.numParentTriangles →
        InGrid k (half ((m.record i).ax + (m.record i).cx),
          half ((m.record i).ay + (m.record i).cy)) ∧
        InGrid k (half ((m.record i).bx + (m.record i).cx),
          half ((m.record i).by_ + (m.record i).cy))) ∧
      (∀ t ∈ emitted k tile.errors maxError, ∀ p ∈ t.corners,
        InGrid k p ∧ mesh.indices.getD (cellIx m.gridSize p.1 p.2) 0 ≠ 0) ∧
      mesh.triangles.length = 3 * (emitted k tile.errors maxError).length := by
  obtain ⟨m, tile, hm, ht, hv, hvt, _, _, _⟩ := pipeline k terrain hlen
  obtain ⟨mesh, nV, hg, hrep, _, _⟩ := GetMesh_rep hvt maxError fuel hfuel
  refine ⟨m, tile, mesh, hm, ht, hg, ?_, ?_, ?_, hrep.tlen⟩
  · intro i hi
    rw [hv.numTriangles_eq] at hi
    have hi' : i < tableLen k := by exact_mod_cast hi
    obtain ⟨r, _, hs⟩ := table_shaped k i hi'
    rw [hv.record_eq hi']
    exact ⟨⟨hs.ax0, hs.ax1, hs.ay0, hs.ay1⟩, ⟨hs.bx0, hs.bx1, hs.by0, hs.by1⟩,
      ⟨hs.cx0, hs.cx1, hs.cy0, hs.cy1⟩, hs.mid_bounds⟩
  · intro i hi
    rw [hv.numParent_eq] at hi
    obtain ⟨r, _, hs⟩ := parent_shaped k i hi
    rw [hv.record_eq (parent_lt_tableLen k i hi)]
    have h1 := hs.children.1.mid_bounds
    have h2 := hs.children.2.mid_bounds
    simp only [Tri.left, Tri.right, Tri.mx, Tri.my] at h1 h2
    rw [add_comm (triangleOf (2 ^ k) i).ax, add_comm (triangleOf (2 ^ k) i).ay]
    exact ⟨h1, h2⟩
  · intro t ht' p hp
    have hmem : p ∈ (emitted k tile.errors maxError).flatMap Tri.corners :=
      List.mem_flatMap.mpr ⟨t, ht', hp⟩
    refine ⟨hrep.numbered.inGrid p hmem, ?_⟩
    have := (hrep.numbered.ord_range p hmem).1
    unfold ordAt at this
    rw [hv.gridSize_eq]
    omega

/-- C12, instance: the `3 × 3` checkerboard with `maxError = 0`. -/
theorem no_runtime_failure_witness :
    (checkerboard.length = (2 ^ 1 + 1) ^ 2 ∧ 2 * 1 + 1 ≤ 3) ∧
    ∃ m tile mesh, New (2 ^ 1 + 1) = .ok m ∧ NewTile checkerboard m = .ok tile ∧
      GetMesh 3 tile 0 = .ok mesh ∧
      (∀ i : Nat, (i : Int) < m.numTriangles →
        InGrid 1 ((m.record i).ax, (m.record i).ay) ∧
        InGrid 1 ((m.record i).bx, (m.record i).by_) ∧
        InGrid 1 ((m.record i).cx, (m.record i).cy) ∧
        InGrid 1 ((m.record i).mx, (m.record i).my)) ∧
      (∀ i : Nat, (i : Int) < m.numParentTriangles →
        InGrid 1 (half ((m.record i).ax + (m.record i).cx),
          half ((m.record i).ay + (m.record i).cy)) ∧
        InGrid 1 (half ((m.record i).bx + (m.record i).cx),
          half ((m.record i).by_ + (m.record i).cy))) ∧
      (∀ t ∈ emitted 1 tile.errors 0, ∀ p ∈ t.corners,
        InGrid 1 p ∧ mesh.indices.getD (cellIx m.gridSize p.1 p.2) 0 ≠ 0) ∧
      mesh.triangles.length = 3 * (emitted 1 tile.errors 0).length :=
  ⟨⟨by decide, by decide⟩, no_runtime_failure 1 checkerboard 0 3 (by decide) (by decide)⟩

/-- C19. Apex identity: on a grid of side `2 ^ k + 1`, for every table index `i`, the
stored corners are the `a`, `b` that the construction loop of `New` holds for triangle `i`,
the apex `(cx, cy)` the loop holds equals the apex `cx = mx+my-ay`, `cy = my+ax-mx` that
`update` derives from the stored corners with `mx = (ax+bx)>>1`, `my = (ay+by)>>1`, and
both halvings are exact. -/
theorem apex_identity (k : Nat) :
    ∃ m, New (2 ^ k + 1) = .ok m ∧
      ∀ i : Nat, (i : Int) < m.numTriangles →
        m.record i = triangleOf (m.gridSize - 1) i ∧
        (triangleOf (m.gridSize - 1) i).cx =
          half ((m.record i).ax + (m.record i).bx) + half ((m.record i).ay + (m.record i).by_) -
            (m.record i).ay ∧
        (triangleOf (m.gridSize - 1) i).cy =
          half ((m.record i).ay + (m.record i).by_) + (m.record i).ax -
            half ((m.record i).ax + (m.record i).bx) ∧
        2 * half ((m.record i).ax + (m.record i).bx) = (m.record i).ax + (m.record i).bx ∧
        2 * half ((m.record i).ay + (m.record i).by_) = (m.record i).ay + (m.record i).by_ := by
  obtain ⟨m, hm, hv, _⟩ := New_pow k
  refine ⟨m, hm, ?_⟩
  intro i hi
  rw [hv.numTriangles_eq] at hi
  have hi' : i < tableLen k := by exact_mod_cast hi
  have hT : m.gridSize - 1 = 2 ^ k := by rw [hv.gridSize_eq]; ring
  obtain ⟨r, _, hs⟩ := table_shaped k i hi'
  obtain ⟨e1, e2, e3, e4⟩ := hs.apex_formula
  rw [hv.record_eq hi', hT]
  simp only [Tri.mx, Tri.my] at e1 e2 e3 e4
  exact ⟨rfl, e3.symm, e4.symm, e1, e2⟩

/-! ## The scratch buffer -/

theorem countElements_withScratch (t : Tile) (idx : List Int) (maxError : ℚ) (fuel : Nat)
    (tri : Tri) (s : CountState) :
    countElements (t.withScratch idx) maxError fuel tri s = countElements t maxError fuel tri s := by
  induction fuel generalizing tri s with
  | zero => rfl
  | succ f ih =>
    simp only [countElements]
    have hs : splits (t.withScratch idx) maxError tri = splits t maxError tri := rfl
    have hg : (t.withScratch idx).martini.gridSize = t.martini.gridSize := rfl
    rw [hs, hg]
    simp only [ih]

theorem processTriangle_withScratch (t : Tile) (idx : List Int) (maxError : ℚ)
    (indices : List Int) (fuel : Nat) (tri : Tri) (s : FillState) :
    processTriangle (t.withScratch idx) maxError indices fuel tri s =
      processTriangle t maxError indices fuel tri s := by
  induction fuel generalizing tri s with
  | zero => rfl
  | succ f ih =>
    simp only [processTriangle]
    have hs : splits (t.withScratch idx) maxError tri = splits t maxError tri := rfl
    have hg : (t.withScratch idx).martini.gridSize = t.martini.gridSize := rfl
    rw [hs, hg]
    simp only [ih]

/-- The result of `GetMesh` depends on the scratch buffer only through its length. -/
theorem GetMesh_withScratch (t : Tile) (idx : List Int) (maxError : ℚ) (fuel : Nat)
    (hlen : idx.length = t.martini.indices.length) :
    GetMesh fuel (t.withScratch idx) maxError = GetMesh fuel t maxError := by
  have hmap : (t.withScratch idx).martini.indices.map (fun _ => (0 : Int)) =
      t.martini.indices.map (fun _ => (0 : Int)) := by
    show idx.map (fun _ => (0 : Int)) = _
    rw [List.map_const', List.map_const', hlen]
  have hg : (t.withScratch idx).martini.gridSize = t.martini.gridSize := rfl
  unfold GetMesh
  simp only [hmap, hg, countElements_withScratch, processTriangle_withScratch]

/-- C14. `GetMesh` does not depend on the prior contents of the scratch buffer: for a tile
on a grid of side `2 ^ k + 1` and any two contents of `martini.indices`, `GetMesh` returns
the same `vertices` and `triangles`; hence a second call of `GetMesh` with the same
`maxError`, run on the buffer the first call left behind, returns identical arrays. -/
theorem getMesh_scratch_independent (k : Nat) (terrain : List ℚ) (maxError : ℚ) (fuel : Nat)
    (hlen : terrain.length = (2 ^ k + 1) ^ 2) (hfuel : 2 * k + 1 ≤ fuel) :
    ∃ m tile mesh, New (2 ^ k + 1) = .ok m ∧ NewTile terrain m = .ok tile ∧
      GetMesh fuel tile maxError = .ok mesh ∧
      (∀ s1 s2 : List Int, s1.length = m.indices.length → s2.length = m.indices.length →
        ∃ mesh1 mesh2, GetMesh fuel (tile.withScratch s1) maxError = .ok mesh1 ∧
          GetMesh fuel (tile.withScratch s2) maxError = .ok mesh2 ∧
          mesh1.vertices = mesh2.vertices ∧ mesh1.triangles = mesh2.triangles) ∧
      (∃ mesh', GetMesh fuel (tile.withScratch mesh.indices) maxError = .ok mesh' ∧
        mesh'.vertices = mesh.vertices ∧ mesh'.triangles = mesh.triangles) := by
  obtain ⟨m, tile, hm, ht, hv, hvt, htm, _, _⟩ := pipeline k terrain hlen
  obtain ⟨mesh, nV, hg, hrep, _, _⟩ := GetMesh_rep hvt maxError fuel hfuel
  refine ⟨m, tile, mesh, hm, ht, hg, ?_, ?_⟩
  · intro s1 s2 h1 h2
    refine ⟨mesh, mesh, ?_, ?_, rfl, rfl⟩
    · rw [GetMesh_withScratch _ _ _ _ (by rw [htm]; exact h1)]; exact hg
    · rw [GetMesh_withScratch _ _ _ _ (by rw [htm]; exact h2)]; exact hg
  · refine ⟨mesh, ?_, rfl, rfl⟩
    rw [GetMesh_withScratch _ _ _ _ (by
      rw [hrep.numbered.len, hvt.martini.indices_len])]
    exact hg

/-- C14, instance: the `3 × 3` checkerboard with `maxError = 0`. -/
theorem getMesh_scratch_independent_witness :
    (checkerboard.length = (2 ^ 1 + 1) ^ 2 ∧ 2 * 1 + 1 ≤ 3) ∧
    ∃ m tile mesh, New (2 ^ 1 + 1) = .ok m ∧ NewTile checkerboard m = .ok tile ∧
      GetMesh 3 tile 0 = .ok mesh ∧
      (∀ s1 s2 : List Int, s1.length = m.indices.length → s2.length = m.indices.length →
        ∃ mesh1 mesh2, GetMesh 3 (tile.withScratch s1) 0 = .ok mesh1 ∧
          GetMesh 3 (tile.withScratch s2) 0 = .ok mesh2 ∧
          mesh1.vertices = mesh2.vertices ∧ mesh1.triangles = mesh2.triangles) ∧
      (∃ mesh', GetMesh 3 (tile.withScratch mesh.indices) 0 = .ok mesh' ∧
        mesh'.vertices = mesh.vertices ∧ mesh'.triangles = mesh.triangles) :=
  ⟨⟨by decide, by decide⟩,
    getMesh_scratch_independent 1 checkerboard 0 3 (by decide) (by decide)⟩

/-! ## Children in the corner table -/

/-- The two halves of table triangle `i` are the table triangles `i + 2 ^ n` and
`i + 2 ^ (n - 1)`, where `n = Nat.log 2 (i + 2) + 1` is the bit length of `i + 2`. -/
theorem triangleOf_child (T : Int) (i : Nat) :
    triangleOf T (i + 2 ^ (Nat.log 2 (i + 2) + 1)) = (triangleOf T i).left ∧
      triangleOf T (i + 2 ^ Nat.log 2 (i + 2)) = (triangleOf T i).right := by
  have hlog : Nat.log 2 (i + 2) = Nat.log 2 ((i + 2) / 2) + 1 :=
    Nat.log_of_one_lt_of_le (by norm_num) (by omega)
  have hq1 : 1 ≤ (i + 2) / 2 := by omega
  obtain ⟨c1, c2⟩ := descend_child (Nat.log 2 ((i + 2) / 2)) ((i + 2) / 2)
    (rootOf T (i + 2)) rfl hq1
  have hbase : triangleOf T i =
      descend (Nat.log 2 ((i + 2) / 2)) ((i + 2) / 2) (rootOf T (i + 2)) := by
    unfold triangleOf
    simp only [Nat.shiftRight_eq_div_pow, pow_one]
    exact descend_fuel _ _ _ (le_trans (Nat.log_le_self _ _) (by omega))
  rw [hlog, hbase]
  constructor
  · unfold triangleOf
    simp only [Nat.shiftRight_eq_div_pow, pow_one]
    have e1 : (i + 2 ^ (Nat.log 2 ((i + 2) / 2) + 1 + 1) + 2) / 2 =
        (i + 2) / 2 + 2 ^ (Nat.log 2 ((i + 2) / 2) + 1) := by
      rw [pow_succ 2 (Nat.log 2 ((i + 2) / 2) + 1)]; omega
    have e2 : rootOf T (i + 2 ^ (Nat.log 2 ((i + 2) / 2) + 1 + 1) + 2) = rootOf T (i + 2) := by
      have : i + 2 ^ (Nat.log 2 ((i + 2) / 2) + 1 + 1) + 2 =
          2 ^ (Nat.log 2 ((i + 2) / 2) + 1 + 1) + (i + 2) := by omega
      rw [this]
      exact rootOf_add_even _ _ _ (by rw [pow_succ]; omega)
    rw [e1, e2, descend_fuel _ _ _ (le_trans (Nat.log_le_self _ _) (by
      have : 0 < 2 ^ (Nat.log 2 ((i + 2) / 2) + 1 + 1) := by positivity
      omega))]
    exact c1
  · unfold triangleOf
    simp only [Nat.shiftRight_eq_div_pow, pow_one]
    have e1 : (i + 2 ^ (Nat.log 2 ((i + 2) / 2) + 1) + 2) / 2 =
        (i + 2) / 2 + 2 ^ Nat.log 2 ((i + 2) / 2) := by
      rw [pow_succ 2 (Nat.log 2 ((i + 2) / 2))]; omega
    have e2 : rootOf T (i + 2 ^ (Nat.log 2 ((i + 2) / 2) + 1) + 2) = rootOf T (i + 2) := by
      have : i + 2 ^ (Nat.log 2 ((i + 2) / 2) + 1) + 2 =
          2 ^ (Nat.log 2 ((i + 2) / 2) + 1) + (i + 2) := by omega
      rw [this]
      exact rootOf_add_even _ _ _ (by rw [pow_succ]; omega)
    rw [e1, e2, descend_fuel _ _ _ (le_trans (Nat.log_le_self _ _) (by
      have : 0 < 2 ^ (Nat.log 2 ((i + 2) / 2) + 1) := by positivity
      omega))]
    exact c2

/-- For a parent index the two child indices lie in the table. -/
theorem child_lt_tableLen (k i : Nat) (hi : (i : Int) < (2 ^ k) ^ 2 - 2) :
    i + 2 ^ (Nat.log 2 (i + 2) + 1) < tableLen k ∧ i + 2 ^ Nat.log 2 (i + 2) < tableLen k := by
  have hi' : i + 2 < 2 ^ (2 * k) := by
    have : ((i + 2 : Nat) : Int) < ((2 ^ (2 * k) : Nat) : Int) := by
      push_cast; rw [pow_mul']; omega
    exact_mod_cast this
  have hl : Nat.log 2 (i + 2) < 2 * k := Nat.log_lt_of_lt_pow (by omega) hi'
  have h1 : 2 ^ (Nat.log 2 (i + 2) + 1) ≤ 2 ^ (2 * k) :=
    Nat.pow_le_pow_right (by norm_num) (by omega)
  have h2 : 2 ^ Nat.log 2 (i + 2) ≤ 2 ^ (Nat.log 2 (i + 2) + 1) :=
    Nat.pow_le_pow_right (by norm_num) (by omega)
  have h3 : 2 ^ (2 * k + 1) = 2 * 2 ^ (2 * k) := by rw [pow_succ]; ring
  rw [tableLen_lt_iff, tableLen_lt_iff]
  constructor <;> omega

/-- C18. The corner table agrees with the descent of `GetMesh`.  On a grid of side
`2 ^ k + 1`, let `i` be below `numParentTriangles`, let `a`, `b` be the stored corners
of record `i`, `c` its derived apex, and `n` the bit length of `i + 2` (so
`2 ^ (n - 1) ≤ i + 2 < 2 ^ n`).  Then `i + 2 ^ n` and `i + 2 ^ (n - 1)` are larger than
`i` and below `numTriangles`; record `i + 2 ^ n` stores the corners `(c, a)` and record
`i + 2 ^ (n - 1)` stores `(b, c)`; so the child midpoints that `update` reads at `i` are
the midpoints of these two records, which the descending loop has handled before. -/
theorem table_children (k i n : Nat) (hi : (i : Int) < (2 ^ k) ^ 2 - 2)
    (hn : n = Nat.log 2 (i + 2) + 1) :
    ∃ m, New (2 ^ k + 1) = .ok m ∧ (i : Int) < m.numParentTriangles ∧
      (2 ^ (n - 1) ≤ i + 2 ∧ i + 2 < 2 ^ n) ∧
      (i < i + 2 ^ (n - 1) ∧ i + 2 ^ (n - 1) < i + 2 ^ n ∧
        ((i + 2 ^ n : Nat) : Int) < m.numTriangles) ∧
      ((m.record (i + 2 ^ n)).ax = (m.record i).cx ∧
        (m.record (i + 2 ^ n)).ay = (m.record i).cy ∧
        (m.record (i + 2 ^ n)).bx = (m.record i).ax ∧
        (m.record (i + 2 ^ n)).by_ = (m.record i).ay) ∧
      ((m.record (i + 2 ^ (n - 1))).ax = (m.record i).bx ∧
        (m.record (i + 2 ^ (n - 1))).ay = (m.record i).by_ ∧
        (m.record (i + 2 ^ (n - 1))).bx = (m.record i).cx ∧
        (m.record (i + 2 ^ (n - 1))).by_ = (m.record i).cy) ∧
      ((m.record (i + 2 ^ n)).mx = half ((m.record i).ax + (m.record i).cx) ∧
        (m.record (i + 2 ^ n)).my = half ((m.record i).ay + (m.record i).cy) ∧
        (m.record (i + 2 ^ (n - 1))).mx = half ((m.record i).bx + (m.record i).cx) ∧
        (m.record (i + 2 ^ (n - 1))).my = half ((m.record i).by_ + (m.record i).cy)) := by
  obtain ⟨m, hm, hv, _⟩ := New_pow k
  subst hn
  simp only [Nat.add_sub_cancel]
  obtain ⟨l1, l2⟩ := child_lt_tableLen k i hi
  obtain ⟨c1, c2⟩ := triangleOf_child (2 ^ k) i
  have hp1 : 2 ^ Nat.log 2 (i + 2) ≤ i + 2 := Nat.pow_log_le_self 2 (by omega)
  have hp2 : i + 2 < 2 ^ (Nat.log 2 (i + 2) + 1) :=
    Nat.lt_pow_succ_log_self (by norm_num) _
  have hp3 : 0 < 2 ^ Nat.log 2 (i + 2) := by positivity
  have hp4 : 2 ^ (Nat.log 2 (i + 2) + 1) = 2 * 2 ^ Nat.log 2 (i + 2) := by
    rw [pow_succ]; ring
  refine ⟨m, hm, by rw [hv.numParent_eq]; exact hi, ⟨hp1, hp2⟩, ⟨by omega, by omega, ?_⟩, ?_⟩
  · rw [hv.numTriangles_eq]; exact_mod_cast l1
  rw [hv.record_eq l1, hv.record_eq l2, hv.record_eq (parent_lt_tableLen k i hi), c1, c2]
  simp only [Tri.left, Tri.right, Tri.mx, Tri.my, add_comm, and_self]

/-- C18, instance: record `0` of the `3 × 3` table, whose children are records `4` and `2`. -/
theorem table_children_witness :
    (((0 : Nat) : Int) < (2 ^ 1) ^ 2 - 2 ∧ 2 = Nat.log 2 (0 + 2) + 1) ∧
    ∃ m, New (2 ^ 1 + 1) = .ok m ∧ ((0 : Nat) : Int) < m.numParentTriangles ∧
      (2 ^ (2 - 1) ≤ 0 + 2 ∧ 0 + 2 < 2 ^ 2) ∧
      (0 < 0 + 2 ^ (2 - 1) ∧ 0 + 2 ^ (2 - 1) < 0 + 2 ^ 2 ∧
        ((0 + 2 ^ 2 : Nat) : Int) < m.numTriangles) ∧
      ((m.record (0 + 2 ^ 2)).ax = (m.record 0).cx ∧
        (m.record (0 + 2 ^ 2)).ay = (m.record 0).cy ∧
        (m.record (0 + 2 ^ 2)).bx = (m.record 0).ax ∧
        (m.record (0 + 2 ^ 2)).by_ = (m.record 0).ay) ∧
      ((m.record (0 + 2 ^ (2 - 1))).ax = (m.record 0).bx ∧
        (m.record (0 + 2 ^ (2 - 1))).ay = (m.record 0).by_ ∧
        (m.record (0 + 2 ^ (2 - 1))).bx = (m.record 0).cx ∧
        (m.record (0 + 2 ^ (2 - 1))).by_ = (m.record 0).cy) ∧
      ((m.record (0 + 2 ^ 2)).mx = half ((m.record 0).ax + (m.record 0).cx) ∧
        (m.record (0 + 2 ^ 2)).my = half ((m.record 0).ay + (m.record 0).cy) ∧
        (m.record (0 + 2 ^ (2 - 1))).mx = half ((m.record 0).bx + (m.record 0).cx) ∧
        (m.record (0 + 2 ^ (2 - 1))).my = half ((m.record 0).by_ + (m.record 0).cy)) :=
  ⟨⟨by decide, by simp [Nat.log]⟩, table_children 1 0 2 (by decide) (by simp [Nat.log])⟩

/-! ## Orientation and area of the output triangles -/

theorem cross_eq_neg_legSq {T : Int} {r : Nat} {t : Tri} (hs : Shaped T r t) :
    t.cross = -t.legSq := by
  have rotx := hs.rotx
  have roty := hs.roty
  unfold Tri.cross Tri.legSq
  have e1 : t.bx = t.cx + (t.ay - t.cy) := by omega
  have e2 : t.by_ = t.cy + (t.cx - t.ax) := by omega
  rw [e1, e2]; ring

theorem Shaped.legSq_pos {T : Int} {r : Nat} {t : Tri} (hs : Shaped T r t) : 0 < t.legSq := by
  have leg := hs.leg
  have hsd := side_pos r
  unfold Tri.legSq
  unfold ULeg at leg
  split at leg
  · rcases leg with ⟨h1 | h1, h2⟩ | ⟨h1, h2 | h2⟩ <;> rw [h1, h2] <;> nlinarith
  · rcases leg with ⟨h1 | h1, h2 | h2⟩ <;> rw [h1, h2] <;> nlinarith

/-- Bisection splits the squared leg, hence the area, into two equal parts that add up to
the whole. -/
theorem Shaped.legSq_split {T : Int} {r : Nat} {t : Tri} (hs : Shaped T (r + 1) t) :
    t.left.legSq + t.right.legSq = t.legSq := by
  obtain ⟨m1, m2, _, _⟩ := hs.apex_formula
  have rotx := hs.rotx
  have roty := hs.roty
  obtain ⟨ax, ay, bx, by_, cx, cy⟩ := t
  simp only [Tri.left, Tri.right, Tri.legSq] at *
  generalize Tri.mx ⟨ax, ay, bx, by_, cx, cy⟩ = mx at *
  generalize Tri.my ⟨ax, ay, bx, by_, cx, cy⟩ = my at *
  have ea : ax = 2 * mx - bx := by omega
  have eb : ay = 2 * my - by_ := by omega
  have ec : cx = mx + by_ - my := by omega
  have ed : cy = mx + my - bx := by omega
  rw [ea, eb, ec, ed]; ring

theorem leaves_legSq {T : Int} (errors : List ℚ) (G : Int) (maxError : ℚ) (r : Nat) (tri : Tri)
    (hs : Shaped T r tri) :
    ((leaves errors G maxError r tri).map Tri.legSq).sum = tri.legSq := by
  induction r generalizing tri with
  | zero => simp [leaves]
  | succ r ih =>
    simp only [leaves]
    split
    · rw [List.map_append, List.sum_append, ih _ hs.children.1, ih _ hs.children.2]
      exact hs.legSq_split
    · simp

theorem emitted_legSq (k : Nat) (errors : List ℚ) (maxError : ℚ) :
    ((emitted k errors maxError).map Tri.legSq).sum = 2 * (2 ^ k) ^ 2 := by
  unfold emitted
  rw [List.map_append, List.sum_append, leaves_legSq _ _ _ _ _ (shaped_root_first k),
    leaves_legSq _ _ _ _ _ (shaped_root_second k)]
  simp only [Tri.legSq]
  ring

theorem Shaped.area_eq {T : Int} {r : Nat} {t : Tri} (hs : Shaped T r t) :
    |t.cross| = t.legSq ∧ t.area = (t.legSq : ℚ) / 2 := by
  have h1 := cross_eq_neg_legSq hs
  have h2 := hs.legSq_pos
  have h3 : |t.cross| = t.legSq := by rw [h1, abs_neg, abs_of_pos h2]
  refine ⟨h3, ?_⟩
  unfold Tri.area
  rw [← Int.cast_abs, h3]

theorem sum_area_of_shaped {T : Int} (E : List Tri) (h : ∀ t ∈ E, ∃ r, Shaped T r t) :
    (E.map (fun t => |t.cross|)).sum = (E.map Tri.legSq).sum ∧
      (E.map Tri.area).sum = (((E.map Tri.legSq).sum : Int) : ℚ) / 2 := by
  induction E with
  | nil => simp
  | cons t E ih =>
    obtain ⟨r, hs⟩ := h t (List.mem_cons_self _ _)
    obtain ⟨i1, i2⟩ := ih (fun t ht => h t (List.mem_cons_of_mem _ ht))
    obtain ⟨a1, a2⟩ := hs.area_eq
    simp only [List.map_cons, List.sum_cons, i1, i2, a1, a2]
    refine ⟨trivial, ?_⟩
    push_cast; ring

/-- Decoding the output arrays gives back the list of triangles at which the traversal stops. -/
theorem MeshRep.triangleList_eq {k : Nat} {E : List Tri} {mesh : Mesh} {nV : Nat}
    (h : MeshRep k E mesh nV) : mesh.triangleList = E := by
  unfold Mesh.triangleList
  rw [h.tlen, Nat.mul_div_cancel_left _ (by norm_num : 0 < 3)]
  apply List.ext_getElem
  · simp
  · intro j h1 h2
    simp only [List.getElem_map, List.getElem_range]
    exact h.triangle_eq (List.getElem?_eq_getElem h2)

/-- C16. Consistent winding on a grid of side `2 ^ k + 1`: for every terrain of length
`gridSize²` and every `maxError`, `GetMesh` returns, and every output triangle `(a, b, c)`
has cross product `(bx-ax)*(cy-ay) - (by-ay)*(cx-ax)` strictly negative; in particular
no output triangle is degenerate and all have the same orientation. -/
theorem getMesh_winding (k : Nat) (terrain : List ℚ) (maxError : ℚ) (fuel : Nat)
    (hlen : terrain.length = (2 ^ k + 1) ^ 2) (hfuel : 2 * k + 1 ≤ fuel) :
    ∃ m tile mesh, New (2 ^ k + 1) = .ok m ∧ NewTile terrain m = .ok tile ∧
      GetMesh fuel tile maxError = .ok mesh ∧
      ∀ j, 3 * j + 2 < mesh.triangles.length →
        (mesh.triangle j).cross < 0 ∧ (mesh.triangle j).cross ≠ 0 ∧
        (mesh.triangle j).cross =
          ((mesh.triangle j).bx - (mesh.triangle j).ax) *
              ((mesh.triangle j).cy - (mesh.triangle j).ay) -
            ((mesh.triangle j).by_ - (mesh.triangle j).ay) *
              ((mesh.triangle j).cx - (mesh.triangle j).ax) := by
  obtain ⟨m, tile, hm, ht, hv, hvt, _, _, _⟩ := pipeline k terrain hlen
  obtain ⟨mesh, nV, hg, hrep, _, _⟩ := GetMesh_rep hvt maxError fuel hfuel
  refine ⟨m, tile, mesh, hm, ht, hg, ?_⟩
  intro j hj
  obtain ⟨t, hjt⟩ := hrep.getElem?_of_lt hj
  rw [hrep.triangle_eq hjt]
  obtain ⟨r, _, hs, _⟩ := emitted_spec k tile.errors maxError t (List.getElem?_mem hjt)
  have h1 := cross_eq_neg_legSq hs
  have h2 := hs.legSq_pos
  exact ⟨by omega, by omega, rfl⟩

/-- C16, instance: the `3 × 3` checkerboard with `maxError = 0`. -/
theorem getMesh_winding_witness :
    (checkerboard.length = (2 ^ 1 + 1) ^ 2 ∧ 2 * 1 + 1 ≤ 3) ∧
    ∃ m tile mesh, New (2 ^ 1 + 1) = .ok m ∧ NewTile checkerboard m = .ok tile ∧
      GetMesh 3 tile 0 = .ok mesh ∧
      ∀ j, 3 * j + 2 < mesh.triangles.length →
        (mesh.triangle j).cross < 0 ∧ (mesh.triangle j).cross ≠ 0 ∧
        (mesh.triangle j).cross =
          ((mesh.triangle j).bx - (mesh.triangle j).ax) *
              ((mesh.triangle j).cy - (mesh.triangle j).ay) -
            ((mesh.triangle j).by_ - (mesh.triangle j).ay) *
              ((mesh.triangle j).cx - (mesh.triangle j).ax) :=
  ⟨⟨by decide, by decide⟩, getMesh_winding 1 checkerboard 0 3 (by decide) (by decide)⟩

/-- C20. The output mesh tiles the grid square.  On a grid of side `2 ^ k + 1`, for every
terrain of length `gridSize²` and every `maxError`, `GetMesh` returns, and the areas
`|cross product| / 2` of its output triangles sum to exactly `(gridSize - 1)²`
(equivalently, the absolute cross products sum to `2 * (gridSize - 1)²`). -/
theorem getMesh_area (k : Nat) (terrain : List ℚ) (maxError : ℚ) (fuel : Nat)
    (hlen : terrain.length = (2 ^ k + 1) ^ 2) (hfuel : 2 * k + 1 ≤ fuel) :
    ∃ m tile mesh, New (2 ^ k + 1) = .ok m ∧ NewTile terrain m = .ok tile ∧
      GetMesh fuel tile maxError = .ok mesh ∧
      mesh.triangleList.length = mesh.triangles.length / 3 ∧
      (mesh.triangleList.map Tri.area).sum = ((m.gridSize : ℚ) - 1) ^ 2 ∧
      (mesh.triangleList.map (fun t => |t.cross|)).sum = 2 * (m.gridSize - 1) ^ 2 := by
  obtain ⟨m, tile, hm, ht, hv, hvt, _, _, _⟩ := pipeline k terrain hlen
  obtain ⟨mesh, nV, hg, hrep, _, _⟩ := GetMesh_rep hvt maxError fuel hfuel
  refine ⟨m, tile, mesh, hm, ht, hg, by simp [Mesh.triangleList], ?_⟩
  rw [hrep.triangleList_eq]
  have hsh : ∀ t ∈ emitted k tile.errors maxError, ∃ r, Shaped (2 ^ k) r t := by
    intro t ht'
    obtain ⟨r, _, hs, _⟩ := emitted_spec k tile.errors maxError t ht'
    exact ⟨r, hs⟩
  obtain ⟨s1, s2⟩ := sum_area_of_shaped _ hsh
  rw [s1, s2, emitted_legSq, hv.gridSize_eq]
  constructor
  · push_cast; ring
  · ring

/-- C20, instance: the `3 × 3` checkerboard with `maxError = 0`. -/
theorem getMesh_area_witness :
    (checkerboard.length = (2 ^ 1 + 1) ^ 2 ∧ 2 * 1 + 1 ≤ 3) ∧
    ∃ m tile mesh, New (2 ^ 1 + 1) = .ok m ∧ NewTile checkerboard m = .ok tile ∧
      GetMesh 3 tile 0 = .ok mesh ∧
      mesh.triangleList.length = mesh.triangles.length / 3 ∧
      (mesh.triangleList.map Tri.area).sum = ((m.gridSize : ℚ) - 1) ^ 2 ∧
      (mesh.triangleList.map (fun t => |t.cross|)).sum = 2 * (m.gridSize - 1) ^ 2 :=
  ⟨⟨by decide, by decide⟩, getMesh_area 1 checkerboard 0 3 (by decide) (by decide)⟩

/-! ## Recursion depth -/

theorem failsWith_iff {α : Type} (r : Go α) (f : Fault) :
    failsWith r f = true ↔ r = .error f := by
  cases r with
  | error e => simp [failsWith]
  | ok a => simp [failsWith]

/-- Where every triangle above the unit level splits, a traversal started `r` levels above
the unit triangles needs `r + 1` nested calls: any smaller budget runs out. -/
theorem countElements_outOfFuel {k : Nat} {t : Tile} (ht : ValidTile k t) (maxError : ℚ)
    (hall : AllSplit k t.errors maxError) (fuel r : Nat) (tri : Tri)
    (hs : Shaped (2 ^ k) r tri) (htab : Tabled k r tri) (hf : fuel ≤ r) (s : CountState) :
    countElements t maxError fuel tri s = .error .outOfFuel := by
  induction fuel generalizing r tri s with
  | zero => rfl
  | succ f ih =>
    obtain ⟨r', rfl⟩ : ∃ r', r = r' + 1 := ⟨r - 1, by omega⟩
    have hsp := hall r' tri hs htab
    simp only [countElements, splits_eq ht maxError hs, hsp, ok_bind, if_true]
    rw [ih r' tri.left hs.children.1 htab.split.1 (by omega)]
    rfl

theorem GetMesh_outOfFuel {k : Nat} {t : Tile} (ht : ValidTile k t) (maxError : ℚ)
    (hall : AllSplit k t.errors maxError) (fuel : Nat) (hf : fuel ≤ 2 * k) :
    GetMesh fuel t maxError = .error .outOfFuel := by
  have hmax : t.martini.gridSize - 1 = 2 ^ k := by rw [ht.martini.gridSize_eq]; ring
  have c1 := fun s => countElements_outOfFuel ht maxError hall fuel (2 * k) _
    (shaped_root_first k) (tabled_root_first k) hf s
  unfold GetMesh
  simp only [hmax, c1, error_bind]

theorem checkerboard_depth :
    failsWith (meshOf (1 + 1) 3 checkerboard 0) Fault.outOfFuel = true ∧
      returns (meshOf (2 * 1 + 1) 3 checkerboard 0) (fun _ => true) = true := by
  decide!

/-- C17 (as stated, refuted). On the `3 × 3` grid, `log2(gridSize-1) = 1`.  With the
checkerboard terrain and `maxError = 0`, `GetMesh` run with a budget of `1 + 1` nested
calls (the root call at depth 0 and its callees at depth 1) runs out of budget, while
with a budget of `3` it returns: the recursion reaches depth `2 > log2(gridSize-1)`. -/
theorem getMesh_depth_counterexample :
    Nat.log 2 (3 - 1) = 1 ∧
    meshOf (1 + 1) 3 checkerboard 0 = .error .outOfFuel ∧
    ∃ mesh, meshOf (2 * 1 + 1) 3 checkerboard 0 = .ok mesh := by
  obtain ⟨h1, h2⟩ := checkerboard_depth
  obtain ⟨mesh, hm, _⟩ := (returns_iff _ _).mp h2
  exact ⟨by simp [Nat.log], (failsWith_iff _ _).mp h1, mesh, hm⟩

/-- C17 (amended). On a grid of side `2 ^ k + 1`, so that `log2(gridSize-1) = k`, for
every terrain of length `gridSize²` and every `maxError` the traversals of `GetMesh`
terminate with recursion depth at most `2 * log2(gridSize-1)`: every budget of at least
`2 * k + 1` nested calls (depths `0..2k`) lets `GetMesh` return, always with the same
mesh.  The bound is attained: for negative `maxError` every budget of at most `2 * k`
nested calls runs out. -/
theorem getMesh_depth_bound (k : Nat) (terrain : List ℚ) (maxError : ℚ)
    (hlen : terrain.length = (2 ^ k + 1) ^ 2) :
    ∃ m tile mesh, New (2 ^ k + 1) = .ok m ∧ NewTile terrain m = .ok tile ∧
      Nat.log 2 (m.gridSize - 1).toNat = k ∧
      (∀ fuel, 2 * Nat.log 2 (m.gridSize - 1).toNat + 1 ≤ fuel →
        GetMesh fuel tile maxError = .ok mesh) ∧
      (maxError < 0 → ∀ fuel, fuel ≤ 2 * Nat.log 2 (m.gridSize - 1).toNat →
        GetMesh fuel tile maxError = .error .outOfFuel) := by
  obtain ⟨m, tile, hm, ht, hv, hvt, _, _, herr⟩ := pipeline k terrain hlen
  obtain ⟨mesh, nV, hg, _, _, _⟩ := GetMesh_rep hvt maxError (2 * k + 1) le_rfl
  have hlog : Nat.log 2 (m.gridSize - 1).toNat = k := by
    have : m.gridSize - 1 = ((2 ^ k : Nat) : Int) := by rw [hv.gridSize_eq]; push_cast; ring
    rw [this, Int.toNat_natCast]
    exact Nat.log_pow (by norm_num) k
  refine ⟨m, tile, mesh, hm, ht, hlog, ?_, ?_⟩
  · intro fuel hf
    rw [hlog] at hf
    rw [GetMesh_fuel hvt maxError fuel hf]
    exact hg
  · intro hneg fuel hf
    rw [hlog] at hf
    have hall : AllSplit k tile.errors maxError := by
      intro r t hs _
      unfold splitsP
      have h1 := hs.size_gt_one_iff.mpr (by omega)
      have h2 : maxError < valAt tile.errors (2 ^ k + 1) t.mx t.my := by
        rw [herr]
        exact lt_of_lt_of_le hneg (relaxAll_valAt_nonneg _ _ _ _ _ _ _)
      simp only [h1, decide_True, Bool.true_and, decide_eq_true_eq, gt_iff_lt]
      exact h2
    exact GetMesh_outOfFuel hvt maxError hall fuel hf

/-- C17 (amended), instance: the `3 × 3` checkerboard with `maxError = -1`. -/
theorem getMesh_depth_bound_witness :
    checkerboard.length = (2 ^ 1 + 1) ^ 2 ∧
    ∃ m tile mesh, New (2 ^ 1 + 1) = .ok m ∧ NewTile checkerboard m = .ok tile ∧
      Nat.log 2 (m.gridSize - 1).toNat = 1 ∧
      (∀ fuel, 2 * Nat.log 2 (m.gridSize - 1).toNat + 1 ≤ fuel →
        GetMesh fuel tile (-1) = .ok mesh) ∧
      ((-1 : ℚ) < 0 → ∀ fuel, fuel ≤ 2 * Nat.log 2 (m.gridSize - 1).toNat →
        GetMesh fuel tile (-1) = .error .outOfFuel) :=
  ⟨by decide, getMesh_depth_bound 1 checkerboard (-1) (by decide)⟩

/-! ## Which cells are hypotenuse midpoints -/

/-- A hypotenuse midpoint is never one of the four corners of the grid. -/
theorem Shaped.mid_not_corner {k r : Nat} {t : Tri} (hs : Shaped (2 ^ k) (r + 1) t) :
    ¬ GridCorner k (t.mx, t.my) := by
  obtain ⟨m1, m2, _, _⟩ := hs.apex_formula
  have hsz := hs.size_gt_one_iff.mpr (by omega)
  have rotx := hs.rotx
  have roty := hs.roty
  have b1 := hs.ax0
  have b2 := hs.ax1
  have b3 := hs.ay0
  have b4 := hs.ay1
  have b5 := hs.bx0
  have b6 := hs.bx1
  have b7 := hs.by0
  have b8 := hs.by1
  intro hc
  unfold GridCorner at hc
  simp only at hc
  have e1 : t.ax - t.cx = 0 := by omega
  have e2 : t.ay - t.cy = 0 := by omega
  rw [e1, e2] at hsz
  simp at hsz

/-- A lattice point of a hierarchy triangle that is not one of its corners is the
hypotenuse midpoint of a table triangle below it. -/
theorem mid_of_inTri (k : Nat) (p : Int × Int) (r : Nat) (t : Tri)
    (hs : Shaped (2 ^ k) r t) (htab : Tabled k r t) (hin : InTri t p.1 p.2)
    (hnc : p ∉ t.corners) :
    ∃ i, i < tableLen k ∧ (triangleOf (2 ^ k) i).mx = p.1 ∧ (triangleOf (2 ^ k) i).my = p.2 := by
  induction r generalizing t with
  | zero => exact absurd (inTri_unit hs hin) hnc
  | succ r ih =>
    by_cases hm : (t.mx, t.my) = p
    · obtain ⟨i, hi, _, rfl⟩ := htab.index
      exact ⟨i, hi, by rw [← hm], by rw [← hm]⟩
    · simp only [Tri.corners, List.mem_cons, List.mem_singleton, List.not_mem_nil, or_false,
        not_or] at hnc
      obtain ⟨na, nb, nc⟩ := hnc
      have hm' : p ≠ (t.mx, t.my) := fun h => hm h.symm
      rcases inTri_children hs hin with h | h
      · apply ih t.left hs.children.1 htab.split.1 h
        simp only [Tri.corners, Tri.left, List.mem_cons, List.mem_singleton, List.not_mem_nil,
          or_false, not_or]
        exact ⟨nc, na, hm'⟩
      · apply ih t.right hs.children.2 htab.split.2 h
        simp only [Tri.corners, Tri.right, List.mem_cons, List.mem_singleton, List.not_mem_nil,
          or_false, not_or]
        exact ⟨nb, nc, hm'⟩

/-- Every grid cell other than the four corners of the grid is the hypotenuse midpoint of a
table triangle. -/
theorem mid_cover (k : Nat) (p : Int × Int) (hp : InGrid k p) (hnc : ¬ GridCorner k p) :
    ∃ i, i < tableLen k ∧ (triangleOf (2 ^ k) i).mx = p.1 ∧ (triangleOf (2 ^ k) i).my = p.2 := by
  have hcor : ∀ x y : Int, (x = 0 ∨ x = 2 ^ k) → (y = 0 ∨ y = 2 ^ k) → p ≠ (x, y) := by
    intro x y hx hy h
    apply hnc
    rw [h]
    exact ⟨hx, hy⟩
  rcases inTri_root k hp with h | h
  · apply mid_of_inTri k p (2 * k) _ (shaped_root_first k) (tabled_root_first k) h
    simp only [Tri.corners, List.mem_cons, List.mem_singleton, List.not_mem_nil, or_false,
      not_or]
    exact ⟨hcor _ _ (Or.inl rfl) (Or.inl rfl), hcor _ _ (Or.inr rfl) (Or.inr rfl),
      hcor _ _ (Or.inr rfl) (Or.inl rfl)⟩
  · apply mid_of_inTri k p (2 * k) _ (shaped_root_second k) (tabled_root_second k) h
    simp only [Tri.corners, List.mem_cons, List.mem_singleton, List.not_mem_nil, or_false,
      not_or]
    exact ⟨hcor _ _ (Or.inr rfl) (Or.inr rfl), hcor _ _ (Or.inl rfl) (Or.inl rfl),
      hcor _ _ (Or.inl rfl) (Or.inr rfl)⟩

/-- The loop of `update` leaves alone every entry that is the midpoint cell of no table
triangle. -/
theorem relaxAll_getD_untouched (k : Nat) (terrain : List ℚ) (j n : Nat)
    (h : ∀ i, i < n →
      cellIx (2 ^ k + 1) (triangleOf (2 ^ k) i).mx (triangleOf (2 ^ k) i).my ≠ j)
    (e : List ℚ) : (relaxAll k terrain n e).getD j 0 = e.getD j 0 := by
  induction n generalizing e with
  | zero => rfl
  | succ n ih =>
    simp only [relaxAll]
    rw [ih (fun i hi => h i (by omega)), relax_getD_ne _ _ _ _ _ j (h n (by omega))]

theorem corner_untouched (k : Nat) (terrain : List ℚ) (p : Int × Int) (hc : GridCorner k p) :
    valAt (relaxAll k terrain (tableLen k) (List.replicate ((2 ^ k + 1) ^ 2) 0))
      (2 ^ k + 1) p.1 p.2 = 0 := by
  unfold valAt
  rw [relaxAll_getD_untouched, getD_replicate_zero]
  intro i hi heq
  obtain ⟨r, _, hs⟩ := table_shaped k i hi
  obtain ⟨a, b, c, d⟩ := hs.mid_bounds
  have hT : (0 : Int) ≤ 2 ^ k := by positivity
  have hp0 : 0 ≤ p.1 ∧ p.1 ≤ 2 ^ k ∧ 0 ≤ p.2 := by
    obtain ⟨h1 | h1, h2 | h2⟩ := hc <;> rw [h1, h2] <;> exact ⟨by omega, by omega, by omega⟩
  obtain ⟨ex, ey⟩ := cellIx_inj k a b c hp0.1 hp0.2.1 hp0.2.2 heq
  apply hs.mid_not_corner
  rw [ex, ey]
  exact hc

theorem table3_midpoints :
    returns (New 3) (fun m => decide (m.numTriangles = 6) &&
      (List.range 6).all (fun i => decide (((m.record i).mx, (m.record i).my) ≠ (0, 0)))) =
      true := by
  decide!

/-- C15 (as stated, refuted). On the `3 × 3` grid, `New` builds a table of 6 triangles, and
the corner cell `(0, 0)` is the hypotenuse midpoint of none of them. -/
theorem midpoint_coverage_counterexample :
    ∃ m, New 3 = .ok m ∧ m.numTriangles = 6 ∧
      ∀ i : Nat, (i : Int) < m.numTriangles →
        ¬ ((m.record i).mx = 0 ∧ (m.record i).my = 0) := by
  obtain ⟨m, hm, hp⟩ := (returns_iff _ _).mp table3_midpoints
  simp only [Bool.and_eq_true, decide_eq_true_eq, List.all_eq_true, List.mem_range, ne_eq,
    Prod.mk.injEq] at hp
  refine ⟨m, hm, hp.1, ?_⟩
  intro i hi
  rw [hp.1] at hi
  exact hp.2 i (by omega)

/-- C15 (amended). On a grid of side `2 ^ k + 1`, a grid cell is the hypotenuse midpoint
`((ax+bx)/2, (ay+by)/2)` of at least one triangle of the corner table built by `New`
exactly when it is not one of the four corners of the grid; so `update` writes the
`errors` entry of every cell other than the four corners, and leaves the entries of the
four corner cells at their initial value 0. -/
theorem midpoint_coverage (k : Nat) (terrain : List ℚ)
    (hlen : terrain.length = (2 ^ k + 1) ^ 2) :
    ∃ m tile, New (2 ^ k + 1) = .ok m ∧ NewTile terrain m = .ok tile ∧
      (∀ x y : Int, 0 ≤ x → x ≤ m.gridSize - 1 → 0 ≤ y → y ≤ m.gridSize - 1 →
        ((∃ i : Nat, (i : Int) < m.numTriangles ∧
            (m.record i).mx = x ∧ (m.record i).my = y) ↔
          ¬ ((x = 0 ∨ x = m.gridSize - 1) ∧ (y = 0 ∨ y = m.gridSize - 1)))) ∧
      (∀ x y : Int, (x = 0 ∨ x = m.gridSize - 1) → (y = 0 ∨ y = m.gridSize - 1) →
        valAt tile.errors m.gridSize x y = 0) := by
  obtain ⟨m, tile, hm, ht, hv, hvt, _, _, herr⟩ := pipeline k terrain hlen
  have hG : m.gridSize - 1 = 2 ^ k := by rw [hv.gridSize_eq]; ring
  refine ⟨m, tile, hm, ht, ?_, ?_⟩
  · intro x y x0 x1 y0 y1
    rw [hG] at x1 y1 ⊢
    constructor
    · rintro ⟨i, hi, rfl, rfl⟩ hc
      rw [hv.numTriangles_eq] at hi
      have hi' : i < tableLen k := by exact_mod_cast hi
      obtain ⟨r, _, hs⟩ := table_shaped k i hi'
      rw [hv.record_eq hi'] at hc
      exact hs.mid_not_corner hc
    · intro hnc
      obtain ⟨i, hi, e1, e2⟩ := mid_cover k (x, y) ⟨x0, x1, y0, y1⟩ hnc
      refine ⟨i, by rw [hv.numTriangles_eq]; exact_mod_cast hi, ?_, ?_⟩
      · rw [hv.record_eq hi]; exact e1
      · rw [hv.record_eq hi]; exact e2
  · intro x y hx hy
    rw [hG] at hx hy
    rw [herr, hv.gridSize_eq]
    exact corner_untouched k terrain (x, y) ⟨hx, hy⟩

/-- C15 (amended), instance: the `3 × 3` checkerboard. -/
theorem midpoint_coverage_witness :
    checkerboard.length = (2 ^ 1 + 1) ^ 2 ∧
    ∃ m tile, New (2 ^ 1 + 1) = .ok m ∧ NewTile checkerboard m = .ok tile ∧
      (∀ x y : Int, 0 ≤ x → x ≤ m.gridSize - 1 → 0 ≤ y → y ≤ m.gridSize - 1 →
        ((∃ i : Nat, (i : Int) < m.numTriangles ∧
            (m.record i).mx = x ∧ (m.record i).my = y) ↔
          ¬ ((x = 0 ∨ x = m.gridSize - 1) ∧ (y = 0 ∨ y = m.gridSize - 1)))) ∧
      (∀ x y : Int, (x = 0 ∨ x = m.gridSize - 1) → (y = 0 ∨ y = m.gridSize - 1) →
        valAt tile.errors m.gridSize x y = 0) :=
  ⟨by decide, midpoint_coverage 1 checkerboard (by decide)⟩

/-! ## `New` in 64-bit arithmetic -/

theorem wrap64_of_range {x : Int} (h1 : -2 ^ 63 ≤ x) (h2 : x < 2 ^ 63) : wrap64 x = x := by
  unfold wrap64
  rw [Int.emod_eq_of_lt (by omega) (by omega)]
  omega

/-- Values of `wrap64` at the edges of the `int` range. -/
theorem wrap64_examples :
    wrap64 (2 ^ 63 - 1) = 2 ^ 63 - 1 ∧ wrap64 (2 ^ 63) = -2 ^ 63 ∧
    wrap64 (-2 ^ 63) = -2 ^ 63 ∧ wrap64 (-2 ^ 63 - 1) = 2 ^ 63 - 1 ∧
    wrap64 (2 ^ 64) = 0 ∧ wrap64 (-1) = -1 := by
  norm_num [wrap64]

theorem wrap64_add_mul (x y : Int) : wrap64 (x + 2 ^ 64 * y) = wrap64 x := by
  unfold wrap64
  have : x + 2 ^ 64 * y + 2 ^ 63 = x + 2 ^ 63 + 2 ^ 64 * y := by ring
  rw [this, Int.add_mul_emod_self_left]

theorem wrap64_mul_pow (y : Int) : wrap64 (2 ^ 64 * y) = 0 := by
  have := wrap64_add_mul 0 y
  rw [zero_add] at this
  rw [this]
  decide

theorem int_land_one (n : Nat) : Int.land (n : Int) 1 = ((n &&& 1 : Nat) : Int) := rfl

theorem half_natCast (n : Nat) : half (n : Int) = ((n >>> 1 : Nat) : Int) := rfl

theorem rootOf64_eq (T : Int) (n : Nat) : rootOf64 T (n : Int) = rootOf T n := by
  unfold rootOf64 rootOf
  rw [int_land_one]
  simp only [ne_eq, Nat.cast_eq_zero]

theorem bisect64_eq (n : Nat) (t : Tri) (hax : -2 ^ 63 ≤ t.ax + t.bx ∧ t.ax + t.bx < 2 ^ 63)
    (hay : -2 ^ 63 ≤ t.ay + t.by_ ∧ t.ay + t.by_ < 2 ^ 63) :
    bisect64 (n : Int) t = bisect n t := by
  unfold bisect64 bisect
  rw [int_land_one, wrap64_of_range hax.1 hax.2, wrap64_of_range hay.1 hay.2]
  simp only [ne_eq, Nat.cast_eq_zero, Tri.mx, Tri.my]

theorem descend64_eq {k : Nat} (hk : k ≤ 61) (fuel id r : Nat) (t : Tri)
    (h : Shaped (2 ^ k) r t) (hr : Nat.log 2 id ≤ r) :
    descend64 fuel (id : Int) t = descend fuel id t := by
  have hT : (2 : Int) ^ k ≤ 2 ^ 61 := pow_le_pow_right₀ (by norm_num) hk
  induction fuel generalizing id r t with
  | zero => rfl
  | succ n ih =>
    by_cases hid : id > 1
    · have hid' : (id : Int) > 1 := by exact_mod_cast hid
      have hlog : Nat.log 2 id = Nat.log 2 (id / 2) + 1 :=
        Nat.log_of_one_lt_of_le (by norm_num) (by omega)
      obtain ⟨r', rfl⟩ : ∃ r', r = r' + 1 := ⟨r - 1, by omega⟩
      have b1 := h.ax0
      have b2 := h.ax1
      have b3 := h.bx0
      have b4 := h.bx1
      have b5 := h.ay0
      have b6 := h.ay1
      have b7 := h.by0
      have b8 := h.by1
      have hb : Shaped (2 ^ k) r' (bisect id t) := by
        rcases bisect_eq id t with e | e <;> rw [e]
        · exact h.children.1
        · exact h.children.2
      simp only [descend64, descend, hid, hid', if_true, half_natCast]
      rw [bisect64_eq id t ⟨by omega, by omega⟩ ⟨by omega, by omega⟩]
      refine ih (id >>> 1) r' _ hb ?_
      rw [Nat.shiftRight_eq_div_pow, pow_one]; omega
    · have hid' : ¬ ((id : Int) > 1) := by
        intro hc; exact hid (by exact_mod_cast hc)
      simp only [descend64, descend, hid, hid', if_false]

theorem triangleOf64_eq {k : Nat} (hk : k ≤ 30) (i : Nat) (hi : i < tableLen k) :
    triangleOf64 (2 ^ k) (i : Int) = triangleOf (2 ^ k) i := by
  have hlt : i + 2 < 2 ^ (2 * k + 1) := (tableLen_lt_iff k i).mp hi
  have hdep : depthOf i < 2 * k := depthOf_lt hlt
  have hp : 2 ^ (2 * k + 1) ≤ 2 ^ 61 := Nat.pow_le_pow_right (by norm_num) (by omega)
  have hw : wrap64 ((i : Int) + 2) = ((i + 2 : Nat) : Int) := by
    rw [wrap64_of_range (by omega) (by omega)]; rfl
  unfold triangleOf64 triangleOf
  simp only [hw, Int.toNat_natCast, half_natCast, rootOf64_eq]
  refine descend64_eq (by omega) _ _ (2 * k) _ (shaped_rootOf k _) ?_
  rw [Nat.shiftRight_eq_div_pow, pow_one]
  unfold depthOf at hdep
  omega

theorem storeTriangle64_eq {k : Nat} (hk : k ≤ 30) (i : Nat) (hi : i < tableLen k)
    (coords : List Int) :
    storeTriangle64 (2 ^ k) i coords = storeTriangle (2 ^ k) i coords := by
  have hlt : i + 2 < 2 ^ (2 * k + 1) := (tableLen_lt_iff k i).mp hi
  have hp : 2 ^ (2 * k + 1) ≤ 2 ^ 61 := Nat.pow_le_pow_right (by norm_num) (by omega)
  have hw : wrap64 ((i : Int) * 4) = (i : Int) * 4 := wrap64_of_range (by omega) (by omega)
  unfold storeTriangle64 storeTriangle
  simp only [hw, triangleOf64_eq hk i hi]
  rw [wrap64_of_range (x := (i : Int) * 4 + 0) (by omega) (by omega),
    wrap64_of_range (x := (i : Int) * 4 + 1) (by omega) (by omega),
    wrap64_of_range (x := (i : Int) * 4 + 2) (by omega) (by omega),
    wrap64_of_range (x := (i : Int) * 4 + 3) (by omega) (by omega)]

theorem fillCoords64_eq {k : Nat} (hk : k ≤ 30) (n i : Nat) (hi : i + n ≤ tableLen k)
    (coords : List Int) :
    fillCoords64 (2 ^ k) n i coords = fillCoords (2 ^ k) n i coords := by
  induction n generalizing i coords with
  | zero => rfl
  | succ n ih =>
    rw [fillCoords64, fillCoords, storeTriangle64_eq hk i (by omega)]
    cases hst : storeTriangle (2 ^ k) i coords with
    | error e => simp only [error_bind]
    | ok c =>
      simp only [ok_bind]
      exact ih (i + 1) (by omega) c

theorem make64_eq_make {lim n : Int} (h0 : 0 ≤ n) (hl : n ≤ lim) : make64 lim n = make n := by
  unfold make64 make
  have h1 : ¬ (n < 0 ∨ lim < n) := by omega
  have h2 : ¬ n < 0 := by omega
  rw [if_neg h1, if_neg h2]

theorem make64_error {lim n : Int} (h : n < 0 ∨ lim < n) :
    make64 lim n = .error .lengthOutOfRange := by
  unfold make64
  rw [if_pos h]

/-- When the size test passes and one of the two allocations is refused, `New` fails. -/
theorem New64_error_of_make (lim g : Int)
    (hland : Int.land (wrap64 (g - 1)) (wrap64 (wrap64 (g - 1) - 1)) = 0)
    (hmk : (wrap64 (g * g) < 0 ∨ lim < wrap64 (g * g)) ∨
      (wrap64 (wrap64 (wrap64 (wrap64 (wrap64 (g - 1) * wrap64 (g - 1)) * 2) - 2) * 4) < 0 ∨
        lim < wrap64 (wrap64 (wrap64 (wrap64 (wrap64 (g - 1) * wrap64 (g - 1)) * 2) - 2) * 4))) :
    ∃ e, New64 lim g = .error e := by
  unfold New64
  simp only [hland, ne_eq, not_true_eq_false, if_false]
  rcases hmk with h | h
  · rw [make64_error h]
    exact ⟨_, rfl⟩
  · cases make64 lim (wrap64 (g * g)) with
    | error e => exact ⟨e, rfl⟩
    | ok idx =>
      simp only [ok_bind]
      rw [make64_error h]
      exact ⟨_, rfl⟩

theorem New64_error_of_land (lim g : Int)
    (hland : Int.land (wrap64 (g - 1)) (wrap64 (wrap64 (g - 1) - 1)) ≠ 0) :
    New64 lim g = .error .invalidGridSize := by
  unfold New64
  simp only [hland, ne_eq, not_false_eq_true, if_true]

/-- On a grid of side `2 ^ k + 1` with `k ≤ 30` no product of `New` wraps; when `make`
grants both arrays, the 64-bit run is the run over the mathematical integers. -/
theorem New64_eq_New {k : Nat} (hk : k ≤ 30) (lim : Int)
    (h1 : ((2 : Int) ^ k + 1) ^ 2 ≤ lim) (h2 : 4 * (2 * ((2 : Int) ^ k) ^ 2 - 2) ≤ lim) :
    New64 lim (2 ^ k + 1) = New (2 ^ k + 1) := by
  have hT1 : (1 : Int) ≤ 2 ^ k := by
    have : (0 : Int) < 2 ^ k := by positivity
    omega
  have hT2 : (2 : Int) ^ k ≤ 2 ^ 30 := pow_le_pow_right₀ (by norm_num) hk
  have hS1 : (1 : Int) ≤ 2 ^ k * 2 ^ k := by nlinarith
  have hS2 : (2 : Int) ^ k * 2 ^ k ≤ 2 ^ 60 := by nlinarith
  have eT : (2 : Int) ^ k + 1 - 1 = 2 ^ k := by ring
  have eG : ((2 : Int) ^ k + 1) * (2 ^ k + 1) = 2 ^ k * 2 ^ k + 2 * 2 ^ k + 1 := by ring
  have w1 : wrap64 ((2 : Int) ^ k) = 2 ^ k := wrap64_of_range (by omega) (by omega)
  have w2 : wrap64 ((2 : Int) ^ k - 1) = 2 ^ k - 1 := wrap64_of_range (by omega) (by omega)
  have w3 : wrap64 ((2 : Int) ^ k * 2 ^ k) = 2 ^ k * 2 ^ k :=
    wrap64_of_range (by omega) (by omega)
  have w4 : wrap64 ((2 : Int) ^ k * 2 ^ k * 2) = 2 ^ k * 2 ^ k * 2 :=
    wrap64_of_range (by omega) (by omega)
  have w5 : wrap64 ((2 : Int) ^ k * 2 ^ k * 2 - 2) = 2 ^ k * 2 ^ k * 2 - 2 :=
    wrap64_of_range (by omega) (by omega)
  have w6 : wrap64 ((2 : Int) ^ k * 2 ^ k * 2 - 2 - 2 ^ k * 2 ^ k) =
      2 ^ k * 2 ^ k * 2 - 2 - 2 ^ k * 2 ^ k := wrap64_of_range (by omega) (by omega)
  have w7 : wrap64 (((2 : Int) ^ k + 1) * (2 ^ k + 1)) = (2 ^ k + 1) * (2 ^ k + 1) := by
    rw [eG]; exact wrap64_of_range (by omega) (by omega)
  have w8 : wrap64 (((2 : Int) ^ k * 2 ^ k * 2 - 2) * 4) = (2 ^ k * 2 ^ k * 2 - 2) * 4 :=
    wrap64_of_range (by omega) (by omega)
  have m1 : make64 lim (((2 : Int) ^ k + 1) * (2 ^ k + 1)) =
      make (((2 : Int) ^ k + 1) * (2 ^ k + 1)) :=
    make64_eq_make (by rw [eG]; omega) (by rw [← sq]; exact h1)
  have m2 : make64 lim (((2 : Int) ^ k * 2 ^ k * 2 - 2) * 4) =
      make (((2 : Int) ^ k * 2 ^ k * 2 - 2) * 4) :=
    make64_eq_make (by omega) (by
      have : ((2 : Int) ^ k * 2 ^ k * 2 - 2) * 4 = 4 * (2 * ((2 : Int) ^ k) ^ 2 - 2) := by ring
      rw [this]; exact h2)
  have hn : ((2 : Int) ^ k * 2 ^ k * 2 - 2).toNat = tableLen k := by
    rw [← tableLen_cast k]; simp
  have hfc : ∀ c, fillCoords64 (2 ^ k) (tableLen k) 0 c = fillCoords (2 ^ k) (tableLen k) 0 c :=
    fun c => fillCoords64_eq hk _ _ (by omega) c
  unfold New64 New
  simp only [eT, w1, w2, w3, w4, w5, w6, w7, w8, m1, m2, hn, hfc]

theorem ldiff_self (n : Nat) : Nat.ldiff n n = 0 := by
  apply Nat.eq_of_testBit_eq
  intro i
  simp [Nat.testBit_ldiff]

theorem New64_error_one (lim : Int) : ∃ e, New64 lim 1 = .error e := by
  have a1 : wrap64 ((1 : Int) - 1) = 0 := by norm_num [wrap64]
  have a2 : wrap64 ((0 : Int) - 1) = -1 := by norm_num [wrap64]
  have a3 : wrap64 (wrap64 (wrap64 (wrap64 ((0 : Int) * 0) * 2) - 2) * 4) = -8 := by
    norm_num [wrap64]
  apply New64_error_of_make lim 1
  · rw [a1, a2]; decide!
  · rw [a1, a3]; exact Or.inr (Or.inl (by norm_num))

theorem New64_error_min_succ (lim : Int) : ∃ e, New64 lim (-2 ^ 63 + 1) = .error e := by
  have a1 : wrap64 ((-2 ^ 63 + 1 : Int) - 1) = -2 ^ 63 := by norm_num [wrap64]
  have a2 : wrap64 ((-2 ^ 63 : Int) - 1) = 2 ^ 63 - 1 := by norm_num [wrap64]
  have a3 : wrap64 (wrap64 (wrap64 (wrap64 ((-2 ^ 63 : Int) * -2 ^ 63) * 2) - 2) * 4) = -8 := by
    norm_num [wrap64]
  have hl : Int.land (-2 ^ 63) (2 ^ 63 - 1) = 0 := by
    have e1 : (-2 ^ 63 : Int) = Int.negSucc (2 ^ 63 - 1) := by norm_num [Int.negSucc_eq]
    have e2 : (2 ^ 63 - 1 : Int) = Int.ofNat (2 ^ 63 - 1) := by norm_num
    rw [e1, e2]
    show ((Nat.ldiff (2 ^ 63 - 1) (2 ^ 63 - 1) : Nat) : Int) = 0
    rw [ldiff_self]; rfl
  apply New64_error_of_make lim (-2 ^ 63 + 1)
  · rw [a1, a2]; exact hl
  · rw [a1, a3]; exact Or.inr (Or.inl (by norm_num))

theorem New64_error_min (lim : Int) : ∃ e, New64 lim (-2 ^ 63) = .error e := by
  have a1 : wrap64 ((-2 ^ 63 : Int) - 1) = 2 ^ 63 - 1 := by norm_num [wrap64]
  have a2 : wrap64 ((2 ^ 63 - 1 : Int) - 1) = 2 ^ 63 - 1 - 1 := by norm_num [wrap64]
  refine ⟨_, New64_error_of_land lim (-2 ^ 63) ?_⟩
  rw [a1, a2]
  intro h
  rcases (int_land_pred _).mp h with h0 | ⟨k, hk⟩
  · norm_num at h0
  · rcases k with _ | k
    · norm_num at hk
    · rw [pow_succ] at hk
      omega

/-- From `tileSize = 2 ^ 31` on, `numTriangles * 4` wraps to `-8` and the allocation of
`coords` panics. -/
theorem New64_error_of_large (lim : Int) (j : Nat) (h31 : 31 ≤ j) (h62 : j ≤ 62) :
    ∃ e, New64 lim (2 ^ j + 1) = .error e := by
  have hT1 : (1 : Int) ≤ 2 ^ j := by
    have : (0 : Int) < 2 ^ j := by positivity
    omega
  have hT2 : (2 : Int) ^ j ≤ 2 ^ 62 := pow_le_pow_right₀ (by norm_num) h62
  have eT : (2 : Int) ^ j + 1 - 1 = 2 ^ j := by ring
  have w1 : wrap64 ((2 : Int) ^ j) = 2 ^ j := wrap64_of_range (by omega) (by omega)
  have w2 : wrap64 ((2 : Int) ^ j - 1) = 2 ^ j - 1 := wrap64_of_range (by omega) (by omega)
  have hland : Int.land ((2 : Int) ^ j) (2 ^ j - 1) = 0 :=
    (int_land_pred _).mpr (Or.inr ⟨j, rfl⟩)
  apply New64_error_of_make lim (2 ^ j + 1) (by rw [eT, w1, w2]; exact hland)
  refine Or.inr (Or.inl ?_)
  rw [eT, w1]
  rcases Nat.eq_or_lt_of_le h31 with h | h
  · subst h
    have a3 : wrap64 (wrap64 (wrap64 (wrap64 ((2 : Int) ^ 31 * 2 ^ 31) * 2) - 2) * 4) = -8 := by
      norm_num [wrap64]
    rw [a3]; norm_num
  · obtain ⟨d, rfl⟩ : ∃ d, j = 32 + d := ⟨j - 32, by omega⟩
    have : (2 : Int) ^ (32 + d) * 2 ^ (32 + d) = 2 ^ 64 * (2 ^ d * 2 ^ d) := by
      rw [pow_add]; ring
    have a3 : wrap64 (wrap64 (wrap64 ((0 : Int) * 2) - 2) * 4) = -8 := by
      norm_num [wrap64]
    rw [this, wrap64_mul_pow, a3]; norm_num

/-- C9 and C10, shared: in 64-bit arithmetic, `New` returns exactly on the sides `2 ^ k + 1`
whose two arrays `make` grants. -/
theorem New64_ok_iff (lim g : Int) (hlim : lim < 2 ^ 63) (hg0 : -2 ^ 63 ≤ g)
    (hg1 : g < 2 ^ 63) :
    (∃ m, New64 lim g = .ok m) ↔
      ∃ k : Nat, g = 2 ^ k + 1 ∧ ((2 : Int) ^ k + 1) ^ 2 ≤ lim ∧
        4 * (2 * ((2 : Int) ^ k) ^ 2 - 2) ≤ lim := by
  have hk30 : ∀ k : Nat, 4 * (2 * ((2 : Int) ^ k) ^ 2 - 2) ≤ lim → k ≤ 30 := by
    intro k h
    by_contra hc
    have h31 : (2 : Int) ^ 31 ≤ 2 ^ k := pow_le_pow_right₀ (by norm_num) (by omega)
    have : (2 : Int) ^ 31 * 2 ^ 31 ≤ 2 ^ k * 2 ^ k := by nlinarith
    have e : ((2 : Int) ^ k) ^ 2 = 2 ^ k * 2 ^ k := by ring
    rw [e] at h
    omega
  constructor
  · rintro ⟨m, hm⟩
    by_contra hne
    have herr : ∃ e, New64 lim g = .error e := by
      rcases eq_or_lt_of_le hg0 with h | h
      · rw [← h]; exact New64_error_min lim
      rcases eq_or_lt_of_le (show -2 ^ 63 + 1 ≤ g by omega) with h | h
      · rw [← h]; exact New64_error_min_succ lim
      have w1 : wrap64 (g - 1) = g - 1 := wrap64_of_range (by omega) (by omega)
      have w2 : wrap64 (g - 1 - 1) = g - 1 - 1 := wrap64_of_range (by omega) (by omega)
      by_cases hland : Int.land (g - 1) (g - 1 - 1) = 0
      · rcases (int_land_pred _).mp hland with h0 | ⟨j, hj⟩
        · have : g = 1 := by omega
          rw [this]; exact New64_error_one lim
        · have hgj : g = 2 ^ j + 1 := by omega
          have hj62 : j ≤ 62 := by
            by_contra hc
            have : (2 : Int) ^ 63 ≤ 2 ^ j := pow_le_pow_right₀ (by norm_num) (by omega)
            omega
          by_cases hj30 : j ≤ 30
          · have hT1 : (1 : Int) ≤ 2 ^ j := by
              have : (0 : Int) < 2 ^ j := by positivity
              omega
            have hT2 : (2 : Int) ^ j ≤ 2 ^ 30 := pow_le_pow_right₀ (by norm_num) hj30
            have hS1 : (1 : Int) ≤ 2 ^ j * 2 ^ j := by nlinarith
            have hS2 : (2 : Int) ^ j * 2 ^ j ≤ 2 ^ 60 := by nlinarith
            have hsz : lim < ((2 : Int) ^ j + 1) ^ 2 ∨
                lim < 4 * (2 * ((2 : Int) ^ j) ^ 2 - 2) := by
              by_contra hc
              push_neg at hc
              exact hne ⟨j, hgj, hc.1, hc.2⟩
            have e1 : ((2 : Int) ^ j + 1) ^ 2 = 2 ^ j * 2 ^ j + 2 * 2 ^ j + 1 := by ring
            have e2 : 4 * (2 * ((2 : Int) ^ j) ^ 2 - 2) = (2 ^ j * 2 ^ j * 2 - 2) * 4 := by ring
            have eG : g * g = 2 ^ j * 2 ^ j + 2 * 2 ^ j + 1 := by rw [hgj]; ring
            rw [e1, e2] at hsz
            apply New64_error_of_make lim g (by rw [w1, w2]; exact hland)
            rw [w1, hj]
            rw [wrap64_of_range (x := (2 : Int) ^ j * 2 ^ j) (by omega) (by omega),
              wrap64_of_range (x := (2 : Int) ^ j * 2 ^ j * 2) (by omega) (by omega),
              wrap64_of_range (x := (2 : Int) ^ j * 2 ^ j * 2 - 2) (by omega) (by omega),
              wrap64_of_range (x := ((2 : Int) ^ j * 2 ^ j * 2 - 2) * 4) (by omega) (by omega),
              eG,
              wrap64_of_range (x := (2 : Int) ^ j * 2 ^ j + 2 * 2 ^ j + 1) (by omega)
                (by omega)]
            rcases hsz with h | h
            · exact Or.inl (Or.inr h)
            · exact Or.inr (Or.inr h)
          · rw [hgj]
            exact New64_error_of_large lim j (by omega) hj62
      · exact ⟨_, New64_error_of_land lim g (by rw [w1, w2]; exact hland)⟩
    obtain ⟨e, he⟩ := herr
    rw [hm] at he
    cases he
  · rintro ⟨k, rfl, h1, h2⟩
    obtain ⟨m, hm, _⟩ := New_pow k
    exact ⟨m, by rw [New64_eq_New (hk30 k h2) lim h1 h2]; exact hm⟩

/-! ## `float64` values -/

theorem pow2_eq (e : Int) : pow2 e = (2 : ℚ) ^ e := by
  unfold pow2
  split
  · rename_i h
    obtain ⟨n, rfl⟩ := Int.eq_ofNat_of_zero_le h
    simp
  · rename_i h
    obtain ⟨n, hn⟩ : ∃ n : Nat, -e = n := Int.eq_ofNat_of_zero_le (by omega)
    have : e = -(n : Int) := by omega
    subst this
    simp [zpow_neg]

theorem bitLen_le_of_lt (f n E : Nat) (h : n < 2 ^ E) : bitLen f n ≤ E := by
  induction f generalizing n E with
  | zero => simp [bitLen]
  | succ f ih =>
    simp only [bitLen]
    split
    · omega
    · rename_i hn
      rcases E with _ | E
      · simp at h; omega
      · have := ih (n / 2) E (by rw [pow_succ] at h; omega)
        omega

theorem ulpExp_ge (a : ℚ) : -1074 ≤ ulpExp a := by
  unfold ulpExp
  have := le_max_right ((bitLen 2200 ⌊a * 2 ^ 1074⌋.toNat : Int) - 53) 0
  omega

theorem ulpExp_le {a : ℚ} {e : Int} (ha : 0 ≤ a) (he : -1074 ≤ e)
    (h : a < 2 ^ (e + 53)) : ulpExp a ≤ e := by
  obtain ⟨E, hE⟩ : ∃ E : Nat, e + 1127 = E := Int.eq_ofNat_of_zero_le (by omega)
  have h1 : a * 2 ^ 1074 < ((2 ^ E : Int) : ℚ) := by
    have : ((2 ^ E : Int) : ℚ) = 2 ^ (e + 53) * 2 ^ 1074 := by
      push_cast
      rw [← zpow_natCast, ← hE]
      rw [show e + 1127 = (e + 53) + ((1074 : Nat) : Int) by push_cast; ring,
        zpow_add₀ (by norm_num), zpow_natCast]
    rw [this]
    exact mul_lt_mul_of_pos_right h (by positivity)
  have h2 : ⌊a * 2 ^ 1074⌋ < (2 ^ E : Int) := Int.floor_lt.mpr h1
  have h3 : 0 ≤ ⌊a * 2 ^ 1074⌋ := Int.floor_nonneg.mpr (by positivity)
  have h4 : ⌊a * 2 ^ 1074⌋.toNat < 2 ^ E := by
    have : ((⌊a * 2 ^ 1074⌋.toNat : Nat) : Int) < ((2 ^ E : Nat) : Int) := by
      rw [Int.toNat_of_nonneg h3]; push_cast; exact h2
    exact Int.ofNat_lt.mp this
  have h5 := bitLen_le_of_lt 2200 _ E h4
  unfold ulpExp
  have h6 : max ((bitLen 2200 ⌊a * 2 ^ 1074⌋.toNat : Int) - 53) 0 ≤ (E : Int) - 53 := by
    apply max_le <;> omega
  omega

theorem roundEven_intCast (z : Int) : roundEven (z : ℚ) = z := by
  unfold roundEven
  simp

/-- Rounding leaves every `float64` number unchanged. -/
theorem F64.round_of_rep {q : ℚ} (h : F64.Rep q) : F64.round q = .fin q := by
  obtain ⟨m, er, hm, h1, h2, rfl⟩ := h
  have hpos : (0 : ℚ) < 2 ^ er := by positivity
  have hmq : |(m : ℚ)| < 2 ^ 53 := by
    have : ((|m| : Int) : ℚ) < ((2 ^ 53 : Int) : ℚ) := by exact_mod_cast hm
    simpa using this
  have habs : |(m : ℚ) * 2 ^ er| = |(m : ℚ)| * 2 ^ er := by
    rw [abs_mul, abs_of_pos hpos]
  have ha : |(m : ℚ) * 2 ^ er| < 2 ^ (er + 53) := by
    rw [habs, zpow_add₀ (by norm_num), mul_comm]
    exact mul_lt_mul_of_pos_left (by exact_mod_cast hmq) hpos
  have he := ulpExp_le (abs_nonneg _) h1 ha
  have hg := ulpExp_ge |(m : ℚ) * 2 ^ er|
  have hbig : |(m : ℚ) * 2 ^ er| < 2 ^ 1024 := by
    rw [habs]
    have h971 : (2 : ℚ) ^ er ≤ 2 ^ (971 : Int) := zpow_le_zpow_right₀ (by norm_num) h2
    calc |(m : ℚ)| * 2 ^ er ≤ |(m : ℚ)| * 2 ^ (971 : Int) :=
          mul_le_mul_of_nonneg_left h971 (abs_nonneg _)
      _ < 2 ^ 53 * 2 ^ (971 : Int) := mul_lt_mul_of_pos_right hmq (by positivity)
      _ = 2 ^ 1024 := by norm_num
  unfold F64.round
  simp only
  generalize ulpExp |(m : ℚ) * 2 ^ er| = e at he hg
  obtain ⟨d, hd⟩ : ∃ d : Nat, er - e = d := Int.eq_ofNat_of_zero_le (by omega)
  have her : er = e + d := by omega
  have hq : (m : ℚ) * 2 ^ er / pow2 e = ((m * 2 ^ d : Int) : ℚ) := by
    rw [pow2_eq, her, zpow_add₀ (by norm_num), zpow_natCast]
    have : (2 : ℚ) ^ e ≠ 0 := by positivity
    push_cast
    field_simp
    ring
  have hr : ((m * 2 ^ d : Int) : ℚ) * pow2 e = (m : ℚ) * 2 ^ er := by
    rw [pow2_eq, her, zpow_add₀ (by norm_num), zpow_natCast]
    push_cast
    ring
  rw [hq, roundEven_intCast, hr]
  obtain ⟨b1, b2⟩ := abs_lt.mp hbig
  rw [if_neg (by linarith), if_neg (by linarith)]

theorem F64.rep_zero : F64.Rep 0 := ⟨0, 0, by norm_num, by norm_num, by norm_num, by simp⟩

/-- Doubling a `float64` number gives a `float64` number unless it overflows. -/
theorem F64.rep_double {c : ℚ} (h : F64.Rep c) (hb : |c + c| < 2 ^ 1024) : F64.Rep (c + c) := by
  obtain ⟨m, e, hm, h1, h2, rfl⟩ := h
  by_cases he : e < 971
  · refine ⟨m, e + 1, hm, by omega, by omega, ?_⟩
    rw [zpow_add_one₀ (by norm_num)]; ring
  · have he' : e = 971 := by omega
    subst he'
    refine ⟨2 * m, 971, ?_, by norm_num, by norm_num, by push_cast; ring⟩
    have e0 : (2 : ℚ) ^ (971 : Int) = 2 ^ 971 := zpow_natCast 2 971
    have e1 : (m : ℚ) * 2 ^ (971 : Int) + m * 2 ^ (971 : Int) = ((2 * m : Int) : ℚ) * 2 ^ 971 := by
      rw [e0]; push_cast; ring
    rw [e1, abs_mul, abs_of_pos (by positivity : (0 : ℚ) < 2 ^ 971)] at hb
    have h3 : |((2 * m : Int) : ℚ)| < 2 ^ 53 := by
      by_contra hc
      push_neg at hc
      have : (2 : ℚ) ^ 53 * 2 ^ 971 ≤ |((2 * m : Int) : ℚ)| * 2 ^ 971 :=
        mul_le_mul_of_nonneg_right hc (by positivity)
      norm_num at this hb
      linarith
    have : ((|2 * m| : Int) : ℚ) < ((2 ^ 53 : Int) : ℚ) := by
      push_cast; push_cast at h3; exact h3
    exact_mod_cast this

/-- Values of `F64.round` at the edges of the format: ties go to the even neighbour (down
at `1 + 2^-53`, up at `1 + 3 * 2^-53`), `1/3` goes to the nearest of its two neighbours,
subnormals are multiples of `2^-1074`, and rounding overflows exactly from
`MaxFloat64 + 2^970` on. -/
theorem F64.round_examples :
    F64.round (1 + 1 / 2 ^ 53) = .fin 1 ∧
    F64.round (1 + 3 / 2 ^ 53) = .fin (1 + 2 / 2 ^ 52) ∧
    F64.round (1 / 3) = .fin (6004799503160661 / 2 ^ 54) ∧
    F64.round (3 / 2 ^ 1075) = .fin (2 / 2 ^ 1074) ∧
    F64.round (1 / 2 ^ 1075) = .fin 0 ∧
    F64.round maxFloat64 = .fin maxFloat64 ∧
    F64.round (maxFloat64 + 2 ^ 970 - 1) = .fin maxFloat64 ∧
    F64.round (maxFloat64 + 2 ^ 970) = .pinf ∧
    F64.round (-(2 ^ 1024)) = .ninf := by
  decide!

/-! ## Order and operations on `float64` values -/

theorem F64.round_ne_nan (q : ℚ) : F64.round q ≠ .nan := by
  unfold F64.round
  simp only
  split
  · simp
  · split <;> simp

theorem F64.add_fin_ne_nan (a b : ℚ) : F64.add (.fin a) (.fin b) ≠ .nan :=
  F64.round_ne_nan _

theorem F64.divTwo_ne_nan {x : F64} (h : x ≠ .nan) : F64.divTwo x ≠ .nan := by
  cases x with
  | fin a => exact F64.round_ne_nan _
  | pinf => simp [F64.divTwo]
  | ninf => simp [F64.divTwo]
  | nan => exact absurd rfl h

theorem F64.sub_fin_ne_nan {x : F64} (h : x ≠ .nan) (b : ℚ) : F64.sub x (.fin b) ≠ .nan := by
  cases x with
  | fin a => exact F64.round_ne_nan _
  | pinf => simp [F64.sub]
  | ninf => simp [F64.sub]
  | nan => exact absurd rfl h

theorem F64.abs_ne_nan {x : F64} (h : x ≠ .nan) : F64.abs x ≠ .nan := by
  cases x <;> simp [F64.abs] at h ⊢

theorem F64.max_ne_nan {x y : F64} (hx : x ≠ .nan) (hy : y ≠ .nan) : F64.max x y ≠ .nan := by
  unfold F64.max
  split
  · simp
  · split
    · rename_i h; rcases h with h | h
      · exact absurd h hx
      · exact absurd h hy
    · split
      · exact hx
      · exact hy

theorem f64_le_refl {x : F64} (h : x ≠ .nan) : F64.le x x = true := by
  cases x <;> simp [F64.le] at h ⊢

theorem f64_le_trans {x y z : F64} (h1 : F64.le x y = true) (h2 : F64.le y z = true) :
    F64.le x z = true := by
  cases x <;> cases y <;> cases z <;> simp [F64.le] at h1 h2 ⊢
  exact le_trans h1 h2

theorem f64_le_of_not_gt {x y : F64} (hx : x ≠ .nan) (hy : y ≠ .nan)
    (h : F64.gt x y = false) : F64.le x y = true := by
  cases x <;> cases y <;> simp [F64.le, F64.gt] at hx hy h ⊢
  exact h

theorem f64_le_max_left {x y : F64} (hx : x ≠ .nan) (hy : y ≠ .nan) :
    F64.le x (F64.max x y) = true := by
  cases x with
  | fin a =>
    cases y with
    | fin b =>
      by_cases h : b < a
      · simp [F64.max, F64.gt, F64.le, h]
      · simp [F64.max, F64.gt, F64.le, h]
        exact le_of_not_lt h
    | pinf => simp [F64.max, F64.le]
    | ninf => simp [F64.max, F64.gt, F64.le]
    | nan => exact absurd rfl hy
  | pinf => simp [F64.max, F64.le]
  | ninf => cases y <;> simp [F64.max, F64.gt, F64.le] at hy ⊢
  | nan => exact absurd rfl hx

theorem f64_le_max_right {x y : F64} (hx : x ≠ .nan) (hy : y ≠ .nan) :
    F64.le y (F64.max x y) = true := by
  cases x with
  | fin a =>
    cases y with
    | fin b =>
      by_cases h : b < a
      · simp [F64.max, F64.gt, F64.le, h]
        exact le_of_lt h
      · simp [F64.max, F64.gt, F64.le, h]
    | pinf => simp [F64.max, F64.le]
    | ninf => simp [F64.max, F64.gt, F64.le]
    | nan => exact absurd rfl hy
  | pinf => cases y <;> simp [F64.max, F64.le] at hy ⊢
  | ninf => cases y <;> simp [F64.max, F64.gt, F64.le] at hy ⊢
  | nan => exact absurd rfl hx

/-! ## `update` in `float64` arithmetic -/

theorem relax64_length (G : Int) (terrain : List F64) (p : Bool) (t : Tri) (errors : List F64) :
    (relax64 G terrain p t errors).length = errors.length := by
  unfold relax64
  split <;> simp

theorem relaxAll64_length (k : Nat) (terrain : List F64) (n : Nat) (errors : List F64) :
    (relaxAll64 k terrain n errors).length = errors.length := by
  induction n generalizing errors with
  | zero => rfl
  | succ n ih => simp only [relaxAll64]; rw [ih, relax64_length]

theorem updateStep64_eq {k : Nat} {m : Martini} (hm : ValidMartini k m)
    {terrain errors : List F64}
    (hlt : terrain.length = (2 ^ k + 1) ^ 2) (hle : errors.length = (2 ^ k + 1) ^ 2)
    {i : Nat} (hi : i < tableLen k) :
    updateStep64 m terrain (i : Int) errors =
      .ok (relax64 (2 ^ k + 1) terrain (decide ((i : Int) < (2 ^ k) ^ 2 - 2))
        (triangleOf (2 ^ k) i) errors) := by
  obtain ⟨r, hr, hs⟩ := table_shaped k i hi
  obtain ⟨ca, cb, cc, cd⟩ := hm.rd_coords hi
  obtain ⟨_, _, hcx, hcy⟩ := hs.apex_formula
  obtain ⟨mx0, mx1, my0, my1⟩ := hs.mid_bounds
  have hps : (i : Int) < (2 ^ k) ^ 2 - 2 →
      ∃ r, Shaped (2 ^ k) (r + 2) (triangleOf (2 ^ k) i) := fun hp => by
    obtain ⟨r', _, hs'⟩ := parent_shaped k i hp
    exact ⟨r', hs'⟩
  unfold updateStep64
  simp only [ca, cb, cc, cd, ok_bind, hm.gridSize_eq, hm.numParent_eq]
  change
    (do
      let ta ← rd terrain ((triangleOf (2 ^ k) i).ay * (2 ^ k + 1) + (triangleOf (2 ^ k) i).ax)
      let tb ← rd terrain ((triangleOf (2 ^ k) i).by_ * (2 ^ k + 1) + (triangleOf (2 ^ k) i).bx)
      let tm ← rd terrain ((triangleOf (2 ^ k) i).my * (2 ^ k + 1) + (triangleOf (2 ^ k) i).mx)
      let em ← rd errors ((triangleOf (2 ^ k) i).my * (2 ^ k + 1) + (triangleOf (2 ^ k) i).mx)
      let errors ← wr errors ((triangleOf (2 ^ k) i).my * (2 ^ k + 1) + (triangleOf (2 ^ k) i).mx)
        (F64.max em (F64.abs (F64.sub (F64.divTwo (F64.add ta tb)) tm)))
      if (i : Int) < (2 ^ k) ^ 2 - 2 then do
        let em ← rd errors
          ((triangleOf (2 ^ k) i).my * (2 ^ k + 1) + (triangleOf (2 ^ k) i).mx)
        let el ← rd errors
          (half ((triangleOf (2 ^ k) i).ay +
            ((triangleOf (2 ^ k) i).my + (triangleOf (2 ^ k) i).ax - (triangleOf (2 ^ k) i).mx)) *
              (2 ^ k + 1) +
            half ((triangleOf (2 ^ k) i).ax +
              ((triangleOf (2 ^ k) i).mx + (triangleOf (2 ^ k) i).my -
                (triangleOf (2 ^ k) i).ay)))
        let er ← rd errors
          (half ((triangleOf (2 ^ k) i).by_ +
            ((triangleOf (2 ^ k) i).my + (triangleOf (2 ^ k) i).ax - (triangleOf (2 ^ k) i).mx)) *
              (2 ^ k + 1) +
            half ((triangleOf (2 ^ k) i).bx +
              ((triangleOf (2 ^ k) i).mx + (triangleOf (2 ^ k) i).my -
                (triangleOf (2 ^ k) i).ay)))
        wr errors ((triangleOf (2 ^ k) i).my * (2 ^ k + 1) + (triangleOf (2 ^ k) i).mx)
          (F64.max (F64.max em el) er)
      else pure errors : Go (List F64)) = _
  generalize triangleOf (2 ^ k) i = t at *
  rw [hcx, hcy]
  rw [rd_cell k hlt hs.ax0 hs.ax1 hs.ay0 hs.ay1 (.fin 0),
    rd_cell k hlt hs.bx0 hs.bx1 hs.by0 hs.by1 (.fin 0),
    rd_cell k hlt mx0 mx1 my0 my1 (.fin 0), rd_cell k hle mx0 mx1 my0 my1 (.fin 0)]
  simp only [ok_bind]
  rw [wr_cell k hle mx0 mx1 my0 my1]
  simp only [ok_bind]
  by_cases hp : (i : Int) < (2 ^ k) ^ 2 - 2
  · obtain ⟨r', hs'⟩ := hps hp
    obtain ⟨lx0, lx1, ly0, ly1⟩ := hs'.children.1.mid_bounds
    obtain ⟨rx0, rx1, ry0, ry1⟩ := hs'.children.2.mid_bounds
    have e1 : half (t.ay + t.cy) = t.left.my := by
      simp only [Tri.my, Tri.left, add_comm]
    have e2 : half (t.ax + t.cx) = t.left.mx := by
      simp only [Tri.mx, Tri.left, add_comm]
    have e3 : half (t.by_ + t.cy) = t.right.my := rfl
    have e4 : half (t.bx + t.cx) = t.right.mx := rfl
    have hle1 : ∀ v : F64, (errors.set (cellIx (2 ^ k + 1) t.mx t.my) v).length =
        (2 ^ k + 1) ^ 2 := fun v => by simp [hle]
    simp only [hp, if_true, e1, e2, e3, e4]
    rw [rd_cell k (hle1 _) mx0 mx1 my0 my1 (.fin 0), rd_cell k (hle1 _) lx0 lx1 ly0 ly1 (.fin 0),
      rd_cell k (hle1 _) rx0 rx1 ry0 ry1 (.fin 0)]
    simp only [ok_bind]
    rw [wr_cell k (hle1 _) mx0 mx1 my0 my1]
    simp only [relax64, valAt64, midError64, decide_True, if_true]
  · simp only [hp, if_false, pure_eq_ok, relax64, valAt64, midError64, decide_False]
    rfl

theorem updateLoop64_eq {k : Nat} {m : Martini} (hm : ValidMartini k m) {terrain : List F64}
    (hlt : terrain.length = (2 ^ k + 1) ^ 2) (n : Nat) (hn : n ≤ tableLen k)
    (errors : List F64) (hle : errors.length = (2 ^ k + 1) ^ 2) :
    updateLoop64 m terrain n errors = .ok (relaxAll64 k terrain n errors) := by
  induction n generalizing errors with
  | zero => rfl
  | succ n ih =>
    simp only [updateLoop64, relaxAll64]
    rw [updateStep64_eq hm hlt hle (by omega)]
    simp only [ok_bind]
    exact ih (by omega) _ (by rw [relax64_length]; exact hle)

/-- The error array that `NewTile` computes in `float64` arithmetic on a grid of side
`2 ^ k + 1`. -/
theorem NewTile64_eq {k : Nat} {m : Martini} (hm : ValidMartini k m) {terrain : List F64}
    (hlt : terrain.length = (2 ^ k + 1) ^ 2) :
    NewTile64 terrain m = .ok
      { terrain := terrain, martini := m,
        errors := relaxAll64 k terrain (tableLen k)
          (List.replicate ((2 ^ k + 1) ^ 2) (.fin 0)) } := by
  unfold NewTile64
  have hsz : ¬ ((terrain.length : Int) ≠ m.gridSize * m.gridSize) := by
    rw [hm.gridSize_eq, hlt]; push_cast; simp; ring
  simp only [hsz, if_false]
  have hmk : makeFloats64 (terrain.length : Int) =
      .ok (List.replicate ((2 ^ k + 1) ^ 2) (.fin 0)) := by
    unfold makeFloats64
    have : ¬ ((terrain.length : Int) < 0) := by omega
    rw [if_neg this, Int.toNat_natCast, hlt]
  rw [hmk]
  simp only [ok_bind, update64, hm.numTriangles_eq, Int.toNat_natCast]
  rw [updateLoop64_eq hm hlt _ le_rfl _ (by simp)]
  rfl

/-! ### The `float64` error array holds no NaN and only grows -/

theorem getD_ne_nan {E : List F64} (h : ∀ e ∈ E, e ≠ F64.nan) (j : Nat) :
    E.getD j (.fin 0) ≠ .nan := by
  by_cases hj : j < E.length
  · rw [List.getD_eq_getElem _ _ hj]
    exact h _ (List.getElem_mem hj)
  · rw [List.getD_eq_default _ _ (by omega)]
    simp

theorem valAt64_ne_nan {E : List F64} (h : ∀ e ∈ E, e ≠ F64.nan) (G x y : Int) :
    valAt64 E G x y ≠ .nan := getD_ne_nan h _

theorem set_ne_nan {E : List F64} (h : ∀ e ∈ E, e ≠ F64.nan) {v : F64} (hv : v ≠ .nan)
    (i : Nat) : ∀ e ∈ E.set i v, e ≠ F64.nan := by
  intro e he
  rcases List.mem_or_eq_of_mem_set he with h1 | h1
  · exact h e h1
  · rw [h1]; exact hv

theorem valAt64_fin {terrain : List F64} (h : ∀ x ∈ terrain, ∃ q, x = F64.fin q)
    (G x y : Int) : ∃ q, valAt64 terrain G x y = .fin q := by
  unfold valAt64
  by_cases hj : cellIx G x y < terrain.length
  · rw [List.getD_eq_getElem _ _ hj]
    exact h _ (List.getElem_mem hj)
  · rw [List.getD_eq_default _ _ (by omega)]
    exact ⟨0, rfl⟩

/-- On finite heights the interpolation error that `update` computes is never NaN. -/
theorem midError64_ne_nan {terrain : List F64} (h : ∀ x ∈ terrain, ∃ q, x = F64.fin q)
    (G : Int) (t : Tri) : midError64 terrain G t ≠ .nan := by
  obtain ⟨a, ha⟩ := valAt64_fin h G t.ax t.ay
  obtain ⟨b, hb⟩ := valAt64_fin h G t.bx t.by_
  obtain ⟨c, hc⟩ := valAt64_fin h G t.mx t.my
  unfold midError64
  rw [ha, hb, hc]
  exact F64.abs_ne_nan (F64.sub_fin_ne_nan (F64.divTwo_ne_nan (F64.add_fin_ne_nan a b)) c)

section Relax64

variable (G : Int) (terrain : List F64) (p : Bool) (t : Tri) (errors : List F64)

theorem relax64_getD_ne (j : Nat) (h : cellIx G t.mx t.my ≠ j) :
    (relax64 G terrain p t errors).getD j (.fin 0) = errors.getD j (.fin 0) := by
  unfold relax64
  split
  · simp only [getD_set_ne _ _ _ _ _ h]
  · simp only [getD_set_ne _ _ _ _ _ h]

theorem relax64_getD_mid (h : cellIx G t.mx t.my < errors.length) :
    (relax64 G terrain p t errors).getD (cellIx G t.mx t.my) (.fin 0) =
      if p then
        F64.max (F64.max (F64.max (errors.getD (cellIx G t.mx t.my) (.fin 0))
            (midError64 terrain G t))
          (valAt64 (errors.set (cellIx G t.mx t.my)
            (F64.max (errors.getD (cellIx G t.mx t.my) (.fin 0)) (midError64 terrain G t)))
            G t.left.mx t.left.my))
          (valAt64 (errors.set (cellIx G t.mx t.my)
            (F64.max (errors.getD (cellIx G t.mx t.my) (.fin 0)) (midError64 terrain G t)))
            G t.right.mx t.right.my)
      else
        F64.max (errors.getD (cellIx G t.mx t.my) (.fin 0)) (midError64 terrain G t) := by
  unfold relax64
  cases p
  · simp only [Bool.false_eq_true, if_false]
    rw [getD_set_self _ _ _ _ h]
  · simp only [if_true]
    rw [getD_set_self _ _ _ _ (by simpa using h), getD_set_self _ _ _ _ h]

theorem relax64_ne_nan (hE : ∀ e ∈ errors, e ≠ F64.nan)
    (hd : midError64 terrain G t ≠ .nan) :
    ∀ e ∈ relax64 G terrain p t errors, e ≠ F64.nan := by
  have h1 : F64.max (errors.getD (cellIx G t.mx t.my) (.fin 0)) (midError64 terrain G t) ≠
      .nan := F64.max_ne_nan (getD_ne_nan hE _) hd
  have hE1 := set_ne_nan hE h1 (cellIx G t.mx t.my)
  unfold relax64
  simp only
  split
  · apply set_ne_nan hE1
    exact F64.max_ne_nan (F64.max_ne_nan (getD_ne_nan hE1 _) (valAt64_ne_nan hE1 _ _ _))
      (valAt64_ne_nan hE1 _ _ _)
  · exact hE1

theorem relax64_mono (hE : ∀ e ∈ errors, e ≠ F64.nan) (hd : midError64 terrain G t ≠ .nan)
    (j : Nat) :
    F64.le (errors.getD j (.fin 0)) ((relax64 G terrain p t errors).getD j (.fin 0)) = true := by
  have h0 := getD_ne_nan hE (cellIx G t.mx t.my)
  have h1 : F64.max (errors.getD (cellIx G t.mx t.my) (.fin 0)) (midError64 terrain G t) ≠
      .nan := F64.max_ne_nan h0 hd
  have hE1 := set_ne_nan hE h1 (cellIx G t.mx t.my)
  by_cases hj : cellIx G t.mx t.my = j
  · subst hj
    by_cases hlen : cellIx G t.mx t.my < errors.length
    · rw [relax64_getD_mid G terrain p t errors hlen]
      split
      · have hl := valAt64_ne_nan hE1 G t.left.mx t.left.my
        have hr := valAt64_ne_nan hE1 G t.right.mx t.right.my
        exact f64_le_trans (f64_le_max_left h0 hd)
          (f64_le_trans (f64_le_max_left h1 hl) (f64_le_max_left (F64.max_ne_nan h1 hl) hr))
      · exact f64_le_max_left h0 hd
    · have hl : (relax64 G terrain p t errors).length ≤ cellIx G t.mx t.my := by
        rw [relax64_length]; omega
      rw [List.getD_eq_default _ _ hl, List.getD_eq_default _ _ (by omega)]
      rfl
  · rw [relax64_getD_ne G terrain p t errors j hj]
    exact f64_le_refl (getD_ne_nan hE j)

theorem relax64_mid_ge (hE : ∀ e ∈ errors, e ≠ F64.nan) (hd : midError64 terrain G t ≠ .nan)
    (h : cellIx G t.mx t.my < errors.length) :
    F64.le (midError64 terrain G t) (valAt64 (relax64 G terrain p t errors) G t.mx t.my) =
      true := by
  have h0 := getD_ne_nan hE (cellIx G t.mx t.my)
  have h1 : F64.max (errors.getD (cellIx G t.mx t.my) (.fin 0)) (midError64 terrain G t) ≠
      .nan := F64.max_ne_nan h0 hd
  have hE1 := set_ne_nan hE h1 (cellIx G t.mx t.my)
  unfold valAt64
  rw [relax64_getD_mid G terrain p t errors h]
  split
  · have hl := valAt64_ne_nan hE1 G t.left.mx t.left.my
    have hr := valAt64_ne_nan hE1 G t.right.mx t.right.my
    exact f64_le_trans (f64_le_max_right h0 hd)
      (f64_le_trans (f64_le_max_left h1 hl) (f64_le_max_left (F64.max_ne_nan h1 hl) hr))
  · exact f64_le_max_right h0 hd

end Relax64

/-- The final `float64` error array holds no NaN, and at the midpoint of every table
triangle it is at least the interpolation error computed for that triangle. -/
theorem final_ge_middle64 (k : Nat) {terrain : List F64}
    (hfin : ∀ x ∈ terrain, ∃ q, x = F64.fin q) (N : Nat) (e : List F64)
    (he : e.length = (2 ^ k + 1) ^ 2) (hE : ∀ x ∈ e, x ≠ F64.nan) :
    (∀ x ∈ relaxAll64 k terrain N e, x ≠ F64.nan) ∧
    ∀ i, i < tableLen k → i < N →
      F64.le (midError64 terrain (2 ^ k + 1) (triangleOf (2 ^ k) i))
        (valAt64 (relaxAll64 k terrain N e) (2 ^ k + 1) (triangleOf (2 ^ k) i).mx
          (triangleOf (2 ^ k) i).my) = true := by
  induction N generalizing e with
  | zero => exact ⟨hE, fun i _ h => absurd h (by omega)⟩
  | succ N ih =>
    simp only [relaxAll64]
    have hd := fun t => midError64_ne_nan hfin (2 ^ k + 1) t
    have hE1 := relax64_ne_nan (2 ^ k + 1) terrain (decide ((N : Int) < (2 ^ k) ^ 2 - 2))
      (triangleOf (2 ^ k) N) e hE (hd _)
    have hl1 : (relax64 (2 ^ k + 1) terrain (decide ((N : Int) < (2 ^ k) ^ 2 - 2))
        (triangleOf (2 ^ k) N) e).length = (2 ^ k + 1) ^ 2 := by
      rw [relax64_length]; exact he
    obtain ⟨n1, n2⟩ := ih _ hl1 hE1
    refine ⟨n1, ?_⟩
    intro i hi hiN
    rcases Nat.lt_succ_iff_lt_or_eq.mp hiN with hlt | heq
    · exact n2 i hi hlt
    · subst heq
      obtain ⟨r, _, hs⟩ := table_shaped k i hi
      have hmid : cellIx (2 ^ k + 1) (triangleOf (2 ^ k) i).mx (triangleOf (2 ^ k) i).my <
          e.length := by rw [he]; exact mid_cell_lt hs
      have hstep := relax64_mid_ge (2 ^ k + 1) terrain (decide ((i : Int) < (2 ^ k) ^ 2 - 2))
        (triangleOf (2 ^ k) i) e hE (hd _) hmid
      refine f64_le_trans hstep ?_
      have hmono : ∀ (n : Nat) (E : List F64), (∀ x ∈ E, x ≠ F64.nan) → ∀ j,
          F64.le (E.getD j (.fin 0)) ((relaxAll64 k terrain n E).getD j (.fin 0)) = true := by
        intro n
        induction n with
        | zero => intro E hEn j; exact f64_le_refl (getD_ne_nan hEn j)
        | succ n ihn =>
          intro E hEn j
          simp only [relaxAll64]
          exact f64_le_trans (relax64_mono _ _ _ _ _ hEn (hd _) j)
            (ihn _ (relax64_ne_nan _ _ _ _ _ hEn (hd _)) j)
      exact hmono i _ hE1 _

/-! ## `GetMesh` depends on the error field through its split decisions only -/

theorem exceeds_pos (maxError e : F64) :
    decide (F64.exceeds maxError e > 0) = F64.gt e maxError := by
  unfold F64.exceeds
  cases F64.gt e maxError <;> simp

theorem splits64_eq (t : Tile64) (maxError : F64) (tri : Tri) :
    splits64 t maxError tri = splits (t.decisions maxError) 0 tri := by
  unfold splits64 splits Tile64.decisions
  simp only
  split
  · unfold rd
    split
    · rfl
    · rw [List.getElem?_map]
      cases t.errors[(tri.my * t.martini.gridSize + tri.mx).toNat]? with
      | none => rfl
      | some v =>
        simp only [Option.map_some', ok_bind, pure_eq_ok, exceeds_pos]
  · rfl

theorem countElements64_eq (t : Tile64) (maxError : F64) (fuel : Nat) (tri : Tri)
    (s : CountState) :
    countElements64 t maxError fuel tri s =
      countElements (t.decisions maxError) 0 fuel tri s := by
  induction fuel generalizing tri s with
  | zero => rfl
  | succ f ih =>
    have hg : (t.decisions maxError).martini.gridSize = t.martini.gridSize := rfl
    simp only [countElements64, countElements, splits64_eq, hg, ih]

theorem processTriangle64_eq (t : Tile64) (maxError : F64) (indices : List Int) (fuel : Nat)
    (tri : Tri) (s : FillState) :
    processTriangle64 t maxError indices fuel tri s =
      processTriangle (t.decisions maxError) 0 indices fuel tri s := by
  induction fuel generalizing tri s with
  | zero => rfl
  | succ f ih =>
    have hg : (t.decisions maxError).martini.gridSize = t.martini.gridSize := rfl
    simp only [processTriangle64, processTriangle, splits64_eq, hg, ih]

/-- The `float64` run of `GetMesh` is the exact run on the tile of its split decisions. -/
theorem GetMesh64_eq (fuel : Nat) (t : Tile64) (maxError : F64) :
    GetMesh64 fuel t maxError = GetMesh fuel (t.decisions maxError) 0 := by
  have hm : (t.decisions maxError).martini = t.martini := rfl
  unfold GetMesh64 GetMesh
  simp only [countElements64_eq, processTriangle64_eq, hm]

theorem decisions_valid {k : Nat} {t : Tile64} (hm : ValidMartini k t.martini)
    (hlt : t.terrain.length = (2 ^ k + 1) ^ 2) (hle : t.errors.length = (2 ^ k + 1) ^ 2)
    (maxError : F64) : ValidTile k (t.decisions maxError) :=
  ⟨hm, by simp [Tile64.decisions, hlt], by simp [Tile64.decisions, hle]⟩

theorem decisions_valAt {t : Tile64} (maxError : F64) (G x y : Int)
    (h : cellIx G x y < t.errors.length) :
    valAt (t.decisions maxError).errors G x y =
      F64.exceeds maxError (valAt64 t.errors G x y) := by
  unfold valAt valAt64 Tile64.decisions
  simp only
  rw [List.getD_eq_getElem _ _ (by simpa using h), List.getD_eq_getElem _ _ h,
    List.getElem_map]

/-- What `New`, `NewTile` and the layout of the tile give in `float64` arithmetic on a grid
of side `2 ^ k + 1`. -/
theorem pipeline64 (k : Nat) (terrain : List F64) (hlen : terrain.length = (2 ^ k + 1) ^ 2) :
    ∃ m tile, New (2 ^ k + 1) = .ok m ∧ NewTile64 terrain m = .ok tile ∧ ValidMartini k m ∧
      tile.martini = m ∧ tile.terrain = terrain ∧
      tile.errors = relaxAll64 k terrain (tableLen k)
        (List.replicate ((2 ^ k + 1) ^ 2) (.fin 0)) ∧
      tile.errors.length = (2 ^ k + 1) ^ 2 := by
  obtain ⟨m, hm, hv, _⟩ := New_pow k
  refine ⟨m, _, hm, NewTile64_eq hv hlen, hv, rfl, rfl, rfl, ?_⟩
  simp only [relaxAll64_length, List.length_replicate]

/-! ## Accuracy and constant terrain in `float64` arithmetic -/

theorem f64_le_nan (x : F64) : F64.le x .nan = false := by
  cases x <;> rfl

theorem roundedBump_mesh :
    returns (meshOf64 3 3 roundedBump (.fin 0))
      (fun mesh => mesh.triangles.length / 3 == 2 && mesh.triangle 0 == ⟨0, 0, 2, 2, 2, 0⟩) =
      true := by
  decide!

theorem checkerboard64_nan_mesh :
    returns (meshOf64 3 3 checkerboard64 .nan)
      (fun mesh => mesh.triangles.length / 3 == 2 && mesh.triangle 0 == ⟨0, 0, 2, 2, 2, 0⟩) =
      true := by
  decide!

/-- C1 (as stated, refuted). The `3 × 3` heightmap `roundedBump` consists of finite
`float64` numbers.  With `maxError = 0`, `GetMesh` emits the root triangle
`(0,0), (2,2), (2,0)`, which is larger than a unit triangle, although the interpolation
error at its hypotenuse midpoint `(1,1)` is `|(1 + 2^-60)/2 - 1/2| = 2^-61 > 0`: the sum
`1 + 2^-60` rounds to `1`, so `update` computes the error `0`.  And with `maxError = NaN`
on the checkerboard the same root triangle is emitted while `errors[m] <= NaN` is false
for every value of `errors[m]`. -/
theorem getMesh_accuracy_counterexample :
    (∀ h ∈ roundedBump, ∃ q, h = F64.fin q ∧ F64.Rep q) ∧
    (∃ mesh, meshOf64 3 3 roundedBump (.fin 0) = .ok mesh ∧
      mesh.triangles.length / 3 = 2 ∧ mesh.triangle 0 = ⟨0, 0, 2, 2, 2, 0⟩ ∧
      valAt64 roundedBump 3 0 0 = .fin 1 ∧ valAt64 roundedBump 3 2 2 = .fin (1 / 2 ^ 60) ∧
      valAt64 roundedBump 3 1 1 = .fin (1 / 2) ∧
      (0 : ℚ) < |((1 : ℚ) + 1 / 2 ^ 60) / 2 - 1 / 2|) ∧
    (∃ mesh, meshOf64 3 3 checkerboard64 .nan = .ok mesh ∧
      mesh.triangles.length / 3 = 2 ∧ mesh.triangle 0 = ⟨0, 0, 2, 2, 2, 0⟩ ∧
      ∀ e : F64, F64.le e .nan = false) := by
  refine ⟨?_, ?_, ?_⟩
  · intro h hh
    simp only [roundedBump, List.mem_cons, List.mem_singleton, List.not_mem_nil,
      or_false] at hh
    rcases hh with rfl | rfl | rfl | rfl | rfl | rfl | rfl | rfl | rfl
    · exact ⟨_, rfl, 1, 0, by norm_num, by norm_num, by norm_num, by norm_num⟩
    · exact ⟨_, rfl, 1, -1, by norm_num, by norm_num, by norm_num, by norm_num⟩
    · exact ⟨_, rfl, 0, 0, by norm_num, by norm_num, by norm_num, by norm_num⟩
    · exact ⟨_, rfl, 1, -1, by norm_num, by norm_num, by norm_num, by norm_num⟩
    · exact ⟨_, rfl, 1, -1, by norm_num, by norm_num, by norm_num, by norm_num⟩
    · exact ⟨_, rfl, 1, -61, by norm_num, by norm_num, by norm_num, by norm_num⟩
    · exact ⟨_, rfl, 0, 0, by norm_num, by norm_num, by norm_num, by norm_num⟩
    · exact ⟨_, rfl, 1, -61, by norm_num, by norm_num, by norm_num, by norm_num⟩
    · exact ⟨_, rfl, 1, -60, by norm_num, by norm_num, by norm_num, by norm_num⟩
  · obtain ⟨mesh, hm, hp⟩ := (returns_iff _ _).mp roundedBump_mesh
    simp only [Bool.and_eq_true, beq_iff_eq] at hp
    exact ⟨mesh, hm, hp.1, hp.2, rfl, rfl, rfl, by norm_num⟩
  · obtain ⟨mesh, hm, hp⟩ := (returns_iff _ _).mp checkerboard64_nan_mesh
    simp only [Bool.and_eq_true, beq_iff_eq] at hp
    exact ⟨mesh, hm, hp.1, hp.2, f64_le_nan⟩

/-- C1 (amended). Accuracy bound of `GetMesh` in `float64` arithmetic: on a grid of side
`2 ^ k + 1`, for every terrain of `gridSize²` finite heights and every `maxError` other
than NaN, `New`, `NewTile` and `GetMesh` return, and every output triangle `(a, b, c)`
with `|ax-cx| + |ay-cy| > 1` has `errors[m] <= maxError` at its hypotenuse midpoint `m`,
hence the interpolation error as `update` computes it,
`math.Abs((terrain[a] + terrain[b]) / 2 - terrain[m])`, is `<= maxError`. -/
theorem getMesh_accuracy (k : Nat) (terrain : List F64) (maxError : F64) (fuel : Nat)
    (hlen : terrain.length = (2 ^ k + 1) ^ 2) (hfin : ∀ h ∈ terrain, ∃ q, h = F64.fin q)
    (hme : maxError ≠ .nan) (hfuel : 2 * k + 1 ≤ fuel) :
    ∃ m tile mesh, New (2 ^ k + 1) = .ok m ∧ NewTile64 terrain m = .ok tile ∧
      GetMesh64 fuel tile maxError = .ok mesh ∧
      ∀ j, 3 * j + 2 < mesh.triangles.length →
        |(mesh.triangle j).ax - (mesh.triangle j).cx| +
            |(mesh.triangle j).ay - (mesh.triangle j).cy| > 1 →
          F64.le (valAt64 tile.errors (2 ^ k + 1) (mesh.triangle j).mx (mesh.triangle j).my)
            maxError = true ∧
          F64.le (midError64 terrain (2 ^ k + 1) (mesh.triangle j)) maxError = true := by
  obtain ⟨m, tile, hm, ht, hv, htm, htt, herr, hel⟩ := pipeline64 k terrain hlen
  have hvt : ValidTile k (tile.decisions maxError) :=
    decisions_valid (by rw [htm]; exact hv) (by rw [htt]; exact hlen) hel maxError
  obtain ⟨mesh, nV, hg, hrep, _, _⟩ := GetMesh_rep hvt 0 fuel hfuel
  obtain ⟨hnn, hge⟩ := final_ge_middle64 k hfin (tableLen k)
    (List.replicate ((2 ^ k + 1) ^ 2) (.fin 0)) (List.length_replicate _ _)
    (fun x hx => by rw [List.eq_of_mem_replicate hx]; simp)
  rw [← herr] at hnn hge
  refine ⟨m, tile, mesh, hm, ht, by rw [GetMesh64_eq]; exact hg, ?_⟩
  intro j hj hsize
  obtain ⟨t, hjt⟩ := hrep.getElem?_of_lt hj
  rw [hrep.triangle_eq hjt] at hsize ⊢
  have hmem := List.getElem?_mem hjt
  obtain ⟨r', _, hs, hsp⟩ := emitted_spec k (tile.decisions maxError).errors 0 t hmem
  obtain ⟨r, hs2, htab⟩ := emitted_tabled k (tile.decisions maxError).errors 0 t hmem
  obtain ⟨r0, rfl⟩ : ∃ r0, r = r0 + 1 :=
    ⟨r - 1, by have := hs2.size_gt_one_iff.mp hsize; omega⟩
  have hcell : cellIx (2 ^ k + 1) t.mx t.my < tile.errors.length := by
    rw [hel]; exact mid_cell_lt hs2
  have hle : F64.le (valAt64 tile.errors (2 ^ k + 1) t.mx t.my) maxError = true := by
    apply f64_le_of_not_gt (valAt64_ne_nan hnn _ _ _) hme
    unfold splitsP at hsp
    simp only [hsize, decide_True, Bool.true_and, decide_eq_false_iff_not, not_lt] at hsp
    rw [decisions_valAt maxError _ _ _ hcell] at hsp
    unfold F64.exceeds at hsp
    cases hgt : F64.gt (valAt64 tile.errors (2 ^ k + 1) t.mx t.my) maxError with
    | false => rfl
    | true =>
      rw [hgt] at hsp
      norm_num at hsp
  refine ⟨hle, f64_le_trans ?_ hle⟩
  obtain ⟨i, hi, _, rfl⟩ := htab.index
  exact hge i hi hi

/-- C1 (amended), instance: the `3 × 3` checkerboard with `maxError = 1`. -/
theorem getMesh_accuracy_witness :
    (checkerboard64.length = (2 ^ 1 + 1) ^ 2 ∧ (∀ h ∈ checkerboard64, ∃ q, h = F64.fin q) ∧
      F64.fin 1 ≠ .nan ∧ 2 * 1 + 1 ≤ 3) ∧
    ∃ m tile mesh, New (2 ^ 1 + 1) = .ok m ∧ NewTile64 checkerboard64 m = .ok tile ∧
      GetMesh64 3 tile (.fin 1) = .ok mesh ∧
      ∀ j, 3 * j + 2 < mesh.triangles.length →
        |(mesh.triangle j).ax - (mesh.triangle j).cx| +
            |(mesh.triangle j).ay - (mesh.triangle j).cy| > 1 →
          F64.le (valAt64 tile.errors (2 ^ 1 + 1) (mesh.triangle j).mx (mesh.triangle j).my)
            (.fin 1) = true ∧
          F64.le (midError64 checkerboard64 (2 ^ 1 + 1) (mesh.triangle j)) (.fin 1) = true :=
  ⟨⟨by decide, fun h hh => by
      obtain ⟨q, _, rfl⟩ := List.mem_map.mp hh
      exact ⟨q, rfl⟩, by simp, by decide⟩,
    getMesh_accuracy 1 checkerboard64 (.fin 1) 3 (by decide) (fun h hh => by
      obtain ⟨q, _, rfl⟩ := List.mem_map.mp hh
      exact ⟨q, rfl⟩) (by simp) (by decide)⟩

/-! ### Constant terrain in `float64` arithmetic -/

theorem getD_replicate_default {α : Type} (n j : Nat) (v : α) :
    (List.replicate n v).getD j v = v := by
  rw [List.getD_eq_getElem?_getD, List.getElem?_replicate]
  split <;> rfl

theorem f64_max_zero : F64.max (.fin 0) (.fin 0) = .fin 0 := by
  simp [F64.max, F64.gt]

theorem f64_gt_of_le {x y : F64} (h : F64.le x y = true) : F64.gt x y = false := by
  cases x <;> cases y <;> simp [F64.le, F64.gt] at h ⊢
  exact h

/-- On a constant terrain whose height `c` is a `float64` number with `c + c` finite,
`update` computes the interpolation error 0 for every table triangle. -/
theorem midError64_const {c : ℚ} (hc : F64.Rep c) (hb : |c + c| < 2 ^ 1024) (k : Nat)
    {t : Tri} {r : Nat} (hs : Shaped (2 ^ k) (r + 1) t) :
    midError64 (List.replicate ((2 ^ k + 1) ^ 2) (.fin c)) (2 ^ k + 1) t = .fin 0 := by
  have hval : ∀ x y : Int, 0 ≤ x → x ≤ 2 ^ k → 0 ≤ y → y ≤ 2 ^ k →
      valAt64 (List.replicate ((2 ^ k + 1) ^ 2) (.fin c)) (2 ^ k + 1) x y = .fin c := by
    intro x y a b c' d
    have := cellIx_lt k a b c' d
    unfold valAt64
    rw [List.getD_eq_getElem?_getD, List.getElem?_replicate, if_pos this]; rfl
  obtain ⟨a, b, c', d⟩ := hs.mid_bounds
  unfold midError64
  rw [hval _ _ hs.ax0 hs.ax1 hs.ay0 hs.ay1, hval _ _ hs.bx0 hs.bx1 hs.by0 hs.by1,
    hval _ _ a b c' d]
  have e1 : F64.add (.fin c) (.fin c) = .fin (c + c) := F64.round_of_rep (F64.rep_double hc hb)
  have e2 : F64.divTwo (.fin (c + c)) = .fin c := by
    show F64.round ((c + c) / 2) = .fin c
    rw [show (c + c) / 2 = c by ring]
    exact F64.round_of_rep hc
  have e3 : F64.sub (.fin c) (.fin c) = .fin 0 := by
    show F64.round (c - c) = .fin 0
    rw [sub_self]
    exact F64.round_of_rep F64.rep_zero
  rw [e1, e2, e3]
  simp [F64.abs]

theorem relax64_const {c : ℚ} (hc : F64.Rep c) (hb : |c + c| < 2 ^ 1024) (k : Nat) (p : Bool)
    (t : Tri) {r : Nat} (hs : Shaped (2 ^ k) (r + 1) t) :
    relax64 (2 ^ k + 1) (List.replicate ((2 ^ k + 1) ^ 2) (.fin c)) p t
        (List.replicate ((2 ^ k + 1) ^ 2) (.fin 0)) =
      List.replicate ((2 ^ k + 1) ^ 2) (.fin 0) := by
  have hz : ∀ x y : Int,
      valAt64 (List.replicate ((2 ^ k + 1) ^ 2) (.fin 0)) (2 ^ k + 1) x y = .fin 0 := by
    intro x y
    unfold valAt64
    exact getD_replicate_default _ _ _
  unfold relax64
  simp only [midError64_const hc hb k hs, getD_replicate_default, f64_max_zero,
    set_replicate_self, hz]
  split <;> rfl

theorem relaxAll64_const {c : ℚ} (hc : F64.Rep c) (hb : |c + c| < 2 ^ 1024) (k n : Nat)
    (hn : n ≤ tableLen k) :
    relaxAll64 k (List.replicate ((2 ^ k + 1) ^ 2) (.fin c)) n
        (List.replicate ((2 ^ k + 1) ^ 2) (.fin 0)) =
      List.replicate ((2 ^ k + 1) ^ 2) (.fin 0) := by
  induction n with
  | zero => rfl
  | succ n ih =>
    simp only [relaxAll64]
    obtain ⟨r, _, hs⟩ := table_shaped k n (by omega)
    rw [relax64_const hc hb k _ _ hs]
    exact ih (by omega)

theorem hugeFlat_errors :
    returns (New 3 >>= NewTile64 hugeFlat)
      (fun t => t.errors ==
        [.fin 0, .pinf, .fin 0, .pinf, .pinf, .pinf, .fin 0, .pinf, .fin 0]) = true := by
  decide!

theorem hugeFlat_mesh :
    returns (meshOf64 3 3 hugeFlat (.fin 0))
      (fun mesh => mesh.vertices.length / 2 == 9 && mesh.triangles.length / 3 == 8) = true := by
  decide!

/-- C5 (as stated, refuted). On the `3 × 3` grid with the constant height
`math.MaxFloat64`, a finite `float64` number, the sum `c + c` overflows to `+Inf`:
`NewTile` leaves `+Inf` in `errors` at the five cells that are not grid corners, and
`GetMesh(0)` returns 9 vertices and 8 triangles, not the minimal mesh. -/
theorem constant_terrain_counterexample :
    hugeFlat = List.replicate ((2 ^ 1 + 1) ^ 2) (F64.fin maxFloat64) ∧
    F64.Rep maxFloat64 ∧ F64.add (.fin maxFloat64) (.fin maxFloat64) = .pinf ∧
    (∃ m tile, New 3 = .ok m ∧ NewTile64 hugeFlat m = .ok tile ∧
      tile.errors = [.fin 0, .pinf, .fin 0, .pinf, .pinf, .pinf, .fin 0, .pinf, .fin 0]) ∧
    (∃ mesh, meshOf64 3 3 hugeFlat (.fin 0) = .ok mesh ∧
      mesh.vertices.length / 2 = 9 ∧ mesh.triangles.length / 3 = 8) := by
  refine ⟨rfl, ⟨2 ^ 53 - 1, 971, by norm_num, by norm_num, by norm_num, ?_⟩, by decide!, ?_, ?_⟩
  · have e0 : (2 : ℚ) ^ (971 : Int) = 2 ^ 971 := zpow_natCast 2 971
    rw [e0]
    unfold maxFloat64
    push_cast
    ring
  · obtain ⟨tile, ht, hp⟩ := (returns_iff _ _).mp hugeFlat_errors
    obtain ⟨m, hm, htile⟩ := bind_eq_ok.mp ht
    simp only [beq_iff_eq] at hp
    exact ⟨m, tile, hm, htile, hp⟩
  · obtain ⟨mesh, hm, hp⟩ := (returns_iff _ _).mp hugeFlat_mesh
    simp only [Bool.and_eq_true, beq_iff_eq] at hp
    exact ⟨mesh, hm, hp.1, hp.2⟩

/-- C5 (amended). In `float64` arithmetic on a grid of side `2 ^ k + 1`: for every
constant terrain whose height `c` is a `float64` number with `|c| < 2 ^ 1023`, so that
`c + c` does not overflow, `NewTile` produces an `errors` array of `gridSize²` zeros, and
for every `maxError >= 0` (`+Inf` included), `GetMesh maxError` returns the minimal mesh
of 2 triangles and 4 vertices. -/
theorem constant_terrain_minimal (k : Nat) (c : ℚ) (maxError : F64) (fuel : Nat)
    (hc : F64.Rep c) (hb : |c| < 2 ^ 1023) (hme : F64.le (.fin 0) maxError = true)
    (hfuel : 2 * k + 1 ≤ fuel) :
    ∃ m tile mesh, New (2 ^ k + 1) = .ok m ∧
      NewTile64 (List.replicate ((2 ^ k + 1) ^ 2) (.fin c)) m = .ok tile ∧
      tile.errors.length = (2 ^ k + 1) ^ 2 ∧ (∀ e ∈ tile.errors, e = F64.fin 0) ∧
      GetMesh64 fuel tile maxError = .ok mesh ∧
      mesh.vertices = [0, 0, m.gridSize - 1, m.gridSize - 1, m.gridSize - 1, 0, 0,
        m.gridSize - 1] ∧
      mesh.triangles = [0, 1, 2, 1, 0, 3] ∧
      mesh.vertices.length / 2 = 4 ∧ mesh.triangles.length / 3 = 2 := by
  have hb2 : |c + c| < 2 ^ 1024 := by
    have : c + c = 2 * c := by ring
    rw [this, abs_mul, abs_of_pos (by norm_num : (0 : ℚ) < 2)]
    have : (2 : ℚ) ^ 1024 = 2 * 2 ^ 1023 := by rw [pow_succ]; ring
    rw [this]
    linarith
  obtain ⟨m, tile, hm, ht, hv, htm, htt, herr, hel⟩ :=
    pipeline64 k (List.replicate ((2 ^ k + 1) ^ 2) (.fin c)) (List.length_replicate _ _)
  rw [relaxAll64_const hc hb2 k _ le_rfl] at herr
  have hzero : ∀ e ∈ tile.errors, e = F64.fin 0 := by
    intro e he
    rw [herr] at he
    exact List.eq_of_mem_replicate he
  have hvt : ValidTile k (tile.decisions maxError) :=
    decisions_valid (by rw [htm]; exact hv) (by rw [htt]; simp) hel maxError
  have hdec : ∀ e ∈ (tile.decisions maxError).errors, e ≤ (0 : ℚ) := by
    intro e he
    simp only [Tile64.decisions, List.mem_map] at he
    obtain ⟨x, hx, rfl⟩ := he
    rw [hzero x hx]
    unfold F64.exceeds
    rw [f64_gt_of_le hme]
    simp
  obtain ⟨mesh, hg, h1, h2⟩ := GetMesh_minimal hvt 0 fuel hfuel hdec
  have e : m.gridSize - 1 = 2 ^ k := by rw [hv.gridSize_eq]; ring
  refine ⟨m, tile, mesh, hm, ht, hel, hzero, by rw [GetMesh64_eq]; exact hg, ?_, h2, ?_, ?_⟩
  · rw [e]; exact h1
  · rw [h1]; simp
  · rw [h2]; simp

/-- C5 (amended), instance: the `3 × 3` terrain of constant height 7 with `maxError = 0`. -/
theorem constant_terrain_minimal_witness :
    (F64.Rep 7 ∧ |(7 : ℚ)| < 2 ^ 1023 ∧ F64.le (.fin 0) (.fin 0) = true ∧ 2 * 1 + 1 ≤ 3) ∧
    ∃ m tile mesh, New (2 ^ 1 + 1) = .ok m ∧
      NewTile64 (List.replicate ((2 ^ 1 + 1) ^ 2) (.fin 7)) m = .ok tile ∧
      tile.errors.length = (2 ^ 1 + 1) ^ 2 ∧ (∀ e ∈ tile.errors, e = F64.fin 0) ∧
      GetMesh64 3 tile (.fin 0) = .ok mesh ∧
      mesh.vertices = [0, 0, m.gridSize - 1, m.gridSize - 1, m.gridSize - 1, 0, 0,
        m.gridSize - 1] ∧
      mesh.triangles = [0, 1, 2, 1, 0, 3] ∧
      mesh.vertices.length / 2 = 4 ∧ mesh.triangles.length / 3 = 2 :=
  ⟨⟨⟨7, 0, by norm_num, by norm_num, by norm_num, by norm_num⟩, by norm_num, by decide,
      by decide⟩,
    constant_terrain_minimal 1 7 (.fin 0) 3
      ⟨7, 0, by norm_num, by norm_num, by norm_num, by norm_num⟩ (by norm_num) (by decide)
      (by decide)⟩

/-! ## Claims about `New` in 64-bit arithmetic -/

theorem error_iff_not_ok {α : Type} (r : Go α) : (∃ e, r = .error e) ↔ ¬ ∃ a, r = .ok a := by
  cases r with
  | error e => simp
  | ok a => simp

/-- C9 (as stated, refuted). It is not true that `New` fails exactly when `gridSize - 1` is
no power of two or `gridSize < 3`.  `New 2` returns a Martini although `2 < 3`, over the
mathematical integers and in 64-bit arithmetic alike.  And in 64-bit arithmetic
`New (2 ^ 32 + 1)` fails although `2 ^ 32` is a power of two and `2 ^ 32 + 1 ≥ 3`:
`tileSize * tileSize` wraps to 0, `numTriangles` is `-2`, and `make` panics on the length
`-8`, whatever slice length the machine grants. -/
theorem new_fails_iff_counterexample :
    (¬ ∀ gridSize : Int, (∃ e, New gridSize = .error e) ↔
      ((¬ ∃ k : Nat, gridSize - 1 = 2 ^ k) ∨ gridSize < 3)) ∧
    (∃ m, New64 (2 ^ 45) 2 = .ok m) ∧
    (∃ e, New64 (2 ^ 45) (2 ^ 32 + 1) = .error e) ∧
    (∃ e, New64 (2 ^ 63 - 1) (2 ^ 32 + 1) = .error e) := by
  refine ⟨?_, ?_, New64_error_of_large _ 32 (by norm_num) (by norm_num),
    New64_error_of_large _ 32 (by norm_num) (by norm_num)⟩
  · intro h
    obtain ⟨e, he⟩ := (h 2).mpr (Or.inr (by norm_num))
    obtain ⟨m, hm, _⟩ := New_pow 0
    have e2 : ((2 : Int) ^ 0 + 1) = 2 := by norm_num
    rw [e2, he] at hm
    cases hm
  · exact (New64_ok_iff (2 ^ 45) 2 (by norm_num) (by norm_num) (by norm_num)).mpr
      ⟨0, by norm_num, by norm_num, by norm_num⟩

/-- C9 (amended). In 64-bit arithmetic, on a machine whose `make` grants slices of at most
`lim < 2 ^ 63` elements: for every `int` value `gridSize`, `New gridSize` fails, producing
no Martini, if and only if it is not the case that `gridSize - 1` is a power of two
`2 ^ k` with `k ≥ 0` and both arrays are granted, `gridSize * gridSize ≤ lim` and
`4 * (2 * (gridSize - 1)² - 2) ≤ lim`. -/
theorem new_fails_iff (lim gridSize : Int) (hlim : lim < 2 ^ 63) (h0 : -2 ^ 63 ≤ gridSize)
    (h1 : gridSize < 2 ^ 63) :
    (∃ e, New64 lim gridSize = .error e) ↔
      ¬ ((∃ k : Nat, gridSize - 1 = 2 ^ k) ∧ gridSize * gridSize ≤ lim ∧
        4 * (2 * (gridSize - 1) ^ 2 - 2) ≤ lim) := by
  rw [error_iff_not_ok, New64_ok_iff lim gridSize hlim h0 h1]
  apply not_congr
  constructor
  · rintro ⟨k, rfl, a, b⟩
    refine ⟨⟨k, by ring⟩, by rw [← sq]; exact a, ?_⟩
    have : ((2 : Int) ^ k + 1 - 1) = 2 ^ k := by ring
    rw [this]; exact b
  · rintro ⟨⟨k, hk⟩, a, b⟩
    have hg : gridSize = 2 ^ k + 1 := by omega
    subst hg
    refine ⟨k, rfl, by rw [sq]; exact a, ?_⟩
    have : ((2 : Int) ^ k + 1 - 1) = 2 ^ k := by ring
    rw [this] at b; exact b

/-- C9 (amended), instance: `gridSize = 2` on a machine that grants `2 ^ 45` elements. -/
theorem new_fails_iff_witness :
    ((2 : Int) ^ 45 < 2 ^ 63 ∧ -2 ^ 63 ≤ (2 : Int) ∧ (2 : Int) < 2 ^ 63) ∧
    ((∃ e, New64 (2 ^ 45) 2 = .error e) ↔
      ¬ ((∃ k : Nat, (2 : Int) - 1 = 2 ^ k) ∧ (2 : Int) * 2 ≤ 2 ^ 45 ∧
        4 * (2 * ((2 : Int) - 1) ^ 2 - 2) ≤ 2 ^ 45)) :=
  ⟨⟨by norm_num, by norm_num, by norm_num⟩,
    new_fails_iff (2 ^ 45) 2 (by norm_num) (by norm_num) (by norm_num)⟩

/-- C10 (as stated, refuted). In 64-bit arithmetic `New (2 ^ 32 + 1)` and
`New (2 ^ 31 + 1)` fail, although `32 ≥ 1` and `31 ≥ 1`: the products of `New` wrap, and
`make` panics on the length `-8`.  This holds on a machine that grants `2 ^ 45` elements
and on one that grants every length an `int` can hold. -/
theorem new_table_sizes_counterexample :
    (∃ e, New64 (2 ^ 45) (2 ^ 32 + 1) = .error e) ∧
    (∃ e, New64 (2 ^ 63 - 1) (2 ^ 32 + 1) = .error e) ∧
    (∃ e, New64 (2 ^ 45) (2 ^ 31 + 1) = .error e) ∧
    (∃ e, New64 (2 ^ 63 - 1) (2 ^ 31 + 1) = .error e) :=
  ⟨New64_error_of_large _ 32 (by norm_num) (by norm_num),
    New64_error_of_large _ 32 (by norm_num) (by norm_num),
    New64_error_of_large _ 31 (by norm_num) (by norm_num),
    New64_error_of_large _ 31 (by norm_num) (by norm_num)⟩

/-- C10 (amended). In 64-bit arithmetic, on a machine whose `make` grants slices of at most
`lim < 2 ^ 63` elements: for every `gridSize = 2 ^ k + 1` whose two arrays are granted,
`gridSize² ≤ lim` and `4 * (2 * (gridSize - 1)² - 2) ≤ lim` (which forces `k ≤ 30`),
`New gridSize` returns a Martini with `numTriangles = 2*(gridSize-1)² - 2`,
`numParentTriangles = numTriangles - (gridSize-1)²`, a `coords` table of
`4 * numTriangles` entries that holds the `(ax, ay, bx, by)` record of each triangle, and
an `indices` scratch array of `gridSize²` entries; it is the Martini of the run over the
mathematical integers. -/
theorem new_table_sizes (lim : Int) (k : Nat) (hlim : lim < 2 ^ 63)
    (h1 : ((2 : Int) ^ k + 1) ^ 2 ≤ lim) (h2 : 4 * (2 * ((2 : Int) ^ k) ^ 2 - 2) ≤ lim) :
    ∃ m, New64 lim (2 ^ k + 1) = .ok m ∧ New (2 ^ k + 1) = .ok m ∧ k ≤ 30 ∧
      m.gridSize = 2 ^ k + 1 ∧
      m.numTriangles = 2 * (m.gridSize - 1) ^ 2 - 2 ∧
      m.numParentTriangles = m.numTriangles - (m.gridSize - 1) ^ 2 ∧
      (m.coords.length : Int) = 4 * m.numTriangles ∧
      (∀ i : Nat, (i : Int) < m.numTriangles →
        m.coords[4 * i]? = some (triangleOf64 (m.gridSize - 1) i).ax ∧
        m.coords[4 * i + 1]? = some (triangleOf64 (m.gridSize - 1) i).ay ∧
        m.coords[4 * i + 2]? = some (triangleOf64 (m.gridSize - 1) i).bx ∧
        m.coords[4 * i + 3]? = some (triangleOf64 (m.gridSize - 1) i).by_) ∧
      (m.indices.length : Int) = m.gridSize ^ 2 := by
  have hk : k ≤ 30 := by
    by_contra hc
    have h31 : (2 : Int) ^ 31 ≤ 2 ^ k := pow_le_pow_right₀ (by norm_num) (by omega)
    have : (2 : Int) ^ 31 * 2 ^ 31 ≤ 2 ^ k * 2 ^ k := by nlinarith
    have e : ((2 : Int) ^ k) ^ 2 = 2 ^ k * 2 ^ k := by ring
    rw [e] at h2
    omega
  obtain ⟨m, hm, hv, _⟩ := New_pow k
  have hT : m.gridSize - 1 = 2 ^ k := by rw [hv.gridSize_eq]; ring
  have hc := tableLen_cast k
  refine ⟨m, by rw [New64_eq_New hk lim h1 h2]; exact hm, hm, hk, hv.gridSize_eq,
    ?_, ?_, ?_, ?_, ?_⟩
  · rw [hv.numTriangles_eq, hT, hc]; ring
  · rw [hv.numParent_eq, hv.numTriangles_eq, hT, hc]; ring
  · rw [hv.coords_len, hv.numTriangles_eq]; push_cast; ring
  · intro i hi
    rw [hv.numTriangles_eq] at hi
    have hi' : i < tableLen k := by exact_mod_cast hi
    rw [hT, triangleOf64_eq hk i hi']
    exact hv.table i hi'
  · rw [hv.indices_len, hv.gridSize_eq]; push_cast; ring

/-- C10 (amended), instance: `k = 1` on a machine that grants `2 ^ 45` elements. -/
theorem new_table_sizes_witness :
    ((2 : Int) ^ 45 < 2 ^ 63 ∧ ((2 : Int) ^ 1 + 1) ^ 2 ≤ 2 ^ 45 ∧
      4 * (2 * ((2 : Int) ^ 1) ^ 2 - 2) ≤ 2 ^ 45) ∧
    ∃ m, New64 (2 ^ 45) (2 ^ 1 + 1) = .ok m ∧ New (2 ^ 1 + 1) = .ok m ∧ 1 ≤ 30 ∧
      m.gridSize = 2 ^ 1 + 1 ∧
      m.numTriangles = 2 * (m.gridSize - 1) ^ 2 - 2 ∧
      m.numParentTriangles = m.numTriangles - (m.gridSize - 1) ^ 2 ∧
      (m.coords.length : Int) = 4 * m.numTriangles ∧
      (∀ i : Nat, (i : Int) < m.numTriangles →
        m.coords[4 * i]? = some (triangleOf64 (m.gridSize - 1) i).ax ∧
        m.coords[4 * i + 1]? = some (triangleOf64 (m.gridSize - 1) i).ay ∧
        m.coords[4 * i + 2]? = some (triangleOf64 (m.gridSize - 1) i).bx ∧
        m.coords[4 * i + 3]? = some (triangleOf64 (m.gridSize - 1) i).by_) ∧
      (m.indices.length : Int) = m.gridSize ^ 2 :=
  ⟨⟨by norm_num, by norm_num, by norm_num⟩,
    new_table_sizes (2 ^ 45) 1 (by norm_num) (by norm_num) (by norm_num)⟩

end Gomartini
